import Mathlib

/-!
Robot localisation by a hidden Markov model (`robotloc.cpp`).

A shallow embedding of the fixed-point program `src/robotloc.cpp`, with the parts of its
floating-point sibling `src/robotloc_float.cpp` that the comparisons need, and theorems about
them.

Conventions of the embedding:

* `uint32_t` / `uint64_t` / `size_t` values are natural numbers; every operation that is
  performed in a machine type carries its reduction `% 2^32` or `% 2^64` explicitly.
* the `enum direction` is carried by its integer value (`EAST = 0`, ..., `NUM_DIRECTIONS = 4`),
  because the program converts freely between the enumeration and `size_t` and applies
  bitwise XOR to it.
* an array access outside its array (undefined behaviour in C++) makes the embedded function
  return `none`.
* the generator state is passed explicitly: a function that draws returns the new state.
-/

namespace Robotloc

/-! ## Constants -/

/-- Grid width, `constexpr int WIDTH = 20`. -/
abbrev WIDTH : Nat := 20

/-- Grid height, `constexpr int HEIGHT = 8`. -/
abbrev HEIGHT : Nat := 8

/-- Chance of a corrupted heading, `0x10000000` in Q32 (0.0625). -/
abbrev DIR_NOISE_CHANCE : Nat := 0x10000000

/-- Chance of a reversed heading, `0x01000000` in Q32 (0.00390625). -/
abbrev DIR_BACK_CHANCE : Nat := 0x01000000

/-- Chance of an inverted sensor bit, `0x20000000` in Q32 (0.125). -/
abbrev SENSOR_NOISE_CHANCE : Nat := 0x20000000

/-! ## Points, directions, observations -/

/-- The struct `point`: `p0` is `p[0]` (column), `p1` is `p[1]` (row). -/
structure point where
  p0 : Int
  p1 : Int
deriving DecidableEq, Repr

/-- The enumeration `direction`, carried by its integer value. -/
abbrev direction : Type := Nat

/-- Enumerator `EAST`. -/
abbrev EAST : direction := 0
/-- Enumerator `NORTH`. -/
abbrev NORTH : direction := 1
/-- Enumerator `WEST`. -/
abbrev WEST : direction := 2
/-- Enumerator `SOUTH`. -/
abbrev SOUTH : direction := 3
/-- Enumerator `NUM_DIRECTIONS`, also the invalid direction. -/
abbrev NUM_DIRECTIONS : direction := 4

/-- The struct `observation`: `sensor d` is `sensor[d]` (true if no wall), read at
`d < NUM_DIRECTIONS` only. -/
structure observation where
  sensor : Nat → Bool
  direction : Nat

/-- The function `move_point`: one step from `pt` in the given direction; the sentinel and any
other value leave the point unchanged. -/
def move_point (pt : point) (dir : direction) : point :=
  match dir with
  | 0 => ⟨pt.p0 + 1, pt.p1⟩
  | 1 => ⟨pt.p0, pt.p1 - 1⟩
  | 2 => ⟨pt.p0 - 1, pt.p1⟩
  | 3 => ⟨pt.p0, pt.p1 + 1⟩
  | _ => pt

/-- The function `point_index`: `p[0] + p[1] * WIDTH` computed in `int` and converted to
`size_t`, so a negative value wraps modulo `2^64`. -/
def point_index (pt : point) : Nat :=
  ((pt.p0 + pt.p1 * (WIDTH : Int)) % (2 ^ 64 : Int)).toNat

/-- The function `from_index`. -/
def from_index (index : Nat) : point :=
  ⟨((index % WIDTH : Nat) : Int), ((index / WIDTH : Nat) : Int)⟩

/-- The function `is_invalid`: the point lies outside the grid. -/
def is_invalid (pt : point) : Bool :=
  decide (pt.p0 < 0) || decide (pt.p0 ≥ (WIDTH : Int)) ||
    decide (pt.p1 < 0) || decide (pt.p1 ≥ (HEIGHT : Int))

/-- The function `is_wall`: `map[point_index(point)] == '#'`; a read outside the map is
undefined behaviour and gives `none`. -/
def is_wall (pt : point) (map : List Char) : Option Bool :=
  match map.get? (point_index pt) with
  | some ch => some (ch == '#')
  | none => none

/-! ## Observation likelihood -/

/-- The first loop of `observation_probability`: starting from `(uint64_t)1 << 32`, one Q32
multiplication per sensor, by `SENSOR_NOISE_CHANCE` where the bits differ and by
`2^32 - SENSOR_NOISE_CHANCE` where they agree. -/
def sensor_probability (obs_from obs_to : observation) : Nat :=
  (List.range NUM_DIRECTIONS).foldl (fun ret dir =>
    if obs_from.sensor dir != obs_to.sensor dir then
      ((ret * SENSOR_NOISE_CHANCE) % 2 ^ 64) >>> 32
    else
      ((ret * ((2 ^ 32 - SENSOR_NOISE_CHANCE) % 2 ^ 64)) % 2 ^ 64) >>> 32) (2 ^ 32)

/-- The function `observation_probability` (fixed point). `obs_from` and `obs_to` are the
parameters `from` and `to`. The accumulator `ret` is a `uint64_t`; the `switch` is on the XOR
of the two headings, and a value other than 0, 1, 2, 3 matches no case. In case 0 the source
reads `(ret * (1 << 32)) - DIR_NOISE_CHANCE) >> 32`: the subtraction is applied to the product.
The result is the cast of `ret` to `uint32_t`. -/
def observation_probability (obs_from obs_to : observation) : Nat :=
  let ret : Nat := sensor_probability obs_from obs_to
  let x : Nat := obs_from.direction ^^^ obs_to.direction
  let ret : Nat :=
    if x = 1 ∨ x = 3 then
      (((ret * ((DIR_NOISE_CHANCE - DIR_BACK_CHANCE) % 2 ^ 32)) % 2 ^ 64) / 2) >>> 32
    else if x = 2 then
      ((ret * DIR_BACK_CHANCE) % 2 ^ 64) >>> 32
    else if x = 0 then
      ((((ret * 2 ^ 32) % 2 ^ 64) + 2 ^ 64 - DIR_NOISE_CHANCE) % 2 ^ 64) >>> 32
    else ret
  ret % 2 ^ 32

/-- Number of sensors on which two observations agree. -/
def sensor_matches (a b : observation) : Nat :=
  ((List.range NUM_DIRECTIONS).filter (fun d => a.sensor d == b.sensor d)).length

/-- The rational sensor factor of the likelihood model: `1 - 0.125` per agreeing sensor and
`0.125` per differing one. -/
def sensor_factor (a b : observation) : ℚ :=
  ∏ d in Finset.range 4, (if a.sensor d = b.sensor d then (1 - 0.125 : ℚ) else 0.125)

/-! ## Pseudorandom generator -/

/-- The struct `bb_rand_ctx`: four `uint32_t` words. -/
structure bb_rand_ctx where
  a : Nat
  b : Nat
  c : Nat
  d : Nat
deriving DecidableEq, Repr

/-- The specialisation `next_rand<bb_rand_ctx>`: returns the draw and the advanced state.
All arithmetic is `uint32_t`. -/
def next_rand (x : bb_rand_ctx) : Nat × bb_rand_ctx :=
  let e : Nat := (x.a + 2 ^ 32 - ((((x.b <<< 27) % 2 ^ 32) ||| (x.b >>> 5)) % 2 ^ 32)) % 2 ^ 32
  let a : Nat := (x.b ^^^ (((x.c <<< 17) % 2 ^ 32) ||| (x.c >>> 15))) % 2 ^ 32
  let b : Nat := (x.c + x.d) % 2 ^ 32
  let c : Nat := (x.d + e) % 2 ^ 32
  let d : Nat := (e + a) % 2 ^ 32
  (d, ⟨a, b, c, d⟩)

/-- The function `bb_rand_init`: seed, then discard 20 draws. -/
def bb_rand_init (seed : Nat) : bb_rand_ctx :=
  (List.range 20).foldl (fun x _ => (next_rand x).2) ⟨0xf1ea5eed, seed, seed, seed⟩

/-- Generator state after `k` draws: `next_rand` applied `k` times, outputs discarded. -/
def rand_state (k : Nat) (rng : bb_rand_ctx) : bb_rand_ctx :=
  (fun s => (next_rand s).2)^[k] rng

/-- The `k`-th draw from a generator state, counted from 1. -/
def rand_draw (k : Nat) (rng : bb_rand_ctx) : Nat :=
  (next_rand (rand_state (k - 1) rng)).1

/-! ## Noise on an observation -/

/-- The heading part of `perturb_observation`, for a draw `rand`. -/
def perturb_direction (dir : direction) (rand : Nat) : direction :=
  if rand < DIR_NOISE_CHANCE then
    if rand < DIR_BACK_CHANCE then
      dir ^^^ 2
    else
      let dir1 : Nat := dir ^^^ 1
      if rand &&& 1 ≠ 0 then dir1 ^^^ 2 else dir1
  else dir

/-- The body of the sensor loop of `perturb_observation` for `dir`: one draw; the bit
`sensor[dir]` is inverted when the draw is below `SENSOR_NOISE_CHANCE`. -/
def perturb_sensor (st : observation × bb_rand_ctx) (dir : Nat) : observation × bb_rand_ctx :=
  let (rand, rng) := next_rand st.2
  if rand < SENSOR_NOISE_CHANCE then
    ({ st.1 with sensor := Function.update st.1.sensor dir (!st.1.sensor dir) }, rng)
  else (st.1, rng)

/-- The function `perturb_observation` (fixed point): one draw for the heading, then the
sensor loop `dir = 0, 1, 2, 3`. Returns the perturbed observation and the advanced
generator. -/
def perturb_observation (obs : observation) (rng : bb_rand_ctx) : observation × bb_rand_ctx :=
  let (rand, rng) := next_rand rng
  let obs : observation := { obs with direction := perturb_direction obs.direction rand }
  (List.range NUM_DIRECTIONS).foldl perturb_sensor (obs, rng)

/-! ## Motion model -/

/-- The function `is_dir_free`: `!is_invalid(move) && !is_wall(move, map)`; the map is read
only when the neighbour is inside the grid. -/
def is_dir_free (pt : point) (map : List Char) (dir : direction) : Option Bool :=
  let move := move_point pt dir
  if is_invalid move then some false
  else
    match is_wall move map with
    | some w => some (!w)
    | none => none

/-- The first loop of `move_randomly`: the array `possibilities` filled with the free
directions in the order `dir = 0, 1, 2, 3`; its length is `num_possibilities`. -/
def move_possibilities (pt : point) (map : List Char) : Option (List direction) :=
  (List.range NUM_DIRECTIONS).foldlM (fun (possibilities : List direction) dir =>
    match is_dir_free pt map dir with
    | some true => some (possibilities ++ [dir])
    | some false => some possibilities
    | none => none) []

/-- The rejection loop of `move_randomly`, `while (rdir >= num_possibilities)`, with a bound
`fuel` on the number of further draws; `none` when the bound is exhausted. -/
def move_randomly_redraw (possibilities : List direction) :
    Nat → Nat → bb_rand_ctx → Option (direction × bb_rand_ctx)
  | fuel, rdir, rng =>
    if rdir ≥ possibilities.length then
      match fuel with
      | 0 => none
      | fuel + 1 =>
        let (rand, rng) := next_rand rng
        move_randomly_redraw possibilities fuel (rand &&& 0x3) rng
    else some (possibilities.getD rdir NUM_DIRECTIONS, rng)

/-- The function `move_randomly`: returns the chosen direction and the advanced generator.
`fuel` bounds the number of redraws of the rejection loop. The index into `possibilities` is
always below its length, so the default of `getD` is never returned. -/
def move_randomly (fuel : Nat) (pt : point) (map : List Char) (rng : bb_rand_ctx) :
    Option (direction × bb_rand_ctx) :=
  match move_possibilities pt map with
  | none => none
  | some possibilities =>
    let num_possibilities := possibilities.length
    if num_possibilities = 0 then some (NUM_DIRECTIONS, rng)
    else if num_possibilities = 1 then some (possibilities.getD 0 NUM_DIRECTIONS, rng)
    else
      let (rand, rng) := next_rand rng
      let rdir : Nat := rand &&& 0x3
      if num_possibilities = 2 then some (possibilities.getD (rdir &&& 0x1) NUM_DIRECTIONS, rng)
      else if num_possibilities = 4 then some (possibilities.getD rdir NUM_DIRECTIONS, rng)
      else move_randomly_redraw possibilities fuel rdir rng

/-! ## Observation model -/

/-- The function `compute_observation`: the four sensors are `is_dir_free` of the cell, the
heading is `obs_dir`. -/
def compute_observation (pt : point) (map : List Char) (obs_dir : direction) :
    Option observation :=
  match (List.range NUM_DIRECTIONS).foldlM (fun (sensor : Nat → Bool) dir =>
      match is_dir_free pt map dir with
      | some free => some (Function.update sensor dir free)
      | none => none) (fun _ => false) with
  | some sensor => some ⟨sensor, obs_dir⟩
  | none => none

/-! ## Belief filter -/

/-- The struct `locator`: the array `probability` of `WIDTH * HEIGHT` values of type
`uint32_t`. -/
structure locator where
  probability : List Nat
deriving DecidableEq, Repr

/-- The function `next_point`: advance in row-major order. -/
def next_point (pt : point) : point :=
  let p0 := pt.p0 + 1
  if p0 ≥ (WIDTH : Int) then ⟨0, pt.p1 + 1⟩ else ⟨p0, pt.p1⟩

/-- The points visited by `for (pt = start; pt.p[1] < HEIGHT; next_point(pt))`, at most `fuel`
of them. -/
def scan_points : Nat → point → List point
  | 0, _ => []
  | fuel + 1, pt => if pt.p1 < (HEIGHT : Int) then pt :: scan_points fuel (next_point pt) else []

/-- The function `normalize_probabilities` on an array `arr` of `size = arr.length` values:
the `uint64_t` sum, then each entry replaced by `2^32 - 1` when it equals the sum and by
`(arr[i] << 32) / sum_prob` otherwise. A division by zero is undefined behaviour and gives
`none`. (The second summation only feeds `printf`.) -/
def normalize_probabilities (arr : List Nat) : Option (List Nat) :=
  let sum_prob : Nat := arr.foldl (fun s a => (s + a) % 2 ^ 64) 0
  arr.mapM (fun a =>
    if a = sum_prob then some ((2 ^ 32 - 1) % 2 ^ 32)
    else if sum_prob = 0 then none
    else some ((((a <<< 32) % 2 ^ 64) / sum_prob) % 2 ^ 32))

/-- The first inner loop of `update_locator` for the cell `pt`: the array `dir_probs` and the
counter `num_prob`. -/
def update_dir_probs (pt : point) (map : List Char) (obs : observation) :
    Option (List Nat × Nat) :=
  (List.range NUM_DIRECTIONS).foldlM (fun (st : List Nat × Nat) dir =>
    let np := move_point pt dir
    match (if is_invalid np then some true else is_wall np map) with
    | none => none
    | some true => some (st.1.set dir 0, st.2)
    | some false =>
      match compute_observation np map dir with
      | none => none
      | some o => some (st.1.set dir (observation_probability o obs), st.2 + 1))
    ([0, 0, 0, 0], 0)

/-- The second inner loop of `update_locator` for the cell `pt`: each `moveprob` is added,
with saturation, into `ret.probability[point_index(np)]`. An index outside the array gives
`none`. -/
def update_spread (src_prob : Nat) (pt : point) (dir_probs : List Nat) (num_prob : Nat)
    (ret : List Nat) : Option (List Nat) :=
  (List.range NUM_DIRECTIONS).foldlM (fun (ret : List Nat) dir =>
    let np := move_point pt dir
    let moveprob : Nat := (((dir_probs.getD dir 0 * src_prob) % 2 ^ 64) / num_prob) >>> 32
    match ret.get? (point_index np) with
    | none => none
    | some old =>
      let newprob : Nat := (old + moveprob) % 2 ^ 64
      let newprob : Nat := if newprob ≥ 2 ^ 32 then 2 ^ 32 - 1 else newprob
      some (ret.set (point_index np) (newprob % 2 ^ 32))) ret

/-- The body of the outer loop of `update_locator` for the cell `pt`. -/
def update_cell (src_locator : locator) (map : List Char) (obs : observation)
    (ret : List Nat) (pt : point) : Option (List Nat) :=
  match is_wall pt map with
  | none => none
  | some true => some ret
  | some false =>
    match update_dir_probs pt map obs with
    | none => none
    | some (dir_probs, num_prob) =>
      if num_prob = 0 then some ret
      else
        match src_locator.probability.get? (point_index pt) with
        | none => none
        | some src_prob => update_spread src_prob pt dir_probs num_prob ret

/-- The accumulation loop of `update_locator`: the array `ret.probability` as it stands just
before the call of `normalize_probabilities`. -/
def update_accumulate (src_locator : locator) (map : List Char) (obs : observation) :
    Option (List Nat) :=
  (scan_points (WIDTH * HEIGHT + 1) ⟨0, 0⟩).foldlM (update_cell src_locator map obs)
    (List.replicate (WIDTH * HEIGHT) 0)

/-- The function `update_locator` (fixed point). -/
def update_locator (src_locator : locator) (map : List Char) (obs : observation) :
    Option locator :=
  match update_accumulate src_locator map obs with
  | none => none
  | some ret =>
    match normalize_probabilities ret with
    | none => none
    | some probability => some ⟨probability⟩

/-! ## Driver -/

/-- The reference maze of `robotloc.cpp`. -/
def reference_map : List Char :=
  ("####################" ++
   "#                  #" ++
   "# #### ###   ##### #" ++
   "#        #         #" ++
   "#              #####" ++
   "###    ###   #     #" ++
   "#                  #" ++
   "####################").toList

/-- A belief with all its mass on the free cell (1, 1), index 21. -/
def corner_prior : List Nat :=
  List.replicate 21 0 ++ [2 ^ 32 - 1] ++ List.replicate 138 0

/-- The counter `nspaces` of `main`: the number of cells that are not walls. -/
def count_spaces (map : List Char) : Option Nat :=
  (List.range (WIDTH * HEIGHT)).foldlM (fun (nspaces : Nat) a =>
    match is_wall (from_index a) map with
    | some true => some nspaces
    | some false => some (nspaces + 1)
    | none => none) 0

/-- The initial belief built by `main`: `prob = (1 << 32) / nspaces` cast to `uint32_t`,
stored in every entry of the array. A division by zero gives `none`. -/
def initial_locator (map : List Char) : Option locator :=
  match count_spaces map with
  | none => none
  | some nspaces =>
    if nspaces = 0 then none
    else
      let prob : Nat := (2 ^ 32 / nspaces) % 2 ^ 32
      some ⟨(List.range (WIDTH * HEIGHT)).foldl (fun (probability : List Nat) a =>
        probability.set a prob) (List.replicate (WIDTH * HEIGHT) 0)⟩

/-! ## Total counterparts used in the proofs

On a map of `WIDTH * HEIGHT` characters every lookup made by the program is inside the map;
the functions below are the values the program then computes. -/

/-- The character test of `is_wall`, with a default outside the map. -/
def wall_at (map : List Char) (pt : point) : Bool :=
  map.getD (point_index pt) ' ' == '#'

/-- The value of `is_dir_free` on a full-size map. -/
def free_at (map : List Char) (pt : point) (dir : direction) : Bool :=
  !is_invalid (move_point pt dir) && !wall_at map (move_point pt dir)

/-- The free directions of a cell in the order EAST, NORTH, WEST, SOUTH. -/
def free_dirs (map : List Char) (pt : point) : List direction :=
  (List.range NUM_DIRECTIONS).filter (free_at map pt)

/-- The value of `compute_observation` on a full-size map. -/
def obs_at (map : List Char) (pt : point) (obs_dir : direction) : observation :=
  ⟨(List.range NUM_DIRECTIONS).foldl
    (fun (sensor : Nat → Bool) dir => Function.update sensor dir (free_at map pt dir))
    (fun _ => false), obs_dir⟩

/-- The value `dir_probs[dir]` computed by `update_locator` for the cell `pt`. -/
def dir_prob (map : List Char) (obs : observation) (pt : point) (dir : direction) : Nat :=
  if free_at map pt dir then observation_probability (obs_at map (move_point pt dir) dir) obs
  else 0

/-- The value `moveprob` of `update_locator`:
`((uint64_t)dir_probs[dir] * probability[...]) / num_prob >> 32`. -/
def move_prob (dp src_prob num_prob : Nat) : Nat :=
  (((dp * src_prob) % 2 ^ 64) / num_prob) >>> 32

/-- The saturating store of `update_locator`: `ret[i]` becomes `ret[i] + v`, clamped to
`2^32 - 1`. -/
def sat_store (ret : List Nat) (i v : Nat) : List Nat :=
  let newprob : Nat := (ret.getD i 0 + v) % 2 ^ 64
  let newprob : Nat := if newprob ≥ 2 ^ 32 then 2 ^ 32 - 1 else newprob
  ret.set i (newprob % 2 ^ 32)

/-- The effect of the body of the outer loop of `update_locator` on the accumulator, for the
cell of index `c`, when no access leaves the arrays. -/
def cell_step (map : List Char) (prior : List Nat) (obs : observation) (ret : List Nat)
    (c : Nat) : List Nat :=
  if wall_at map (from_index c) then ret
  else if (free_dirs map (from_index c)).length = 0 then ret
  else
    (List.range NUM_DIRECTIONS).foldl (fun ret dir =>
      sat_store ret (point_index (move_point (from_index c) dir))
        (move_prob (dir_prob map obs (from_index c) dir) (prior.getD c 0)
          (free_dirs map (from_index c)).length)) ret

/-- The accumulator of `update_locator` just before renormalisation, when no access leaves
the arrays: `cell_step` over the cells in row-major order, from the zero array. -/
def accumulator (map : List Char) (prior : List Nat) (obs : observation) : List Nat :=
  (List.range (WIDTH * HEIGHT)).foldl (cell_step map prior obs)
    (List.replicate (WIDTH * HEIGHT) 0)

/-- What the cell `c` adds through direction `d` to the accumulator entry `n`. -/
def cell_term (map : List Char) (prior : List Nat) (obs : observation) (n c : Nat)
    (d : direction) : Nat :=
  if wall_at map (from_index c) then 0
  else if (free_dirs map (from_index c)).length = 0 then 0
  else if point_index (move_point (from_index c) d) = n then
    move_prob (dir_prob map obs (from_index c) d) (prior.getD c 0)
      (free_dirs map (from_index c)).length
  else 0

/-- The value `normalize_probabilities` stores for an entry `a` when the sum is `s`, no
arithmetic wrapping. -/
def normalized_entry (s a : Nat) : Nat :=
  if a = s then 2 ^ 32 - 1 else a * 2 ^ 32 / s

/-! ## Vocabulary of the statements about the filter -/

/-- Every border cell of the 20x8 maze is a wall. -/
def border_walled (map : List Char) : Prop :=
  ∀ i, i < WIDTH * HEIGHT →
    (i % WIDTH = 0 ∨ i % WIDTH = WIDTH - 1 ∨ i / WIDTH = 0 ∨ i / WIDTH = HEIGHT - 1) →
    is_wall (from_index i) map = some true

instance border_walled_decidable (map : List Char) : Decidable (border_walled map) :=
  inferInstanceAs (Decidable (∀ i, i < WIDTH * HEIGHT →
    (i % WIDTH = 0 ∨ i % WIDTH = WIDTH - 1 ∨ i / WIDTH = 0 ∨ i / WIDTH = HEIGHT - 1) →
    is_wall (from_index i) map = some true))

/-- The likelihood `L(n, h)`: `observation_probability` of the true observation of the cell of
index `n` reached with heading `h`, against the observation `obs`. -/
def cell_likelihood (map : List Char) (obs : observation) (n : Nat) (h : direction) : Nat :=
  match compute_observation (from_index n) map h with
  | some o => observation_probability o obs
  | none => 0

/-- The number `k_c` of legal moves from the cell of index `c`. -/
def legal_move_count (map : List Char) (c : Nat) : Nat :=
  match move_possibilities (from_index c) map with
  | some possibilities => possibilities.length
  | none => 0

/-- The contribution of the source cell `c` moving with heading `h` to the accumulator of the
cell `n`: `floor(L(n,h) * prior[c] / (k_c * 2^32))` when `move_point(c, h) = n` and both cells
are free, nothing otherwise. -/
def contribution (map : List Char) (prior : List Nat) (obs : observation)
    (n : Nat) (h : direction) (c : Nat) : Nat :=
  if move_point (from_index c) h = from_index n ∧ is_wall (from_index n) map = some false ∧
      is_wall (from_index c) map = some false then
    cell_likelihood map obs n h * prior.getD c 0 / (legal_move_count map c * 2 ^ 32)
  else 0

/-! ## The generator step as the specification words it -/

/-- Rotation of a 32-bit word `x` to the left by `k` bits, arithmetically: the low `32 - k`
bits move up by `k` places and the high `k` bits come down. -/
def rotl (x k : Nat) : Nat :=
  (x * 2 ^ k) % 2 ^ 32 + x / 2 ^ (32 - k)

/-- Written from the specification: one step of the generator in arithmetic modulo `2^32`,
`e = a - rotl(b, 27)`, `a' = b XOR rotl(c, 17)`, `b' = c + d`, `c' = d + e`, `d' = e + a'`;
the output is `d'`. -/
def next_rand_spec (x : bb_rand_ctx) : Nat × bb_rand_ctx :=
  let e : Nat := (x.a + 2 ^ 32 - rotl x.b 27) % 2 ^ 32
  let a1 : Nat := x.b ^^^ rotl x.c 17
  let b1 : Nat := (x.c + x.d) % 2 ^ 32
  let c1 : Nat := (x.d + e) % 2 ^ 32
  let d1 : Nat := (e + a1) % 2 ^ 32
  (d1, ⟨a1, b1, c1, d1⟩)

/-- A generator state whose four words are 32-bit values. -/
def rand_ctx_valid (x : bb_rand_ctx) : Prop :=
  x.a < 2 ^ 32 ∧ x.b < 2 ^ 32 ∧ x.c < 2 ^ 32 ∧ x.d < 2 ^ 32

instance rand_ctx_valid_decidable (x : bb_rand_ctx) : Decidable (rand_ctx_valid x) :=
  inferInstanceAs (Decidable (x.a < 2 ^ 32 ∧ x.b < 2 ^ 32 ∧ x.c < 2 ^ 32 ∧ x.d < 2 ^ 32))

/-! ## The floating-point rendering of the noise (`robotloc_float.cpp`)

The draw is `next_rand(rng) / (double)(1 << 32)`: a 32-bit integer divided by a power of two,
which a `double` holds exactly; the constants and the midpoint
`DIR_BACK_CHANCE + (DIR_NOISE_CHANCE - DIR_BACK_CHANCE) / 2` are dyadic numbers computed
without rounding. The rational numbers therefore carry these values and their comparisons
exactly. -/

/-- The constant `DIR_NOISE_CHANCE` of `robotloc_float.cpp`. -/
def DIR_NOISE_CHANCE_float : ℚ := 0.0625

/-- The constant `DIR_BACK_CHANCE` of `robotloc_float.cpp`. -/
def DIR_BACK_CHANCE_float : ℚ := 0.00390625

/-- The constant `SENSOR_NOISE_CHANCE` of `robotloc_float.cpp`. -/
def SENSOR_NOISE_CHANCE_float : ℚ := 0.125

/-- The function `next_double` of `robotloc_float.cpp`. -/
def next_double (rng : bb_rand_ctx) : ℚ × bb_rand_ctx :=
  let (rand, rng) := next_rand rng
  ((rand : ℚ) / (2 ^ 32 : ℚ), rng)

/-- The heading part of the floating-point `perturb_observation`, for a draw `rand`. -/
def perturb_direction_float (dir : direction) (rand : ℚ) : direction :=
  if rand < DIR_NOISE_CHANCE_float then
    if rand < DIR_BACK_CHANCE_float then
      dir ^^^ 2
    else
      let dir1 : Nat := dir ^^^ 1
      if rand < DIR_BACK_CHANCE_float + (DIR_NOISE_CHANCE_float - DIR_BACK_CHANCE_float) / 2
      then dir1 ^^^ 2 else dir1
  else dir

/-- The body of the sensor loop of the floating-point `perturb_observation`. -/
def perturb_sensor_float (st : observation × bb_rand_ctx) (dir : Nat) :
    observation × bb_rand_ctx :=
  let (rand, rng) := next_double st.2
  if rand < SENSOR_NOISE_CHANCE_float then
    ({ st.1 with sensor := Function.update st.1.sensor dir (!st.1.sensor dir) }, rng)
  else (st.1, rng)

/-- The function `perturb_observation` of `robotloc_float.cpp`. -/
def perturb_observation_float (obs : observation) (rng : bb_rand_ctx) :
    observation × bb_rand_ctx :=
  let (rand, rng) := next_double rng
  let obs : observation := { obs with direction := perturb_direction_float obs.direction rand }
  (List.range NUM_DIRECTIONS).foldl perturb_sensor_float (obs, rng)

/-- The reference maze with the border cell (1, 0) opened: a 20x8 maze with a free cell,
next to the free cell (1, 1), in its top row. -/
def open_border_map : List Char :=
  ("# ##################" ++
   "#                  #" ++
   "# #### ###   ##### #" ++
   "#        #         #" ++
   "#              #####" ++
   "###    ###   #     #" ++
   "#                  #" ++
   "####################").toList

/-- The scan of `main` for the cells of maximum posterior: `maxlocs[0 .. maxlocn)` as a list
and `maxprob`, starting from the empty list and 0; a strictly larger value restarts the list,
an equal value is appended. A read outside the array gives `none`. -/
def max_scan (probability : List Nat) : Option (List Nat × Nat) :=
  (scan_points (WIDTH * HEIGHT + 1) ⟨0, 0⟩).foldlM (fun (st : List Nat × Nat) lpt =>
    match probability.get? (point_index lpt) with
    | none => none
    | some prob =>
      if prob > st.2 then some ([point_index lpt], prob)
      else if prob = st.2 then some (st.1 ++ [point_index lpt], st.2)
      else some st) ([], 0)

/-- The flag `correct` of the fixed-point `main` for the posterior `probability` and the true
cell `pt`: after `if (maxlocn > 5) maxlocn = 5;`, whether `from_index(maxlocs[i]) == pt` for
some `i < maxlocn`. -/
def hit_flag (probability : List Nat) (pt : point) : Option Bool :=
  match max_scan probability with
  | none => none
  | some (maxlocs, _) =>
    let maxlocn : Nat := if maxlocs.length > 5 then 5 else maxlocs.length
    some ((maxlocs.take maxlocn).any (fun i => decide (from_index i = pt)))

/-- The flag `correct` of the floating-point `main`, which has no cap on `maxlocn`, on a
posterior given by the same integers. -/
def hit_flag_uncapped (probability : List Nat) (pt : point) : Option Bool :=
  match max_scan probability with
  | none => none
  | some (maxlocs, _) => some (maxlocs.any (fun i => decide (from_index i = pt)))

/-- The counter `num_prob` of the first inner loop of the floating-point `update_locator`
(`robotloc_float.cpp`) for the cell `pt`. The variable is declared `size_t num_prob;` without
an initialiser inside the outer loop, so the loop starts incrementing whatever value the
variable holds on entry: that indeterminate value is the parameter `num_prob`. -/
def update_num_prob_float (num_prob : Nat) (pt : point) (map : List Char) : Option Nat :=
  (List.range NUM_DIRECTIONS).foldlM (fun (num_prob : Nat) dir =>
    let np := move_point pt dir
    match (if is_invalid np then some true else is_wall np map) with
    | none => none
    | some true => some num_prob
    | some false => some ((num_prob + 1) % 2 ^ 64)) num_prob

/-- The accumulator after the first `j` directions of the second inner loop of `update_locator`
for the cell of index `c`, started on the accumulator `ret`. -/
def spread_steps (map : List Char) (prior : List Nat) (obs : observation) (ret : List Nat)
    (c j : Nat) : List Nat :=
  (List.range j).foldl (fun ret dir =>
    sat_store ret (point_index (move_point (from_index c) dir))
      (move_prob (dir_prob map obs (from_index c) dir) (prior.getD c 0)
        (free_dirs map (from_index c)).length)) ret

/-- The value `newprob = ret.probability[point_index(np)] + moveprob` (a `uint64_t`, before
the clamp) that `update_locator` computes for the source cell of index `c` and the direction
`j`, in the run that starts from the zero array: the cells before `c` and the directions
before `j` have been processed. -/
def running_newprob (map : List Char) (prior : List Nat) (obs : observation) (c j : Nat) : Nat :=
  ((spread_steps map prior obs
      ((List.range c).foldl (cell_step map prior obs) (List.replicate (WIDTH * HEIGHT) 0))
      c j).getD (point_index (move_point (from_index c) j)) 0 +
    move_prob (dir_prob map obs (from_index c) j) (prior.getD c 0)
      (free_dirs map (from_index c)).length) % 2 ^ 64

/-- The prior mass that sits on free cells: the sum of `prior[c]` over the cells `c` that are
not walls. -/
def free_mass (map : List Char) (prior : List Nat) : Nat :=
  ∑ c in Finset.range (WIDTH * HEIGHT),
    (if is_wall (from_index c) map = some false then prior.getD c 0 else 0)

/-! ## The generator step run backwards -/

/-- The step of `next_rand` run backwards, from the state it leaves to the state it was called
on: `e = d - a`, then `d`, `c`, `b`, `a` in turn, each from the word of the new state that was
computed from it. Not a function of the source. -/
def prev_rand (y : bb_rand_ctx) : bb_rand_ctx :=
  let e : Nat := (y.d + 2 ^ 32 - y.a) % 2 ^ 32
  let d : Nat := (y.c + 2 ^ 32 - e) % 2 ^ 32
  let c : Nat := (y.b + 2 ^ 32 - d) % 2 ^ 32
  let b : Nat := y.a ^^^ rotl c 17
  let a : Nat := (e + rotl b 27) % 2 ^ 32
  ⟨a, b, c, d⟩

/-! ## The 64-bit intermediates of the likelihood -/

/-- One iteration of the sensor loop of `observation_probability` with a record of its product:
next to the running `uint64_t` value `ret`, the list of the products
`ret * SENSOR_NOISE_CHANCE` or `ret * ((1 << 32) - SENSOR_NOISE_CHANCE)` formed so far, as
integers, before their reduction modulo `2^64`. -/
def sensor_product_step (obs_from obs_to : observation) (st : Nat × List Nat) (dir : Nat) :
    Nat × List Nat :=
  if obs_from.sensor dir != obs_to.sensor dir then
    (((st.1 * SENSOR_NOISE_CHANCE) % 2 ^ 64) >>> 32, st.2 ++ [st.1 * SENSOR_NOISE_CHANCE])
  else
    (((st.1 * ((2 ^ 32 - SENSOR_NOISE_CHANCE) % 2 ^ 64)) % 2 ^ 64) >>> 32,
      st.2 ++ [st.1 * ((2 ^ 32 - SENSOR_NOISE_CHANCE) % 2 ^ 64)])

/-- The sensor loop of `observation_probability` with the record of its four products: the
value `ret` it leaves and the products in the order of execution. -/
def sensor_products (obs_from obs_to : observation) : Nat × List Nat :=
  (List.range NUM_DIRECTIONS).foldl (sensor_product_step obs_from obs_to) (2 ^ 32, [])

/-- The product that the `switch` of `observation_probability` forms from the value `ret` left
by the sensor loop, as an integer before its reduction modulo `2^64`:
`ret * (DIR_NOISE_CHANCE - DIR_BACK_CHANCE)` in the cases 1 and 3, `ret * DIR_BACK_CHANCE` in
the case 2, `ret * (1 << 32)` in the case 0; `none` when no case matches. -/
def heading_product (obs_from obs_to : observation) : Option Nat :=
  let ret : Nat := sensor_probability obs_from obs_to
  let x : Nat := obs_from.direction ^^^ obs_to.direction
  if x = 1 ∨ x = 3 then some (ret * ((DIR_NOISE_CHANCE - DIR_BACK_CHANCE) % 2 ^ 32))
  else if x = 2 then some (ret * DIR_BACK_CHANCE)
  else if x = 0 then some (ret * 2 ^ 32)
  else none

/-- The `uint64_t` value `ret` at the `return` of `observation_probability`, before the cast
to `uint32_t`. -/
def observation_ret (obs_from obs_to : observation) : Nat :=
  let ret : Nat := sensor_probability obs_from obs_to
  let x : Nat := obs_from.direction ^^^ obs_to.direction
  if x = 1 ∨ x = 3 then
    (((ret * ((DIR_NOISE_CHANCE - DIR_BACK_CHANCE) % 2 ^ 32)) % 2 ^ 64) / 2) >>> 32
  else if x = 2 then
    ((ret * DIR_BACK_CHANCE) % 2 ^ 64) >>> 32
  else if x = 0 then
    ((((ret * 2 ^ 32) % 2 ^ 64) + 2 ^ 64 - DIR_NOISE_CHANCE) % 2 ^ 64) >>> 32
  else ret

end Robotloc

namespace Robotloc

/-! ## Likelihood: exact values -/

theorem sensor_fold_eq (p : Nat → Bool) :
    (List.range 4).foldl (fun ret dir =>
      if !(p dir) then ((ret * SENSOR_NOISE_CHANCE) % 2 ^ 64) >>> 32
      else ((ret * ((2 ^ 32 - SENSOR_NOISE_CHANCE) % 2 ^ 64)) % 2 ^ 64) >>> 32) (2 ^ 32)
      = 2 ^ 20 * 7 ^ ((List.range 4).filter p).length := by
  have key : ∀ x0 x1 x2 x3 : Bool,
      [0, 1, 2, 3].foldl (fun ret dir =>
        if !([x0, x1, x2, x3].getD dir false) then ((ret * SENSOR_NOISE_CHANCE) % 2 ^ 64) >>> 32
        else ((ret * ((2 ^ 32 - SENSOR_NOISE_CHANCE) % 2 ^ 64)) % 2 ^ 64) >>> 32) (2 ^ 32)
        = 2 ^ 20 * 7 ^ ([0, 1, 2, 3].filter (fun d => [x0, x1, x2, x3].getD d false)).length := by
    decide
  have h := key (p 0) (p 1) (p 2) (p 3)
  simpa [List.range_succ, List.filter_cons] using h

theorem sensor_probability_eq (a b : observation) :
    sensor_probability a b = 2 ^ 20 * 7 ^ sensor_matches a b := by
  unfold sensor_probability sensor_matches
  simpa [bne] using sensor_fold_eq (fun d => a.sensor d == b.sensor d)

theorem sensor_matches_le (a b : observation) : sensor_matches a b ≤ 4 := by
  unfold sensor_matches
  exact (List.length_filter_le _ _).trans (by simp)

theorem sensor_factor_eq (a b : observation) :
    sensor_factor a b = 7 ^ sensor_matches a b / 4096 := by
  unfold sensor_factor sensor_matches
  simp only [Finset.prod_range_succ, Finset.prod_range_zero, List.range_succ, List.range_zero,
    List.nil_append, List.cons_append, List.filter_cons, List.filter_nil, beq_iff_eq]
  by_cases h0 : a.sensor 0 = b.sensor 0 <;> by_cases h1 : a.sensor 1 = b.sensor 1 <;>
    by_cases h2 : a.sensor 2 = b.sensor 2 <;> by_cases h3 : a.sensor 3 = b.sensor 3 <;>
    simp only [h0, h1, h2, h3, if_true, if_false, List.length_cons, List.length_nil] <;> norm_num

theorem observation_probability_same_heading (a b : observation)
    (h : a.direction ^^^ b.direction = 0) :
    observation_probability a b = 2 ^ 20 * 7 ^ sensor_matches a b - 1 := by
  have hm := sensor_matches_le a b
  unfold observation_probability
  simp only [h, sensor_probability_eq]
  generalize sensor_matches a b = m at hm ⊢
  interval_cases m <;> decide

theorem observation_probability_other_heading (a b : observation)
    (h : a.direction ^^^ b.direction = 1 ∨ a.direction ^^^ b.direction = 2 ∨
      a.direction ^^^ b.direction = 3) :
    observation_probability a b =
      if a.direction ^^^ b.direction = 2 then 2 ^ 12 * 7 ^ sensor_matches a b
      else 15 * 2 ^ 11 * 7 ^ sensor_matches a b := by
  have hm := sensor_matches_le a b
  unfold observation_probability
  simp only [sensor_probability_eq]
  generalize sensor_matches a b = m at hm ⊢
  rcases h with h | h | h <;> rw [h] <;> interval_cases m <;> decide

theorem sensor_matches_self (a : observation) : sensor_matches a a = 4 := by
  simp [sensor_matches]

/-- C1 (the code departs from the claim): for identical observations the fixed-point
`observation_probability` returns 2517630975, which is `2^32 * (1 - 0.125)^4 - 1`: the heading
factor `1 - DIR_NOISE_CHANCE` is not applied, so the result is not 2360279040. -/
theorem observation_probability_identical (obs : observation) :
    observation_probability obs obs = 2517630975 ∧
      observation_probability obs obs ≠ 2360279040 := by
  have h := observation_probability_same_heading obs obs (Nat.xor_self _)
  rw [sensor_matches_self] at h
  rw [h]
  decide

/-- C4: for two observations with valid headings that are opposite (XOR 2) or perpendicular
(XOR 1 or 3), the fixed-point likelihood is exactly `2^32` times the rational product of the
four sensor terms and the heading term (`0.00390625` when opposite,
`(0.0625 - 0.00390625) / 2` when perpendicular), without rounding loss; so an observation
whose heading is the other perpendicular one gets the same likelihood. -/
theorem observation_probability_turned_exact (a b : observation)
    (_ha : a.direction < NUM_DIRECTIONS) (_hb : b.direction < NUM_DIRECTIONS)
    (hx : a.direction ^^^ b.direction = 2 ∨ a.direction ^^^ b.direction = 1 ∨
      a.direction ^^^ b.direction = 3) :
    (observation_probability a b : ℚ) =
        2 ^ 32 * (sensor_factor a b *
          (if a.direction ^^^ b.direction = 2 then (0.00390625 : ℚ)
           else (0.0625 - 0.00390625) / 2)) ∧
      ∀ c : observation, c.sensor = b.sensor → c.direction < NUM_DIRECTIONS →
        a.direction ^^^ b.direction = 1 → a.direction ^^^ c.direction = 3 →
        observation_probability a c = observation_probability a b := by
  constructor
  · rw [observation_probability_other_heading a b (by tauto), sensor_factor_eq]
    split_ifs <;> push_cast <;> ring
  · intro c hc _ h1 h3
    have hm : sensor_matches a c = sensor_matches a b := by
      unfold sensor_matches; rw [hc]
    rw [observation_probability_other_heading a b (by tauto),
      observation_probability_other_heading a c (by tauto), hm, h1, h3]
    simp

/-- Witness for C4: heading EAST against heading WEST (opposite), all sensors agreeing. -/
theorem observation_probability_turned_exact_witness :
    EAST < NUM_DIRECTIONS ∧ WEST < NUM_DIRECTIONS ∧ EAST ^^^ WEST = 2 ∧
      (observation_probability ⟨fun _ => true, EAST⟩ ⟨fun _ => true, WEST⟩ : ℚ) =
        2 ^ 32 * (sensor_factor ⟨fun _ => true, EAST⟩ ⟨fun _ => true, WEST⟩ *
          (if EAST ^^^ WEST = 2 then (0.00390625 : ℚ) else (0.0625 - 0.00390625) / 2)) :=
  ⟨by decide, by decide, by decide,
    (observation_probability_turned_exact ⟨fun _ => true, EAST⟩ ⟨fun _ => true, WEST⟩
      (by decide) (by decide) (Or.inl (by decide))).1⟩

/-! ## Noise on an observation -/

theorem next_rand_lt (x : bb_rand_ctx) : (next_rand x).1 < 2 ^ 32 := by
  unfold next_rand
  exact Nat.mod_lt _ (by norm_num)

theorem perturb_sensor_state (st : observation × bb_rand_ctx) (dir : Nat) :
    (perturb_sensor st dir).2 = (next_rand st.2).2 := by
  unfold perturb_sensor
  dsimp only
  split_ifs <;> rfl

theorem perturb_sensor_direction (st : observation × bb_rand_ctx) (dir : Nat) :
    (perturb_sensor st dir).1.direction = st.1.direction := by
  unfold perturb_sensor
  dsimp only
  split_ifs <;> rfl

theorem perturb_sensor_sensor (st : observation × bb_rand_ctx) (dir d : Nat) :
    (perturb_sensor st dir).1.sensor d =
      if d = dir ∧ (next_rand st.2).1 < 2 ^ 29 then !st.1.sensor d else st.1.sensor d := by
  unfold perturb_sensor
  dsimp only
  by_cases h : (next_rand st.2).1 < 2 ^ 29
  · have h' : (next_rand st.2).1 < 0x20000000 := h
    rw [if_pos h']
    by_cases hd : d = dir
    · subst hd; simp [h']
    · simp [hd, Function.update_noteq hd]
  · have h' : ¬ (next_rand st.2).1 < 0x20000000 := h
    rw [if_neg h']
    simp [h']

theorem perturb_sensor_fold_direction (l : List Nat) (st : observation × bb_rand_ctx) :
    (l.foldl perturb_sensor st).1.direction = st.1.direction := by
  induction l generalizing st with
  | nil => rfl
  | cons d l ih => rw [List.foldl_cons, ih, perturb_sensor_direction]

theorem rand_state_succ (k : Nat) (rng : bb_rand_ctx) :
    rand_state (k + 1) rng = rand_state k (next_rand rng).2 := by
  unfold rand_state
  rw [Function.iterate_succ_apply]

theorem rand_state_succ_outer (k : Nat) (rng : bb_rand_ctx) :
    rand_state (k + 1) rng = (next_rand (rand_state k rng)).2 := by
  unfold rand_state
  rw [Function.iterate_succ_apply']

theorem perturb_sensor_fold_state (l : List Nat) (st : observation × bb_rand_ctx) :
    (l.foldl perturb_sensor st).2 = rand_state l.length st.2 := by
  induction l generalizing st with
  | nil => rfl
  | cons d l ih =>
    rw [List.foldl_cons, ih, perturb_sensor_state, List.length_cons, rand_state_succ]

theorem perturb_observation_direction (obs : observation) (rng : bb_rand_ctx) :
    (perturb_observation obs rng).1.direction =
      perturb_direction obs.direction (next_rand rng).1 := by
  unfold perturb_observation
  dsimp only
  rw [perturb_sensor_fold_direction]

theorem xor_lt_four (h k : Nat) (hh : h < 4) (hk : k < 4) : h ^^^ k < 4 := by
  interval_cases h <;> interval_cases k <;> decide

/-- C9: with `r` the first draw, the heading `h` of the perturbed observation is `h XOR 2` when
`r < 2^24`, `h XOR 1` (`r` even) or `h XOR 3` (`r` odd) when `2^24 ≤ r < 2^28`, and `h` when
`r ≥ 2^28`; for a valid `h` the result is again one of the four headings. -/
theorem perturb_observation_heading (obs : observation) (rng : bb_rand_ctx)
    (hv : obs.direction < NUM_DIRECTIONS) :
    (perturb_observation obs rng).1.direction =
        (if (next_rand rng).1 < 2 ^ 24 then obs.direction ^^^ 2
         else if (next_rand rng).1 < 2 ^ 28 then
           (if (next_rand rng).1 % 2 = 0 then obs.direction ^^^ 1 else obs.direction ^^^ 3)
         else obs.direction) ∧
      (perturb_observation obs rng).1.direction < NUM_DIRECTIONS ∧
      (perturb_observation obs rng).1.direction ≠ NUM_DIRECTIONS := by
  have hdir : (perturb_observation obs rng).1.direction =
      (if (next_rand rng).1 < 2 ^ 24 then obs.direction ^^^ 2
       else if (next_rand rng).1 < 2 ^ 28 then
         (if (next_rand rng).1 % 2 = 0 then obs.direction ^^^ 1 else obs.direction ^^^ 3)
       else obs.direction) := by
    rw [perturb_observation_direction]
    unfold perturb_direction
    generalize (next_rand rng).1 = r
    have h3 : obs.direction ^^^ 1 ^^^ 2 = obs.direction ^^^ 3 := by
      rw [Nat.xor_assoc]; rfl
    simp only [Nat.and_one_is_mod, h3]
    by_cases h1 : r < 2 ^ 24
    · have h2 : r < 0x10000000 := by omega
      have h1' : r < 0x01000000 := by omega
      simp [h1, h2, h1']
    · by_cases h2 : r < 2 ^ 28
      · have h2' : r < 0x10000000 := by omega
        have h1' : ¬ r < 0x01000000 := by omega
        have hpar : r % 2 = 0 ∨ r % 2 = 1 := by omega
        rcases hpar with hp | hp <;> simp [h1, h2, h2', h1', hp]
      · have h2' : ¬ r < 0x10000000 := by omega
        have h1' : ¬ r < 0x01000000 := by omega
        simp [h1, h2, h2', h1']
  have hlt : (perturb_observation obs rng).1.direction < NUM_DIRECTIONS := by
    rw [hdir]
    have e1 := xor_lt_four obs.direction 1 hv (by decide)
    have e2 := xor_lt_four obs.direction 2 hv (by decide)
    have e3 := xor_lt_four obs.direction 3 hv (by decide)
    split_ifs <;> assumption
  exact ⟨hdir, hlt, Nat.ne_of_lt hlt⟩

/-- Witness for C9: an observation heading EAST and the generator state `(1, 2, 3, 4)`. -/
theorem perturb_observation_heading_witness :
    EAST < NUM_DIRECTIONS ∧
      (perturb_observation ⟨fun _ => true, EAST⟩ ⟨1, 2, 3, 4⟩).1.direction < NUM_DIRECTIONS :=
  ⟨by decide,
    (perturb_observation_heading ⟨fun _ => true, EAST⟩ ⟨1, 2, 3, 4⟩ (by decide)).2.1⟩

/-- C10: `perturb_observation` consumes exactly five draws whatever branches are taken: the
first decides the heading, and for each sensor `d` (EAST, NORTH, WEST, SOUTH in this order)
the `(d+2)`-th draw inverts the bit exactly when it is below `2^29`. -/
theorem perturb_observation_draws (obs : observation) (rng : bb_rand_ctx) :
    (perturb_observation obs rng).2 = rand_state 5 rng ∧
      (perturb_observation obs rng).1.direction =
        perturb_direction obs.direction (rand_draw 1 rng) ∧
      ∀ d, d < NUM_DIRECTIONS →
        (perturb_observation obs rng).1.sensor d =
          (if rand_draw (d + 2) rng < 2 ^ 29 then !obs.sensor d else obs.sensor d) := by
  refine ⟨?_, ?_, ?_⟩
  · unfold perturb_observation
    dsimp only
    rw [perturb_sensor_fold_state, List.length_range]
    exact (rand_state_succ 4 rng).symm
  · rw [perturb_observation_direction]; rfl
  · intro d hd
    have e1 : rand_draw (0 + 2) rng = (next_rand (rand_state 1 rng)).1 := rfl
    have e2 : rand_draw (1 + 2) rng = (next_rand (rand_state 2 rng)).1 := rfl
    have e3 : rand_draw (2 + 2) rng = (next_rand (rand_state 3 rng)).1 := rfl
    have e4 : rand_draw (3 + 2) rng = (next_rand (rand_state 4 rng)).1 := rfl
    have s1 : (next_rand rng).2 = rand_state 1 rng := rfl
    have s2 := rand_state_succ_outer 1 rng
    have s3 := rand_state_succ_outer 2 rng
    have s4 := rand_state_succ_outer 3 rng
    unfold perturb_observation
    simp only [List.range_succ, List.range_zero, List.nil_append, List.cons_append,
      List.foldl_cons, List.foldl_nil, perturb_sensor_sensor, perturb_sensor_state, s1,
      ← s2, ← s3, ← s4]
    interval_cases d
    · rw [e1]; simp
    · rw [e2]; simp
    · rw [e3]; simp
    · rw [e4]; simp

/-! ## The grid -/

theorem is_invalid_eq_false (pt : point) :
    is_invalid pt = false ↔ 0 ≤ pt.p0 ∧ pt.p0 < 20 ∧ 0 ≤ pt.p1 ∧ pt.p1 < 8 := by
  unfold is_invalid
  simp only [Bool.or_eq_false_iff, decide_eq_false_iff_not, not_lt, ge_iff_le, not_le]
  push_cast
  constructor
  · rintro ⟨⟨⟨h1, h2⟩, h3⟩, h4⟩; exact ⟨h1, h2, h3, h4⟩
  · rintro ⟨h1, h2, h3, h4⟩; exact ⟨⟨⟨h1, h2⟩, h3⟩, h4⟩

theorem point_index_eq (pt : point) (h : is_invalid pt = false) :
    point_index pt = (pt.p0 + pt.p1 * 20).toNat := by
  rw [is_invalid_eq_false] at h
  unfold point_index
  have h1 : (pt.p0 + pt.p1 * ((20 : Nat) : Int)) % (2 ^ 64 : Int) = pt.p0 + pt.p1 * 20 := by
    apply Int.emod_eq_of_lt <;> push_cast <;> omega
  show ((pt.p0 + pt.p1 * ((20 : Nat) : Int)) % (2 ^ 64 : Int)).toNat = _
  rw [h1]

theorem point_index_lt (pt : point) (h : is_invalid pt = false) :
    point_index pt < WIDTH * HEIGHT := by
  rw [point_index_eq pt h]
  rw [is_invalid_eq_false] at h
  show (pt.p0 + pt.p1 * 20).toNat < 160
  omega

theorem point_index_from_index (i : Nat) : point_index (from_index i) = i % 2 ^ 64 := by
  unfold point_index from_index
  show ((((i % 20 : Nat) : Int) + ((i / 20 : Nat) : Int) * ((20 : Nat) : Int)) %
    (2 ^ 64 : Int)).toNat = i % 2 ^ 64
  have h : ((i % 20 : Nat) : Int) + ((i / 20 : Nat) : Int) * ((20 : Nat) : Int) = (i : Int) := by
    have := Nat.mod_add_div i 20
    push_cast
    omega
  rw [h]
  omega

theorem is_invalid_from_index (i : Nat) (h : i < WIDTH * HEIGHT) :
    is_invalid (from_index i) = false := by
  rw [is_invalid_eq_false]
  show 0 ≤ ((i % 20 : Nat) : Int) ∧ ((i % 20 : Nat) : Int) < 20 ∧
    0 ≤ ((i / 20 : Nat) : Int) ∧ ((i / 20 : Nat) : Int) < 8
  have h' : i < 160 := h
  omega

theorem from_index_point_index (pt : point) (h : is_invalid pt = false) :
    from_index (point_index pt) = pt := by
  rw [point_index_eq pt h]
  rw [is_invalid_eq_false] at h
  obtain ⟨x, y⟩ := pt
  dsimp only at h ⊢
  show (⟨(((x + y * 20).toNat % 20 : Nat) : Int), (((x + y * 20).toNat / 20 : Nat) : Int)⟩ :
    point) = ⟨x, y⟩
  rw [point.mk.injEq]
  constructor <;> omega

theorem is_wall_eq (map : List Char) (pt : point) (hm : map.length = WIDTH * HEIGHT)
    (h : is_invalid pt = false) : is_wall pt map = some (wall_at map pt) := by
  have hlt : point_index pt < map.length := hm ▸ point_index_lt pt h
  unfold is_wall wall_at
  rw [List.get?_eq_get hlt, List.getD_eq_getElem _ _ hlt]
  rfl

theorem is_dir_free_eq (map : List Char) (pt : point) (dir : direction)
    (hm : map.length = WIDTH * HEIGHT) : is_dir_free pt map dir = some (free_at map pt dir) := by
  unfold is_dir_free free_at
  dsimp only
  by_cases h : is_invalid (move_point pt dir) = true
  · simp [h]
  · have h' : is_invalid (move_point pt dir) = false := by simpa using h
    rw [is_wall_eq map _ hm h']
    simp [h']

/-! ## Loops that cannot fail -/

theorem foldlM_eq_some_foldl {α β : Type} (f : β → α → Option β) (g : β → α → β)
    (l : List α) (h : ∀ b a, a ∈ l → f b a = some (g b a)) (init : β) :
    l.foldlM f init = some (l.foldl g init) := by
  induction l generalizing init with
  | nil => rfl
  | cons a l ih =>
    rw [List.foldlM_cons, h init a (List.mem_cons_self _ _)]
    exact ih (fun b x hx => h b x (List.mem_cons_of_mem _ hx)) (g init a)

theorem foldl_append_filter (p : Nat → Bool) (l init : List Nat) :
    l.foldl (fun acc d => if p d then acc ++ [d] else acc) init = init ++ l.filter p := by
  induction l generalizing init with
  | nil => simp
  | cons a l ih =>
    rw [List.foldl_cons, ih, List.filter_cons]
    by_cases h : p a = true <;> simp [h]

/-! ## Motion model -/

theorem move_possibilities_eq (map : List Char) (pt : point)
    (hm : map.length = WIDTH * HEIGHT) :
    move_possibilities pt map = some (free_dirs map pt) := by
  unfold move_possibilities free_dirs
  rw [foldlM_eq_some_foldl _ (fun acc d => if free_at map pt d then acc ++ [d] else acc)]
  · rw [foldl_append_filter]; rfl
  · intro b a _
    rw [is_dir_free_eq map pt a hm]
    cases free_at map pt a <;> rfl

theorem free_dirs_length_le (map : List Char) (pt : point) : (free_dirs map pt).length ≤ 4 := by
  unfold free_dirs
  exact (List.length_filter_le _ _).trans (by simp)

theorem mem_free_dirs (map : List Char) (pt : point) (d : Nat) :
    d ∈ free_dirs map pt ↔ d < 4 ∧ free_at map pt d = true := by
  unfold free_dirs
  simp [List.mem_filter]

theorem free_dirs_nodup (map : List Char) (pt : point) : (free_dirs map pt).Nodup := by
  unfold free_dirs
  exact (List.nodup_range _).filter _

theorem getD_mem_free_dirs (map : List Char) (pt : point) (i : Nat)
    (h : i < (free_dirs map pt).length) :
    (free_dirs map pt).getD i NUM_DIRECTIONS ∈ free_dirs map pt := by
  rw [List.getD_eq_getElem _ _ h]
  exact List.getElem_mem _

theorem move_randomly_redraw_mem (poss : List direction) (fuel rdir : Nat) (rng : bb_rand_ctx)
    (d : direction) (rng1 : bb_rand_ctx)
    (h : move_randomly_redraw poss fuel rdir rng = some (d, rng1)) :
    ∃ i, i < poss.length ∧ d = poss.getD i NUM_DIRECTIONS := by
  induction fuel generalizing rdir rng with
  | zero =>
    unfold move_randomly_redraw at h
    by_cases hge : rdir ≥ poss.length
    · rw [if_pos hge] at h; cases h
    · rw [if_neg hge] at h
      injection h with h
      injection h with h1 h2
      exact ⟨rdir, by omega, h1.symm⟩
  | succ fuel ih =>
    unfold move_randomly_redraw at h
    by_cases hge : rdir ≥ poss.length
    · rw [if_pos hge] at h
      exact ih _ _ h
    · rw [if_neg hge] at h
      injection h with h
      injection h with h1 h2
      exact ⟨rdir, by omega, h1.symm⟩

theorem move_randomly_none_free (fuel : Nat) (map : List Char) (pt : point) (rng : bb_rand_ctx)
    (hm : map.length = WIDTH * HEIGHT) (h : free_dirs map pt = []) :
    move_randomly fuel pt map rng = some (NUM_DIRECTIONS, rng) := by
  unfold move_randomly
  rw [move_possibilities_eq map pt hm, h]
  rfl

theorem move_randomly_mem (fuel : Nat) (map : List Char) (pt : point) (rng rng1 : bb_rand_ctx)
    (d : direction) (hm : map.length = WIDTH * HEIGHT) (hne : free_dirs map pt ≠ [])
    (h : move_randomly fuel pt map rng = some (d, rng1)) : d ∈ free_dirs map pt := by
  unfold move_randomly at h
  rw [move_possibilities_eq map pt hm] at h
  dsimp only at h
  have hlen : (free_dirs map pt).length ≠ 0 := fun h0 => hne (List.length_eq_zero.mp h0)
  rw [if_neg hlen] at h
  by_cases h1 : (free_dirs map pt).length = 1
  · rw [if_pos h1] at h
    injection h with h; injection h with ha hb
    rw [← ha]; exact getD_mem_free_dirs map pt 0 (by omega)
  rw [if_neg h1] at h
  by_cases h2 : (free_dirs map pt).length = 2
  · rw [if_pos h2] at h
    injection h with h; injection h with ha hb
    rw [← ha]
    apply getD_mem_free_dirs
    rw [h2, Nat.and_one_is_mod]
    omega
  rw [if_neg h2] at h
  by_cases h4 : (free_dirs map pt).length = 4
  · rw [if_pos h4] at h
    injection h with h; injection h with ha hb
    rw [← ha]
    apply getD_mem_free_dirs
    rw [h4]
    exact Nat.lt_succ_of_le Nat.and_le_right
  rw [if_neg h4] at h
  obtain ⟨i, hi, hd⟩ := move_randomly_redraw_mem _ _ _ _ _ _ h
  rw [hd]
  exact getD_mem_free_dirs map pt i hi

theorem move_randomly_returns (fuel : Nat) (map : List Char) (pt : point) (rng : bb_rand_ctx)
    (hm : map.length = WIDTH * HEIGHT) (h3 : (free_dirs map pt).length ≠ 3) :
    ∃ r, move_randomly fuel pt map rng = some r := by
  have hle := free_dirs_length_le map pt
  unfold move_randomly
  rw [move_possibilities_eq map pt hm]
  dsimp only
  split_ifs
  · exact ⟨_, rfl⟩
  · exact ⟨_, rfl⟩
  · exact ⟨_, rfl⟩
  · exact ⟨_, rfl⟩
  · omega

theorem free_dirs_eq_nil (map : List Char) (pt : point) (hm : map.length = WIDTH * HEIGHT) :
    free_dirs map pt = [] ↔ ∀ d, d < NUM_DIRECTIONS → is_dir_free pt map d = some false := by
  rw [List.eq_nil_iff_forall_not_mem]
  constructor
  · intro h d hd
    rw [is_dir_free_eq map pt d hm]
    have := h d
    rw [mem_free_dirs] at this
    cases hf : free_at map pt d
    · rfl
    · exact absurd ⟨hd, hf⟩ this
  · intro h d hmem
    rw [mem_free_dirs] at hmem
    have := h d hmem.1
    rw [is_dir_free_eq map pt d hm, hmem.2] at this
    cases this

/-- C8: on a full-size maze, `move_randomly` returns the sentinel `NUM_DIRECTIONS` exactly for
a cell without legal move (and then it does return, leaving the generator untouched); it
returns for every cell whose number of legal moves is not 3; and any other value it returns
is a legal heading, so that `move_point` in that heading is an in-bounds free cell. -/
theorem move_randomly_sentinel_iff (map : List Char) (pt : point) (rng : bb_rand_ctx)
    (hm : map.length = WIDTH * HEIGHT) (_hpt : is_invalid pt = false) :
    ((∀ d, d < NUM_DIRECTIONS → is_dir_free pt map d = some false) →
        ∀ fuel, move_randomly fuel pt map rng = some (NUM_DIRECTIONS, rng)) ∧
      (∀ possibilities, move_possibilities pt map = some possibilities →
        possibilities.length ≠ 3 → ∀ fuel, ∃ r, move_randomly fuel pt map rng = some r) ∧
      ∀ fuel d rng1, move_randomly fuel pt map rng = some (d, rng1) →
        (d = NUM_DIRECTIONS ↔ ∀ d1, d1 < NUM_DIRECTIONS → is_dir_free pt map d1 = some false) ∧
        (d ≠ NUM_DIRECTIONS →
          d < NUM_DIRECTIONS ∧ is_dir_free pt map d = some true ∧
          is_invalid (move_point pt d) = false ∧
          is_wall (move_point pt d) map = some false) := by
  refine ⟨?_, ?_, ?_⟩
  · intro h fuel
    exact move_randomly_none_free fuel map pt rng hm ((free_dirs_eq_nil map pt hm).mpr h)
  · intro poss hp h3 fuel
    rw [move_possibilities_eq map pt hm] at hp
    injection hp with hp
    subst hp
    exact move_randomly_returns fuel map pt rng hm h3
  · intro fuel d rng1 h
    by_cases hnil : free_dirs map pt = []
    · rw [move_randomly_none_free fuel map pt rng hm hnil] at h
      injection h with h; injection h with ha hb
      subst ha
      exact ⟨⟨fun _ => (free_dirs_eq_nil map pt hm).mp hnil, fun _ => rfl⟩,
        fun hne => absurd rfl hne⟩
    · have hmem := move_randomly_mem fuel map pt rng rng1 d hm hnil h
      rw [mem_free_dirs] at hmem
      obtain ⟨hd, hfree⟩ := hmem
      have hfree2 := hfree
      unfold free_at at hfree2
      simp only [Bool.and_eq_true, Bool.not_eq_true'] at hfree2
      refine ⟨⟨fun h4 => ?_, fun hall => ?_⟩, fun _ => ⟨hd, ?_, hfree2.1, ?_⟩⟩
      · rw [h4] at hd; exact absurd hd (by decide)
      · exact absurd ((free_dirs_eq_nil map pt hm).mpr hall) hnil
      · rw [is_dir_free_eq map pt d hm, hfree]
      · rw [is_wall_eq map _ hm hfree2.1, hfree2.2]

theorem count_two (l : List Nat) (hl : l.length = 2) (hn : l.Nodup) (h : Nat) (hh : h ∈ l) :
    ((List.range 4).filter (fun v => l.getD (v &&& 0x1) NUM_DIRECTIONS = h)).length = 2 := by
  obtain ⟨a, b, rfl⟩ := List.length_eq_two.mp hl
  have hab : a ≠ b := by simpa using hn
  have e0 : (0 &&& 1 : Nat) = 0 := rfl
  have e1 : (1 &&& 1 : Nat) = 1 := rfl
  have e2 : (2 &&& 1 : Nat) = 0 := rfl
  have e3 : (3 &&& 1 : Nat) = 1 := rfl
  simp only [List.mem_cons, List.mem_singleton, List.not_mem_nil, or_false] at hh
  rcases hh with rfl | rfl
  · simp [List.range_succ, List.filter_cons, e0, e1, e2, e3, hab.symm]
  · simp [List.range_succ, List.filter_cons, e0, e1, e2, e3, hab]

theorem count_three (l : List Nat) (hl : l.length = 3) (hn : l.Nodup) (h : Nat) (hh : h ∈ l) :
    ((List.range 3).filter (fun v => l.getD v NUM_DIRECTIONS = h)).length = 1 := by
  obtain ⟨a, b, c, rfl⟩ := List.length_eq_three.mp hl
  simp only [List.nodup_cons, List.mem_cons, List.mem_singleton, List.not_mem_nil, or_false,
    not_or, List.nodup_nil, and_true, not_false_eq_true] at hn
  obtain ⟨⟨hab, hac⟩, hbc⟩ := hn
  simp only [List.mem_cons, List.mem_singleton, List.not_mem_nil, or_false] at hh
  rcases hh with rfl | rfl | rfl
  · simp [List.range_succ, List.filter_cons, Ne.symm hab, Ne.symm hac]
  · simp [List.range_succ, List.filter_cons, hab, Ne.symm hbc]
  · simp [List.range_succ, List.filter_cons, hac, hbc]

theorem count_four (l : List Nat) (hl : l.length = 4) (hn : l.Nodup) (h : Nat) (hh : h ∈ l) :
    ((List.range 4).filter (fun v => l.getD v NUM_DIRECTIONS = h)).length = 1 := by
  match l, hl with
  | [a, b, c, d], _ =>
    simp only [List.nodup_cons, List.mem_cons, List.mem_singleton, List.not_mem_nil, or_false,
      not_or, List.nodup_nil, and_true, not_false_eq_true] at hn
    obtain ⟨⟨hab, hac, had⟩, ⟨hbc, hbd⟩, hcd⟩ := hn
    simp only [List.mem_cons, List.mem_singleton, List.not_mem_nil, or_false] at hh
    rcases hh with rfl | rfl | rfl | rfl
    · simp [List.range_succ, List.filter_cons, Ne.symm hab, Ne.symm hac, Ne.symm had]
    · simp [List.range_succ, List.filter_cons, hab, Ne.symm hbc, Ne.symm hbd]
    · simp [List.range_succ, List.filter_cons, hac, hbc, Ne.symm hcd]
    · simp [List.range_succ, List.filter_cons, had, hbd, hcd]

theorem move_randomly_two (fuel : Nat) (map : List Char) (pt : point) (rng : bb_rand_ctx)
    (hm : map.length = WIDTH * HEIGHT) (h2 : (free_dirs map pt).length = 2) :
    move_randomly fuel pt map rng =
      some ((free_dirs map pt).getD (((next_rand rng).1 &&& 0x3) &&& 0x1) NUM_DIRECTIONS,
        (next_rand rng).2) := by
  unfold move_randomly
  rw [move_possibilities_eq map pt hm]
  simp [h2]

theorem move_randomly_four (fuel : Nat) (map : List Char) (pt : point) (rng : bb_rand_ctx)
    (hm : map.length = WIDTH * HEIGHT) (h4 : (free_dirs map pt).length = 4) :
    move_randomly fuel pt map rng =
      some ((free_dirs map pt).getD ((next_rand rng).1 &&& 0x3) NUM_DIRECTIONS,
        (next_rand rng).2) := by
  unfold move_randomly
  rw [move_possibilities_eq map pt hm]
  simp [h4]

theorem move_randomly_three (fuel : Nat) (map : List Char) (pt : point) (rng : bb_rand_ctx)
    (hm : map.length = WIDTH * HEIGHT) (h3 : (free_dirs map pt).length = 3) :
    move_randomly fuel pt map rng =
      move_randomly_redraw (free_dirs map pt) fuel ((next_rand rng).1 &&& 0x3)
        (next_rand rng).2 := by
  unfold move_randomly
  rw [move_possibilities_eq map pt hm]
  simp [h3]

/-- C7: on a full-size maze, with `possibilities` the legal headings of the cell in the order
EAST, NORTH, WEST, SOUTH and `v` the low two bits of a draw: with 2 legal moves the first
draw selects `possibilities[v & 1]` and each legal heading is selected by exactly 2 of the 4
values of `v`; with 4 legal moves it selects `possibilities[v]` and each legal heading is
selected by exactly 1 value; with 3 legal moves a draw with `v < 3` selects `possibilities[v]`,
each legal heading being selected by exactly 1 of the values 0, 1, 2, while a draw with
`v = 3` selects nothing: the call continues exactly as a call from the next generator
state. -/
theorem move_randomly_uniform (map : List Char) (pt : point) (possibilities : List direction)
    (hm : map.length = WIDTH * HEIGHT)
    (hp : move_possibilities pt map = some possibilities) :
    (∀ h, h ∈ possibilities ↔ h < NUM_DIRECTIONS ∧ is_dir_free pt map h = some true) ∧
    possibilities.Nodup ∧
    (possibilities.length = 2 →
      (∀ fuel rng, move_randomly fuel pt map rng =
        some (possibilities.getD (((next_rand rng).1 &&& 0x3) &&& 0x1) NUM_DIRECTIONS,
          (next_rand rng).2)) ∧
      ∀ h, h ∈ possibilities → ((List.range 4).filter
        (fun v => possibilities.getD (v &&& 0x1) NUM_DIRECTIONS = h)).length = 2) ∧
    (possibilities.length = 4 →
      (∀ fuel rng, move_randomly fuel pt map rng =
        some (possibilities.getD ((next_rand rng).1 &&& 0x3) NUM_DIRECTIONS,
          (next_rand rng).2)) ∧
      ∀ h, h ∈ possibilities → ((List.range 4).filter
        (fun v => possibilities.getD v NUM_DIRECTIONS = h)).length = 1) ∧
    (possibilities.length = 3 →
      (∀ fuel rng, (next_rand rng).1 &&& 0x3 < 3 → move_randomly fuel pt map rng =
        some (possibilities.getD ((next_rand rng).1 &&& 0x3) NUM_DIRECTIONS,
          (next_rand rng).2)) ∧
      (∀ fuel rng, (next_rand rng).1 &&& 0x3 = 3 →
        move_randomly 0 pt map rng = none ∧
        move_randomly (fuel + 1) pt map rng = move_randomly fuel pt map (next_rand rng).2) ∧
      ∀ h, h ∈ possibilities → ((List.range 3).filter
        (fun v => possibilities.getD v NUM_DIRECTIONS = h)).length = 1) := by
  rw [move_possibilities_eq map pt hm] at hp
  injection hp with hp
  subst hp
  refine ⟨fun h => ?_, free_dirs_nodup map pt, fun h2 => ⟨fun fuel rng => ?_, fun h hh => ?_⟩,
    fun h4 => ⟨fun fuel rng => ?_, fun h hh => ?_⟩,
    fun h3 => ⟨fun fuel rng hv => ?_, fun fuel rng hv => ⟨?_, ?_⟩, fun h hh => ?_⟩⟩
  · rw [mem_free_dirs, is_dir_free_eq map pt h hm]
    simp
  · exact move_randomly_two fuel map pt rng hm h2
  · exact count_two _ h2 (free_dirs_nodup map pt) h hh
  · exact move_randomly_four fuel map pt rng hm h4
  · exact count_four _ h4 (free_dirs_nodup map pt) h hh
  · rw [move_randomly_three fuel map pt rng hm h3]
    unfold move_randomly_redraw
    rw [if_neg (by rw [h3]; omega)]
  · rw [move_randomly_three 0 map pt rng hm h3]
    unfold move_randomly_redraw
    rw [if_pos (by rw [h3, hv])]
  · rw [move_randomly_three (fuel + 1) map pt rng hm h3,
      move_randomly_three fuel map pt _ hm h3]
    conv_lhs => unfold move_randomly_redraw
    rw [if_pos (by rw [h3, hv])]
  · exact count_three _ h3 (free_dirs_nodup map pt) h hh

/-! ## The accumulation loop of `update_locator` -/

theorem foldlM_eq_some_foldl_inv {α β : Type} (P : β → Prop) (f : β → α → Option β)
    (g : β → α → β) (l : List α)
    (h : ∀ b a, a ∈ l → P b → f b a = some (g b a) ∧ P (g b a)) (init : β) (hi : P init) :
    l.foldlM f init = some (l.foldl g init) ∧ P (l.foldl g init) := by
  induction l generalizing init with
  | nil => exact ⟨rfl, hi⟩
  | cons a l ih =>
    obtain ⟨h1, h2⟩ := h init a (List.mem_cons_self _ _) hi
    rw [List.foldlM_cons, h1]
    exact ih (fun b x hx => h b x (List.mem_cons_of_mem _ hx)) (g init a) h2

theorem mapM_eq_some_map {α β : Type} (f : α → Option β) (g : α → β) (l : List α)
    (h : ∀ a, a ∈ l → f a = some (g a)) : l.mapM f = some (l.map g) := by
  induction l with
  | nil => rfl
  | cons a l ih =>
    rw [List.mapM_cons, h a (List.mem_cons_self _ _),
      ih (fun x hx => h x (List.mem_cons_of_mem _ hx))]
    rfl

set_option maxRecDepth 100000 in
theorem scan_points_eq :
    scan_points (WIDTH * HEIGHT + 1) ⟨0, 0⟩ = (List.range (WIDTH * HEIGHT)).map from_index := by
  decide

theorem compute_observation_eq (map : List Char) (pt : point) (dir : direction)
    (hm : map.length = WIDTH * HEIGHT) :
    compute_observation pt map dir = some (obs_at map pt dir) := by
  unfold compute_observation obs_at
  rw [foldlM_eq_some_foldl _
    (fun (sensor : Nat → Bool) d => Function.update sensor d (free_at map pt d))]
  intro b a _
  rw [is_dir_free_eq map pt a hm]

theorem sat_store_length (ret : List Nat) (i v : Nat) :
    (sat_store ret i v).length = ret.length := by
  unfold sat_store
  simp

theorem update_spread_eq (src_prob : Nat) (pt : point) (dir_probs : List Nat) (num_prob : Nat)
    (ret : List Nat)
    (h : ∀ d, d < NUM_DIRECTIONS → point_index (move_point pt d) < ret.length) :
    update_spread src_prob pt dir_probs num_prob ret =
      some ((List.range NUM_DIRECTIONS).foldl (fun ret dir =>
        sat_store ret (point_index (move_point pt dir))
          (move_prob (dir_probs.getD dir 0) src_prob num_prob)) ret) := by
  unfold update_spread
  refine (foldlM_eq_some_foldl_inv (fun r : List Nat => r.length = ret.length) _ _ _ ?_ ret
    rfl).1
  intro b a ha hb
  have hlt : point_index (move_point pt a) < b.length := by
    rw [hb]; exact h a (List.mem_range.mp ha)
  refine ⟨?_, by show (sat_store _ _ _).length = _; rw [sat_store_length, hb]⟩
  dsimp only
  rw [List.get?_eq_get hlt]
  unfold sat_store move_prob
  rw [List.getD_eq_getElem _ _ hlt]
  rfl

theorem dir_probs_fold (p : Nat → Bool) (v : Nat → Nat) :
    (List.range 4).foldl (fun (st : List Nat × Nat) d =>
      if p d then (st.1.set d (v d), st.2 + 1) else (st.1.set d 0, st.2)) ([0, 0, 0, 0], 0) =
    ([if p 0 then v 0 else 0, if p 1 then v 1 else 0, if p 2 then v 2 else 0,
      if p 3 then v 3 else 0], ((List.range 4).filter p).length) := by
  simp only [List.range_succ, List.range_zero, List.nil_append, List.cons_append,
    List.foldl_cons, List.foldl_nil, List.filter_cons, List.filter_nil]
  cases p 0 <;> cases p 1 <;> cases p 2 <;> cases p 3 <;> rfl

theorem update_dir_probs_eq (map : List Char) (pt : point) (obs : observation)
    (hm : map.length = WIDTH * HEIGHT) :
    update_dir_probs pt map obs =
      some ([dir_prob map obs pt 0, dir_prob map obs pt 1, dir_prob map obs pt 2,
        dir_prob map obs pt 3], (free_dirs map pt).length) := by
  unfold update_dir_probs
  rw [foldlM_eq_some_foldl _ (fun (st : List Nat × Nat) d =>
    if free_at map pt d then
      (st.1.set d (observation_probability (obs_at map (move_point pt d) d) obs), st.2 + 1)
    else (st.1.set d 0, st.2))]
  · rw [dir_probs_fold (free_at map pt)
      (fun d => observation_probability (obs_at map (move_point pt d) d) obs)]
    rfl
  · intro b a _
    dsimp only
    by_cases hinv : is_invalid (move_point pt a) = true
    · have hf : free_at map pt a = false := by simp [free_at, hinv]
      simp [hinv, hf]
    · have hinv' : is_invalid (move_point pt a) = false := by simpa using hinv
      rw [if_neg hinv, is_wall_eq map _ hm hinv']
      cases hw : wall_at map (move_point pt a)
      · have hf : free_at map pt a = true := by simp [free_at, hinv', hw]
        simp [hf, compute_observation_eq map _ a hm]
      · have hf : free_at map pt a = false := by simp [free_at, hw]
        simp [hf]

theorem interior_of_free (map : List Char) (c : Nat) (hm : map.length = WIDTH * HEIGHT)
    (hb : border_walled map) (hc : c < WIDTH * HEIGHT)
    (hw : wall_at map (from_index c) = false) :
    0 < c % 20 ∧ c % 20 < 19 ∧ 0 < c / 20 ∧ c / 20 < 7 := by
  have hc' : c < 160 := hc
  by_contra hcon
  have hbord : c % WIDTH = 0 ∨ c % WIDTH = WIDTH - 1 ∨ c / WIDTH = 0 ∨ c / WIDTH = HEIGHT - 1 := by
    show c % 20 = 0 ∨ c % 20 = 19 ∨ c / 20 = 0 ∨ c / 20 = 7
    omega
  have h1 := hb c hc hbord
  rw [is_wall_eq map _ hm (is_invalid_from_index c hc), hw] at h1
  cases h1

theorem move_valid_of_interior (c d : Nat) (hd : d < NUM_DIRECTIONS)
    (hi : 0 < c % 20 ∧ c % 20 < 19 ∧ 0 < c / 20 ∧ c / 20 < 7) :
    is_invalid (move_point (from_index c) d) = false := by
  rw [is_invalid_eq_false]
  unfold from_index
  have hd' : d < 4 := hd
  interval_cases d <;> simp only [move_point] <;>
    show _ ∧ _ ∧ _ ∧ _ <;> push_cast <;> omega

theorem cell_step_length (map : List Char) (prior : List Nat) (obs : observation)
    (ret : List Nat) (c : Nat) : (cell_step map prior obs ret c).length = ret.length := by
  unfold cell_step
  split_ifs
  · rfl
  · rfl
  · simp only [List.range_succ, List.range_zero, List.nil_append, List.cons_append,
      List.foldl_cons, List.foldl_nil, sat_store_length]

theorem update_cell_eq (map : List Char) (prior : List Nat) (obs : observation)
    (ret : List Nat) (c : Nat) (hm : map.length = WIDTH * HEIGHT) (hb : border_walled map)
    (hp : prior.length = WIDTH * HEIGHT) (hr : ret.length = WIDTH * HEIGHT)
    (hc : c < WIDTH * HEIGHT) :
    update_cell ⟨prior⟩ map obs ret (from_index c) = some (cell_step map prior obs ret c) := by
  unfold update_cell cell_step
  rw [is_wall_eq map _ hm (is_invalid_from_index c hc)]
  cases hw : wall_at map (from_index c)
  · dsimp only
    rw [update_dir_probs_eq map _ obs hm]
    dsimp only
    have hidx : point_index (from_index c) = c := by
      rw [point_index_from_index]
      have : c < 160 := hc
      omega
    have hint := interior_of_free map c hm hb hc hw
    by_cases hk : (free_dirs map (from_index c)).length = 0
    · simp [hk]
    · rw [if_neg hk, hidx, List.get?_eq_get (by rw [hp]; exact hc)]
      dsimp only
      rw [update_spread_eq]
      · simp only [Bool.false_eq_true, if_false, if_neg hk]
        rw [List.getD_eq_getElem _ _ (by rw [hp]; exact hc)]
        simp only [List.range_succ, List.range_zero, List.nil_append, List.cons_append,
          List.foldl_cons, List.foldl_nil]
        rfl
      · intro d hd
        rw [hr]
        exact point_index_lt _ (move_valid_of_interior c d hd hint)
  · simp

theorem update_accumulate_eq (map : List Char) (prior : List Nat) (obs : observation)
    (hm : map.length = WIDTH * HEIGHT) (hb : border_walled map)
    (hp : prior.length = WIDTH * HEIGHT) :
    update_accumulate ⟨prior⟩ map obs = some (accumulator map prior obs) := by
  unfold update_accumulate accumulator
  rw [scan_points_eq, List.foldlM_map]
  refine (foldlM_eq_some_foldl_inv (fun r : List Nat => r.length = WIDTH * HEIGHT) _ _ _ ?_ _
    (by simp)).1
  intro b a ha hlen
  refine ⟨update_cell_eq map prior obs b a hm hb hp hlen (List.mem_range.mp ha), ?_⟩
  show (cell_step _ _ _ _ _).length = _
  rw [cell_step_length, hlen]

theorem getD_set_of_lt (l : List Nat) (i n a : Nat) (hn : n < l.length) :
    (l.set i a).getD n 0 = if i = n then a else l.getD n 0 := by
  simp only [List.getD_eq_getElem?_getD, List.getElem?_set]
  split_ifs with h1 h2
  · rfl
  · omega
  · rfl

theorem move_prob_lt (dp src_prob num_prob : Nat) : move_prob dp src_prob num_prob < 2 ^ 32 := by
  unfold move_prob
  rw [Nat.shiftRight_eq_div_pow]
  apply Nat.div_lt_of_lt_mul
  have h1 : dp * src_prob % 2 ^ 64 / num_prob ≤ dp * src_prob % 2 ^ 64 := Nat.div_le_self _ _
  have h2 : dp * src_prob % 2 ^ 64 < 2 ^ 64 := Nat.mod_lt _ (by norm_num)
  have h3 : (2 : Nat) ^ 32 * 2 ^ 32 = 2 ^ 64 := by norm_num
  omega

theorem sat_arith (S v : Nat) (hv : v < 2 ^ 32) :
    (if (min (2 ^ 32 - 1) S + v) % 2 ^ 64 ≥ 2 ^ 32 then 2 ^ 32 - 1
      else (min (2 ^ 32 - 1) S + v) % 2 ^ 64) % 2 ^ 32 = min (2 ^ 32 - 1) (S + v) := by
  have e : min (2 ^ 32 - 1) S + v < 2 ^ 64 := by omega
  rw [Nat.mod_eq_of_lt e]
  split_ifs <;> omega

theorem sat_store_getD (ret : List Nat) (i v n S : Nat) (hn : n < ret.length)
    (hv : v < 2 ^ 32) (hS : ret.getD n 0 = min (2 ^ 32 - 1) S) :
    (sat_store ret i v).getD n 0 = min (2 ^ 32 - 1) (S + if i = n then v else 0) := by
  unfold sat_store
  dsimp only
  rw [getD_set_of_lt _ _ _ _ hn]
  by_cases h : i = n
  · subst h
    rw [if_pos rfl, if_pos rfl, hS]
    exact sat_arith S v hv
  · rw [if_neg h, if_neg h, hS, Nat.add_zero]

theorem cell_step_getD (map : List Char) (prior : List Nat) (obs : observation)
    (ret : List Nat) (c n S : Nat) (hn : n < ret.length)
    (hS : ret.getD n 0 = min (2 ^ 32 - 1) S) :
    (cell_step map prior obs ret c).getD n 0 =
      min (2 ^ 32 - 1) (S + ((List.range NUM_DIRECTIONS).map
        (cell_term map prior obs n c)).sum) := by
  unfold cell_step
  simp only [List.range_succ, List.range_zero, List.nil_append, List.cons_append,
    List.foldl_cons, List.foldl_nil, List.map_cons, List.map_nil, List.sum_cons, List.sum_nil]
  unfold cell_term
  by_cases hw : wall_at map (from_index c) = true
  · simp only [hw, if_true, Nat.add_zero]
    exact hS
  · simp only [hw, Bool.false_eq_true, if_false]
    by_cases hk : (free_dirs map (from_index c)).length = 0
    · simp only [hk, if_true, Nat.add_zero]
      exact hS
    · simp only [hk, if_false]
      have s0 := sat_store_getD ret (point_index (move_point (from_index c) 0))
        _ n S hn (move_prob_lt (dir_prob map obs (from_index c) 0) (prior.getD c 0)
          (free_dirs map (from_index c)).length) hS
      have s1 := sat_store_getD _ (point_index (move_point (from_index c) 1))
        _ n _ (by rw [sat_store_length]; exact hn)
        (move_prob_lt (dir_prob map obs (from_index c) 1) (prior.getD c 0)
          (free_dirs map (from_index c)).length) s0
      have s2 := sat_store_getD _ (point_index (move_point (from_index c) 2))
        _ n _ (by rw [sat_store_length, sat_store_length]; exact hn)
        (move_prob_lt (dir_prob map obs (from_index c) 2) (prior.getD c 0)
          (free_dirs map (from_index c)).length) s1
      have s3 := sat_store_getD _ (point_index (move_point (from_index c) 3))
        _ n _ (by rw [sat_store_length, sat_store_length, sat_store_length]; exact hn)
        (move_prob_lt (dir_prob map obs (from_index c) 3) (prior.getD c 0)
          (free_dirs map (from_index c)).length) s2
      rw [s3]
      congr 1
      omega

theorem cell_fold_getD (map : List Char) (prior : List Nat) (obs : observation)
    (l : List Nat) (ret : List Nat) (n S : Nat) (hn : n < ret.length)
    (hS : ret.getD n 0 = min (2 ^ 32 - 1) S) :
    (l.foldl (cell_step map prior obs) ret).getD n 0 =
      min (2 ^ 32 - 1) (S + (l.map (fun c => ((List.range NUM_DIRECTIONS).map
        (cell_term map prior obs n c)).sum)).sum) := by
  induction l generalizing ret S with
  | nil => simpa using hS
  | cons c l ih =>
    rw [List.foldl_cons, ih _ _ (by rw [cell_step_length]; exact hn)
      (cell_step_getD map prior obs ret c n S hn hS)]
    simp only [List.map_cons, List.sum_cons]
    congr 1
    omega

theorem observation_probability_lt (a b : observation) :
    observation_probability a b < 2 ^ 32 := by
  unfold observation_probability
  exact Nat.mod_lt _ (by norm_num)

theorem legal_move_count_eq (map : List Char) (c : Nat) (hm : map.length = WIDTH * HEIGHT) :
    legal_move_count map c = (free_dirs map (from_index c)).length := by
  unfold legal_move_count
  rw [move_possibilities_eq map _ hm]

theorem cell_likelihood_eq (map : List Char) (obs : observation) (n : Nat) (h : direction)
    (hm : map.length = WIDTH * HEIGHT) :
    cell_likelihood map obs n h = observation_probability (obs_at map (from_index n) h) obs := by
  unfold cell_likelihood
  rw [compute_observation_eq map _ h hm]

theorem move_prob_eq (dp src_prob num_prob : Nat) (hdp : dp < 2 ^ 32) (hs : src_prob < 2 ^ 32) :
    move_prob dp src_prob num_prob = dp * src_prob / (num_prob * 2 ^ 32) := by
  unfold move_prob
  have h : dp * src_prob < 2 ^ 64 := by
    have := Nat.mul_lt_mul'' hdp hs
    norm_num at this ⊢
    exact this
  rw [Nat.mod_eq_of_lt h, Nat.shiftRight_eq_div_pow, Nat.div_div_eq_div_mul]

theorem getD_lt_of_forall (prior : List Nat) (c : Nat) (hr : ∀ x, x ∈ prior → x < 2 ^ 32) :
    prior.getD c 0 < 2 ^ 32 := by
  by_cases hc : c < prior.length
  · rw [List.getD_eq_getElem _ _ hc]
    exact hr _ (List.getElem_mem _)
  · rw [List.getD_eq_default _ _ (by omega)]
    norm_num

theorem cell_term_eq (map : List Char) (prior : List Nat) (obs : observation) (n c d : Nat)
    (hm : map.length = WIDTH * HEIGHT) (hb : border_walled map)
    (hr : ∀ x, x ∈ prior → x < 2 ^ 32)
    (hn : n < WIDTH * HEIGHT) (hc : c < WIDTH * HEIGHT) (hd : d < NUM_DIRECTIONS) :
    cell_term map prior obs n c d = contribution map prior obs n d c := by
  unfold cell_term contribution
  rw [is_wall_eq map _ hm (is_invalid_from_index c hc),
    is_wall_eq map _ hm (is_invalid_from_index n hn), legal_move_count_eq map c hm,
    cell_likelihood_eq map obs n d hm]
  cases hw : wall_at map (from_index c)
  · simp only [Bool.false_eq_true, if_false, and_true]
    have hint := interior_of_free map c hm hb hc hw
    have hv := move_valid_of_interior c d hd hint
    have hiff : point_index (move_point (from_index c) d) = n ↔
        move_point (from_index c) d = from_index n := by
      constructor
      · intro h
        rw [← h, from_index_point_index _ hv]
      · intro h
        rw [h, point_index_from_index]
        have : n < 160 := hn
        omega
    by_cases hk : (free_dirs map (from_index c)).length = 0
    · rw [if_pos hk, hk, Nat.zero_mul, Nat.div_zero]
      simp
    · rw [if_neg hk]
      by_cases ht : move_point (from_index c) d = from_index n
      · rw [if_pos (hiff.mpr ht)]
        cases hwn : wall_at map (from_index n)
        · have hf : free_at map (from_index c) d = true := by
            simp [free_at, ht, hwn, is_invalid_from_index n hn]
          rw [if_pos ⟨ht, rfl⟩]
          unfold dir_prob
          rw [hf, if_pos rfl, ht]
          exact move_prob_eq _ _ _ (observation_probability_lt _ _)
            (getD_lt_of_forall prior c hr)
        · have hf : free_at map (from_index c) d = false := by
            simp [free_at, ht, hwn]
          rw [if_neg (by simp)]
          unfold dir_prob move_prob
          simp [hf]
      · rw [if_neg (fun h => ht (hiff.mp h)), if_neg (fun h => ht h.1)]
  · simp

theorem list_sum_range (n : Nat) (f : Nat → Nat) :
    ((List.range n).map f).sum = ∑ i in Finset.range n, f i := by
  induction n with
  | zero => simp
  | succ n ih =>
    rw [List.range_succ, List.map_append, List.sum_append, ih, Finset.sum_range_succ]
    simp

theorem accumulator_getD (map : List Char) (prior : List Nat) (obs : observation) (n : Nat)
    (hm : map.length = WIDTH * HEIGHT) (hb : border_walled map)
    (hr : ∀ x, x ∈ prior → x < 2 ^ 32) (hn : n < WIDTH * HEIGHT) :
    (accumulator map prior obs).getD n 0 =
      min (2 ^ 32 - 1) (∑ h in Finset.range NUM_DIRECTIONS,
        ∑ c in Finset.range (WIDTH * HEIGHT), contribution map prior obs n h c) := by
  unfold accumulator
  have hlen : n < (List.replicate (WIDTH * HEIGHT) 0).length := by
    rw [List.length_replicate]; exact hn
  have h0 : (List.replicate (WIDTH * HEIGHT) 0).getD n 0 = min (2 ^ 32 - 1) 0 := by
    rw [List.getD_eq_getElem _ _ hlen, List.getElem_replicate]; rfl
  rw [cell_fold_getD map prior obs _ _ n 0 hlen h0]
  rw [Nat.zero_add, list_sum_range, Finset.sum_comm]
  refine congrArg _ ?_
  apply Finset.sum_congr rfl
  intro c hc
  rw [list_sum_range]
  apply Finset.sum_congr rfl
  intro d hd
  exact cell_term_eq map prior obs n c d hm hb hr hn (Finset.mem_range.mp hc)
    (Finset.mem_range.mp hd)

theorem contribution_wall_target (map : List Char) (prior : List Nat) (obs : observation)
    (n c : Nat) (h : direction) (hw : is_wall (from_index n) map = some true) :
    contribution map prior obs n h c = 0 := by
  unfold contribution
  rw [hw, if_neg (by simp)]

theorem contribution_dead_source (map : List Char) (prior : List Nat) (obs : observation)
    (n c : Nat) (h : direction)
    (hw : is_wall (from_index c) map = some true ∨ legal_move_count map c = 0) :
    contribution map prior obs n h c = 0 := by
  unfold contribution
  rcases hw with hw | hw
  · rw [hw, if_neg (by simp)]
  · rw [hw]; simp

theorem legal_move_count_pos (map : List Char) (n c : Nat) (h : direction)
    (hm : map.length = WIDTH * HEIGHT) (hn : n < WIDTH * HEIGHT) (hh : h < NUM_DIRECTIONS)
    (hmv : move_point (from_index c) h = from_index n)
    (hfree : is_wall (from_index n) map = some false) : 0 < legal_move_count map c := by
  rw [legal_move_count_eq map c hm]
  rw [is_wall_eq map _ hm (is_invalid_from_index n hn)] at hfree
  injection hfree with hfree
  have hmem : h ∈ free_dirs map (from_index c) := by
    rw [mem_free_dirs]
    refine ⟨hh, ?_⟩
    simp [free_at, hmv, hfree, is_invalid_from_index n hn]
  exact List.length_pos_of_mem hmem

/-! ## Renormalisation -/

theorem foldl_add_mod (l : List Nat) (init : Nat) :
    l.foldl (fun s a => (s + a) % 2 ^ 64) init = (init % 2 ^ 64 + l.sum) % 2 ^ 64 ∨
      (l = [] ∧ l.foldl (fun s a => (s + a) % 2 ^ 64) init = init) := by
  induction l generalizing init with
  | nil => right; exact ⟨rfl, rfl⟩
  | cons a l ih =>
    left
    rw [List.foldl_cons, List.sum_cons]
    rcases ih ((init + a) % 2 ^ 64) with h | ⟨hnil, h⟩
    · rw [h]; omega
    · rw [h, hnil]; simp only [List.sum_nil]; omega

theorem sum_prob_eq (arr : List Nat) (h : arr.sum < 2 ^ 64) :
    arr.foldl (fun s a => (s + a) % 2 ^ 64) 0 = arr.sum := by
  rcases foldl_add_mod arr 0 with h1 | ⟨hnil, h1⟩
  · rw [h1]; omega
  · rw [h1, hnil]; rfl

theorem sum_lt_of_entries (arr : List Nat) (hr : ∀ a, a ∈ arr → a < 2 ^ 32)
    (hlen : arr.length ≤ 2 ^ 32) : arr.sum < 2 ^ 64 := by
  have h1 : arr.sum ≤ arr.length • (2 ^ 32 - 1) :=
    List.sum_le_card_nsmul arr (2 ^ 32 - 1) (fun x hx => by have := hr x hx; omega)
  rw [smul_eq_mul] at h1
  have h2 : arr.length * (2 ^ 32 - 1) ≤ 2 ^ 32 * (2 ^ 32 - 1) := Nat.mul_le_mul_right _ hlen
  have h3 : (2 : Nat) ^ 32 * (2 ^ 32 - 1) < 2 ^ 64 := by norm_num
  omega

theorem normalize_probabilities_eq (arr : List Nat) (hr : ∀ a, a ∈ arr → a < 2 ^ 32)
    (hlen : arr.length ≤ 2 ^ 32) (hs : arr.sum ≠ 0) :
    normalize_probabilities arr = some (arr.map (normalized_entry arr.sum)) := by
  unfold normalize_probabilities
  dsimp only
  rw [sum_prob_eq arr (sum_lt_of_entries arr hr hlen)]
  apply mapM_eq_some_map
  intro a ha
  unfold normalized_entry
  by_cases h : a = arr.sum
  · rw [if_pos h, if_pos h]; rfl
  · rw [if_neg h, if_neg h, if_neg hs]
    have hle : a ≤ arr.sum := List.le_sum_of_mem ha
    have hlt : a < arr.sum := lt_of_le_of_ne hle h
    have ha32 := hr a ha
    have h1 : a * 2 ^ 32 < 2 ^ 64 := by
      have : a * 2 ^ 32 < 2 ^ 32 * 2 ^ 32 := Nat.mul_lt_mul_of_pos_right ha32 (by norm_num)
      norm_num at this ⊢
      exact this
    have h2 : a * 2 ^ 32 / arr.sum < 2 ^ 32 := by
      apply Nat.div_lt_of_lt_mul
      exact Nat.mul_lt_mul_of_pos_right hlt (by norm_num)
    rw [Nat.shiftLeft_eq, Nat.mod_eq_of_lt h1, Nat.mod_eq_of_lt h2]

theorem normalized_entry_bounds (s a : Nat) (hs : s ≠ 0) :
    s * normalized_entry s a ≤ a * 2 ^ 32 ∧ a * 2 ^ 32 ≤ s * (normalized_entry s a + 1) := by
  unfold normalized_entry
  by_cases h : a = s
  · subst h
    rw [if_pos rfl]
    constructor
    · exact Nat.mul_le_mul_left a (by norm_num)
    · exact Nat.mul_le_mul_left a (by norm_num)
  · rw [if_neg h]
    exact ⟨Nat.mul_div_le _ _, le_of_lt (Nat.lt_mul_div_succ _ (Nat.pos_of_ne_zero hs))⟩

theorem normalized_sum_bounds (s : Nat) (hs : s ≠ 0) (l : List Nat) :
    s * (l.map (normalized_entry s)).sum ≤ l.sum * 2 ^ 32 ∧
      l.sum * 2 ^ 32 ≤ s * ((l.map (normalized_entry s)).sum + l.length) := by
  induction l with
  | nil => simp
  | cons a l ih =>
    obtain ⟨h1, h2⟩ := normalized_entry_bounds s a hs
    obtain ⟨i1, i2⟩ := ih
    simp only [List.map_cons, List.sum_cons, List.length_cons]
    constructor
    · rw [Nat.mul_add, Nat.add_mul]; omega
    · have e : s * (normalized_entry s a + (l.map (normalized_entry s)).sum + (l.length + 1)) =
          s * (normalized_entry s a + 1) + s * ((l.map (normalized_entry s)).sum + l.length) := by
        ring
      rw [e, Nat.add_mul]; omega

theorem normalized_total (l : List Nat) (hs : l.sum ≠ 0) :
    2 ^ 32 ≤ (l.map (normalized_entry l.sum)).sum + l.length ∧
      (l.map (normalized_entry l.sum)).sum ≤ 2 ^ 32 := by
  obtain ⟨h1, h2⟩ := normalized_sum_bounds l.sum hs l
  have hpos : 0 < l.sum := Nat.pos_of_ne_zero hs
  constructor
  · exact Nat.le_of_mul_le_mul_left h2 hpos
  · exact Nat.le_of_mul_le_mul_left h1 hpos

theorem zeros_sum (n : Nat) : (List.replicate n 0).sum = 0 := by
  rw [List.sum_replicate, smul_zero]

theorem normalize_zero (arr : List Nat) (h : arr.sum = 0) :
    normalize_probabilities arr = some (List.replicate arr.length (2 ^ 32 - 1)) := by
  unfold normalize_probabilities
  dsimp only
  rw [sum_prob_eq arr (by rw [h]; norm_num), h]
  rw [mapM_eq_some_map _ (fun _ => 2 ^ 32 - 1)]
  · rw [List.map_const']
  · intro a ha
    have hz : a = 0 := by
      have := List.le_sum_of_mem ha
      omega
    rw [if_pos hz]
    rfl

theorem normalize_probabilities_total (arr : List Nat) (hr : ∀ a, a ∈ arr → a < 2 ^ 32)
    (hlen : arr.length ≤ 2 ^ 32) : ∃ out, normalize_probabilities arr = some out := by
  by_cases hs : arr.sum = 0
  · exact ⟨_, normalize_zero arr hs⟩
  · exact ⟨_, normalize_probabilities_eq arr hr hlen hs⟩

/-! ## The accumulator, entry by entry -/

theorem cell_fold_length (map : List Char) (prior : List Nat) (obs : observation)
    (l : List Nat) (ret : List Nat) :
    (l.foldl (cell_step map prior obs) ret).length = ret.length := by
  induction l generalizing ret with
  | nil => rfl
  | cons a l ih => rw [List.foldl_cons, ih, cell_step_length]

theorem accumulator_length (map : List Char) (prior : List Nat) (obs : observation) :
    (accumulator map prior obs).length = WIDTH * HEIGHT := by
  unfold accumulator
  rw [cell_fold_length]
  exact List.length_replicate _ _

theorem accumulator_wall (map : List Char) (prior : List Nat) (obs : observation) (n : Nat)
    (hm : map.length = WIDTH * HEIGHT) (hb : border_walled map)
    (hr : ∀ x, x ∈ prior → x < 2 ^ 32) (hn : n < WIDTH * HEIGHT)
    (hw : is_wall (from_index n) map = some true) : (accumulator map prior obs).getD n 0 = 0 := by
  rw [accumulator_getD map prior obs n hm hb hr hn]
  have hz : (∑ h in Finset.range NUM_DIRECTIONS,
      ∑ c in Finset.range (WIDTH * HEIGHT), contribution map prior obs n h c) = 0 := by
    apply Finset.sum_eq_zero
    intro h _
    apply Finset.sum_eq_zero
    intro c _
    exact contribution_wall_target map prior obs n c h hw
  rw [hz]
  exact Nat.min_zero _

theorem update_locator_eq (map : List Char) (prior : List Nat) (obs : observation)
    (hm : map.length = WIDTH * HEIGHT) (hb : border_walled map)
    (hp : prior.length = WIDTH * HEIGHT) :
    update_locator ⟨prior⟩ map obs =
      (normalize_probabilities (accumulator map prior obs)).map locator.mk := by
  unfold update_locator
  rw [update_accumulate_eq map prior obs hm hb hp]
  dsimp only
  cases normalize_probabilities _ <;> rfl

theorem accumulator_entry_lt (map : List Char) (prior : List Nat) (obs : observation)
    (hm : map.length = WIDTH * HEIGHT) (hb : border_walled map)
    (hr : ∀ x, x ∈ prior → x < 2 ^ 32) :
    ∀ a, a ∈ accumulator map prior obs → a < 2 ^ 32 := by
  intro a ha
  obtain ⟨i, hi, rfl⟩ := List.getElem_of_mem ha
  have hi' : i < WIDTH * HEIGHT := by rwa [accumulator_length] at hi
  have h := accumulator_getD map prior obs i hm hb hr hi'
  rw [List.getD_eq_getElem _ _ hi] at h
  rw [h]
  omega

/-- C2: on a 20x8 maze whose border cells are walls, for a prior of 160 values of 32 bits and
any observation, the accumulation loop of `update_locator` completes, and the accumulator of
each cell `n` is `min(2^32 - 1, sum over headings h and cells c of the contribution of c)`,
the contribution being `floor(L(n,h) * prior[c] / (k_c * 2^32))` when `move_point(c, h) = n`
and both `n` and `c` are free (then `k_c > 0`), and nothing otherwise; wall cells accumulate
nothing, walls and cells without legal move contribute nothing, and `update_locator` returns
the belief that `normalize_probabilities` makes of the accumulator. -/
theorem update_locator_accumulator (map : List Char) (prior : List Nat) (obs : observation)
    (hm : map.length = WIDTH * HEIGHT) (hb : border_walled map)
    (hp : prior.length = WIDTH * HEIGHT) (hr : ∀ x, x ∈ prior → x < 2 ^ 32) :
    ∃ acc, update_accumulate ⟨prior⟩ map obs = some acc ∧ acc.length = WIDTH * HEIGHT ∧
      (∀ n, n < WIDTH * HEIGHT → acc.getD n 0 =
        min (2 ^ 32 - 1) (∑ h in Finset.range NUM_DIRECTIONS,
          ∑ c in Finset.range (WIDTH * HEIGHT), contribution map prior obs n h c)) ∧
      (∀ n h c, n < WIDTH * HEIGHT → h < NUM_DIRECTIONS →
        move_point (from_index c) h = from_index n →
        is_wall (from_index n) map = some false → 0 < legal_move_count map c) ∧
      (∀ n, n < WIDTH * HEIGHT → is_wall (from_index n) map = some true → acc.getD n 0 = 0) ∧
      (∀ n h c, (is_wall (from_index c) map = some true ∨ legal_move_count map c = 0) →
        contribution map prior obs n h c = 0) ∧
      ∃ post, normalize_probabilities acc = some post ∧
        update_locator ⟨prior⟩ map obs = some ⟨post⟩ := by
  obtain ⟨post, hpost⟩ := normalize_probabilities_total (accumulator map prior obs)
    (accumulator_entry_lt map prior obs hm hb hr)
    (by rw [accumulator_length]; norm_num)
  exact ⟨accumulator map prior obs, update_accumulate_eq map prior obs hm hb hp,
    accumulator_length map prior obs,
    fun n hn => accumulator_getD map prior obs n hm hb hr hn,
    fun n h c hn hh hmv hfree => legal_move_count_pos map n c h hm hn hh hmv hfree,
    fun n hn hw => accumulator_wall map prior obs n hm hb hr hn hw,
    fun n h c hw => contribution_dead_source map prior obs n c h hw,
    post, hpost, by rw [update_locator_eq map prior obs hm hb hp, hpost]; rfl⟩

/-! ## The belief invariant -/

theorem observation_probability_ge (a b : observation) :
    2 ^ 12 ≤ observation_probability a b := by
  have hm := sensor_matches_le a b
  by_cases h0 : a.direction ^^^ b.direction = 0
  · rw [observation_probability_same_heading a b h0]
    generalize sensor_matches a b = m at hm
    interval_cases m <;> decide
  by_cases h123 : a.direction ^^^ b.direction = 1 ∨ a.direction ^^^ b.direction = 2 ∨
      a.direction ^^^ b.direction = 3
  · rw [observation_probability_other_heading a b h123]
    generalize sensor_matches a b = m at hm
    split_ifs <;> interval_cases m <;> decide
  · have h1 : ¬ (a.direction ^^^ b.direction = 1 ∨ a.direction ^^^ b.direction = 3) :=
      fun h => h123 (by tauto)
    have h2 : ¬ a.direction ^^^ b.direction = 2 := fun h => h123 (by tauto)
    unfold observation_probability
    simp only [h0, h1, h2, if_false, sensor_probability_eq]
    generalize sensor_matches a b = m at hm
    interval_cases m <;> decide

theorem exists_large_entry (l : List Nat) (hlen : l.length = WIDTH * HEIGHT)
    (hs : 2 ^ 32 - 2 ^ 12 ≤ l.sum) : ∃ c, c < WIDTH * HEIGHT ∧ 26843520 ≤ l.getD c 0 := by
  by_contra hcon
  push_neg at hcon
  have h1 : l.sum ≤ l.length • 26843519 := by
    apply List.sum_le_card_nsmul
    intro x hx
    obtain ⟨i, hi, rfl⟩ := List.getElem_of_mem hx
    have := hcon i (hlen ▸ hi)
    rw [List.getD_eq_getElem _ _ hi] at this
    omega
  rw [smul_eq_mul, hlen] at h1
  norm_num at h1 hs
  omega

theorem contribution_ge_one (map : List Char) (prior : List Nat) (obs : observation)
    (c d : Nat) (hm : map.length = WIDTH * HEIGHT)
    (hd : d < NUM_DIRECTIONS) (hfree : is_wall (from_index c) map = some false)
    (hmove : is_dir_free (from_index c) map d = some true)
    (hbig : 26843520 ≤ prior.getD c 0) :
    point_index (move_point (from_index c) d) < WIDTH * HEIGHT ∧
      1 ≤ contribution map prior obs (point_index (move_point (from_index c) d)) d c := by
  rw [is_dir_free_eq map _ d hm] at hmove
  injection hmove with hmove
  have hmove2 := hmove
  unfold free_at at hmove2
  simp only [Bool.and_eq_true, Bool.not_eq_true'] at hmove2
  obtain ⟨hv, hwn⟩ := hmove2
  have hn := point_index_lt _ hv
  refine ⟨hn, ?_⟩
  have hfrom := from_index_point_index _ hv
  unfold contribution
  rw [hfrom, is_wall_eq map _ hm hv, hwn, if_pos ⟨rfl, rfl, hfree⟩,
    legal_move_count_eq map c hm]
  have hk : (free_dirs map (from_index c)).length ≤ 4 := free_dirs_length_le _ _
  have hL : 2 ^ 12 ≤ cell_likelihood map obs (point_index (move_point (from_index c) d)) d := by
    rw [cell_likelihood_eq map obs _ d hm]
    exact observation_probability_ge _ _
  rw [Nat.le_div_iff_mul_le (Nat.mul_pos (List.length_pos_of_mem
    ((mem_free_dirs map _ d).mpr ⟨hd, hmove⟩)) (by norm_num))]
  have h1 : (free_dirs map (from_index c)).length * 2 ^ 32 ≤ 4 * 2 ^ 32 :=
    Nat.mul_le_mul_right _ hk
  have h2 : 2 ^ 12 * 26843520 ≤
      cell_likelihood map obs (point_index (move_point (from_index c) d)) d *
        prior.getD c 0 := Nat.mul_le_mul hL hbig
  norm_num at h1 h2 ⊢
  omega

theorem accumulator_sum_ne_zero (map : List Char) (prior : List Nat) (obs : observation)
    (hm : map.length = WIDTH * HEIGHT) (hb : border_walled map)
    (hlive : ∀ c, c < WIDTH * HEIGHT → is_wall (from_index c) map = some false →
      ∃ d, d < NUM_DIRECTIONS ∧ is_dir_free (from_index c) map d = some true)
    (hp : prior.length = WIDTH * HEIGHT) (hr : ∀ x, x ∈ prior → x < 2 ^ 32)
    (hw : ∀ c, c < WIDTH * HEIGHT → is_wall (from_index c) map = some true →
      prior.getD c 0 = 0)
    (hs : 2 ^ 32 - 2 ^ 12 ≤ prior.sum) : (accumulator map prior obs).sum ≠ 0 := by
  obtain ⟨c, hc, hbig⟩ := exists_large_entry prior hp hs
  have hfree : is_wall (from_index c) map = some false := by
    have h := is_wall_eq map _ hm (is_invalid_from_index c hc)
    cases hwc : wall_at map (from_index c)
    · rw [hwc] at h; exact h
    · rw [hwc] at h
      have := hw c hc h
      omega
  obtain ⟨d, hd, hmove⟩ := hlive c hc hfree
  obtain ⟨hn, hone⟩ := contribution_ge_one map prior obs c d hm hd hfree hmove hbig
  have hacc := accumulator_getD map prior obs _ hm hb hr hn
  have hsum : 1 ≤ ∑ h in Finset.range NUM_DIRECTIONS, ∑ c1 in Finset.range (WIDTH * HEIGHT),
      contribution map prior obs (point_index (move_point (from_index c) d)) h c1 := by
    have h1 : contribution map prior obs (point_index (move_point (from_index c) d)) d c ≤
        ∑ c1 in Finset.range (WIDTH * HEIGHT),
          contribution map prior obs (point_index (move_point (from_index c) d)) d c1 :=
      Finset.single_le_sum (f := fun c1 =>
        contribution map prior obs (point_index (move_point (from_index c) d)) d c1)
        (fun _ _ => Nat.zero_le _) (Finset.mem_range.mpr hc)
    have h2 : (∑ c1 in Finset.range (WIDTH * HEIGHT),
          contribution map prior obs (point_index (move_point (from_index c) d)) d c1) ≤
        ∑ h in Finset.range NUM_DIRECTIONS, ∑ c1 in Finset.range (WIDTH * HEIGHT),
          contribution map prior obs (point_index (move_point (from_index c) d)) h c1 :=
      Finset.single_le_sum (f := fun h => ∑ c1 in Finset.range (WIDTH * HEIGHT),
          contribution map prior obs (point_index (move_point (from_index c) d)) h c1)
        (fun _ _ => Nat.zero_le _) (Finset.mem_range.mpr hd)
    omega
  have hlt : point_index (move_point (from_index c) d) < (accumulator map prior obs).length := by
    rw [accumulator_length]; exact hn
  have hmem : (accumulator map prior obs).getD (point_index (move_point (from_index c) d)) 0 ≤
      (accumulator map prior obs).sum := by
    rw [List.getD_eq_getElem _ _ hlt]
    exact List.le_sum_of_mem (List.getElem_mem _)
  rw [hacc] at hmem
  omega

theorem normalized_entry_zero (s : Nat) (hs : s ≠ 0) : normalized_entry s 0 = 0 := by
  unfold normalized_entry
  rw [if_neg (fun h => hs h.symm)]
  simp

/-- C3: on a 20x8 maze whose border cells are walls and whose free cells all have a legal
move, for a prior of 160 values of 32 bits that is 0 on walls and sums to at least
`2^32 - 2^12`, and any observation: `update_locator` returns a posterior; the divisor
`sum_prob` of the renormalisation is nonzero; the posterior is 0 on every wall cell and its
entries sum to a value between `2^32 - 2^12` and `2^32`. -/
theorem update_locator_preserves_belief (map : List Char) (prior : List Nat)
    (obs : observation)
    (hm : map.length = WIDTH * HEIGHT) (hb : border_walled map)
    (hlive : ∀ c, c < WIDTH * HEIGHT → is_wall (from_index c) map = some false →
      ∃ d, d < NUM_DIRECTIONS ∧ is_dir_free (from_index c) map d = some true)
    (hp : prior.length = WIDTH * HEIGHT) (hr : ∀ x, x ∈ prior → x < 2 ^ 32)
    (hw : ∀ c, c < WIDTH * HEIGHT → is_wall (from_index c) map = some true →
      prior.getD c 0 = 0)
    (hs : 2 ^ 32 - 2 ^ 12 ≤ prior.sum) :
    ∃ acc post, update_accumulate ⟨prior⟩ map obs = some acc ∧
      acc.foldl (fun s a => (s + a) % 2 ^ 64) 0 ≠ 0 ∧
      update_locator ⟨prior⟩ map obs = some ⟨post⟩ ∧
      post.length = WIDTH * HEIGHT ∧
      (∀ n, n < WIDTH * HEIGHT → is_wall (from_index n) map = some true →
        post.getD n 0 = 0) ∧
      2 ^ 32 - 2 ^ 12 ≤ post.sum ∧ post.sum ≤ 2 ^ 32 := by
  have hne := accumulator_sum_ne_zero map prior obs hm hb hlive hp hr hw hs
  have hlt := accumulator_entry_lt map prior obs hm hb hr
  have hlen := accumulator_length map prior obs
  have hlen' : (accumulator map prior obs).length ≤ 2 ^ 32 := by
    rw [hlen]; norm_num
  have hnorm := normalize_probabilities_eq _ hlt hlen' hne
  refine ⟨accumulator map prior obs,
    (accumulator map prior obs).map (normalized_entry (accumulator map prior obs).sum),
    update_accumulate_eq map prior obs hm hb hp, ?_, ?_, ?_, ?_, ?_, ?_⟩
  · rw [sum_prob_eq _ (sum_lt_of_entries _ hlt hlen')]
    exact hne
  · rw [update_locator_eq map prior obs hm hb hp, hnorm]
    rfl
  · rw [List.length_map, hlen]
  · intro n hn hwall
    have h0 := accumulator_wall map prior obs n hm hb hr hn hwall
    have hn' : n < (accumulator map prior obs).length := by rw [hlen]; exact hn
    rw [List.getD_eq_getElem _ _ (by rw [List.length_map]; exact hn'), List.getElem_map]
    rw [List.getD_eq_getElem _ _ hn'] at h0
    rw [h0]
    exact normalized_entry_zero _ hne
  · have h := (normalized_total _ hne).1
    rw [hlen] at h
    norm_num at h ⊢
    omega
  · exact (normalized_total _ hne).2

set_option maxRecDepth 100000 in
theorem reference_map_length : reference_map.length = WIDTH * HEIGHT := by decide

set_option maxRecDepth 100000 in
theorem reference_map_possibilities : move_possibilities ⟨1, 3⟩ reference_map = some [0, 1, 3] := by
  decide

/-- Witness for C7: the cell (1, 3) of the reference maze has the three legal headings EAST,
NORTH, SOUTH. -/
theorem move_randomly_uniform_witness :
    reference_map.length = WIDTH * HEIGHT ∧
      move_possibilities ⟨1, 3⟩ reference_map = some [0, 1, 3] ∧
      ∀ h, h ∈ [0, 1, 3] → ((List.range 3).filter
        (fun v => [0, 1, 3].getD v NUM_DIRECTIONS = h)).length = 1 :=
  ⟨reference_map_length, reference_map_possibilities,
    ((move_randomly_uniform reference_map ⟨1, 3⟩ [0, 1, 3] reference_map_length
      reference_map_possibilities).2.2.2.2 rfl).2.2⟩

/-- Witness for C8: the cell (1, 1) of the reference maze with the generator seeded as in
`main`. -/
theorem move_randomly_sentinel_iff_witness :
    reference_map.length = WIDTH * HEIGHT ∧ is_invalid ⟨1, 1⟩ = false ∧
      ∀ fuel, ∃ r, move_randomly fuel ⟨1, 1⟩ reference_map (bb_rand_init 0xDEADBEEF) = some r :=
  ⟨reference_map_length, by decide,
    (move_randomly_sentinel_iff reference_map ⟨1, 1⟩ (bb_rand_init 0xDEADBEEF)
      reference_map_length (by decide)).2.1 [0, 3] (by decide) (by decide)⟩

/-! ## Initial belief -/

theorem foldl_set_range (v : Nat) (n : Nat) (l : List Nat) (hl : l.length = n) (k : Nat)
    (hk : k ≤ n) :
    (List.range k).foldl (fun (probability : List Nat) a => probability.set a v) l =
      List.replicate k v ++ l.drop k := by
  induction k with
  | zero => simp
  | succ k ih =>
    rw [List.range_succ, List.foldl_append, ih (by omega)]
    simp only [List.foldl_cons, List.foldl_nil]
    have hk' : k < l.length := by omega
    rw [List.set_append_right _ _ (by simp)]
    simp only [List.length_replicate, Nat.sub_self]
    rw [List.drop_eq_getElem_cons hk', List.set_cons_zero, List.replicate_succ']
    simp

theorem initial_locator_eq (map : List Char) (nspaces : Nat)
    (hc : count_spaces map = some nspaces) (hn : nspaces ≠ 0) :
    initial_locator map =
      some ⟨List.replicate (WIDTH * HEIGHT) ((2 ^ 32 / nspaces) % 2 ^ 32)⟩ := by
  unfold initial_locator
  rw [hc]
  dsimp only
  rw [if_neg hn, foldl_set_range _ (WIDTH * HEIGHT) _ (by simp) _ (le_refl _)]
  simp

set_option maxRecDepth 100000 in
theorem reference_map_spaces : count_spaces reference_map = some 85 := by decide

theorem foldl_count (p : Nat → Bool) (l : List Nat) (init : Nat) :
    l.foldl (fun nspaces a => if p a then nspaces else nspaces + 1) init =
      init + (l.filter (fun a => !p a)).length := by
  induction l generalizing init with
  | nil => simp
  | cons a l ih =>
    rw [List.foldl_cons, ih, List.filter_cons]
    cases p a
    · simp; omega
    · simp

theorem count_spaces_eq (map : List Char) (hm : map.length = WIDTH * HEIGHT) :
    count_spaces map = some ((List.range (WIDTH * HEIGHT)).filter
      (fun a => is_wall (from_index a) map == some false)).length := by
  unfold count_spaces
  rw [foldlM_eq_some_foldl _
    (fun nspaces a => if wall_at map (from_index a) then nspaces else nspaces + 1)]
  · rw [foldl_count, Nat.zero_add]
    congr 2
    apply List.filter_congr
    intro a ha
    rw [is_wall_eq map _ hm (is_invalid_from_index a (List.mem_range.mp ha))]
    cases wall_at map (from_index a) <;> rfl
  · intro b a ha
    rw [is_wall_eq map _ hm (is_invalid_from_index a (List.mem_range.mp ha))]
    cases wall_at map (from_index a) <;> rfl

/-- C5 (as stated, refuted): on the reference maze, which has 85 free cells, `main` stores
`floor(2^32 / 85) = 50529027` in all 160 entries of the initial belief; the cell of index 0 is
a wall and holds 50529027, not 0. -/
theorem initial_locator_reference :
    initial_locator reference_map = some ⟨List.replicate (WIDTH * HEIGHT) 50529027⟩ ∧
      is_wall (from_index 0) reference_map = some true ∧
      (List.replicate (WIDTH * HEIGHT) 50529027).getD 0 0 ≠ 0 := by
  refine ⟨?_, by decide, by decide⟩
  rw [initial_locator_eq reference_map 85 reference_map_spaces (by decide)]
  rfl

/-- C5 (amended): for every 20x8 maze with at least two free cells, the initial belief built by
`main` holds `floor(2^32 / number of free cells)` in each of its 160 entries, wall cells
included. -/
theorem initial_locator_uniform (map : List Char) (hm : map.length = WIDTH * HEIGHT)
    (h2 : 2 ≤ ((List.range (WIDTH * HEIGHT)).filter
      (fun a => is_wall (from_index a) map == some false)).length) :
    ∃ loc, initial_locator map = some loc ∧ loc.probability.length = WIDTH * HEIGHT ∧
      ∀ a, a < WIDTH * HEIGHT → loc.probability.getD a 0 =
        2 ^ 32 / ((List.range (WIDTH * HEIGHT)).filter
          (fun a => is_wall (from_index a) map == some false)).length := by
  generalize hn : ((List.range (WIDTH * HEIGHT)).filter
      (fun a => is_wall (from_index a) map == some false)).length = nspaces at h2
  have hc := count_spaces_eq map hm
  rw [hn] at hc
  refine ⟨_, initial_locator_eq map nspaces hc (by omega), List.length_replicate _ _, ?_⟩
  intro a ha
  have hlt : 2 ^ 32 / nspaces < 2 ^ 32 := Nat.div_lt_self (by norm_num) h2
  rw [List.getD_eq_getElem _ _ (by rw [List.length_replicate]; exact ha),
    List.getElem_replicate, Nat.mod_eq_of_lt hlt]

set_option maxRecDepth 100000 in
theorem reference_map_free_count : ((List.range (WIDTH * HEIGHT)).filter
    (fun a => is_wall (from_index a) reference_map == some false)).length = 85 := by
  decide

/-- Witness for C5 (amended): the reference maze, with 85 free cells. -/
theorem initial_locator_uniform_witness :
    reference_map.length = WIDTH * HEIGHT ∧
      2 ≤ ((List.range (WIDTH * HEIGHT)).filter
        (fun a => is_wall (from_index a) reference_map == some false)).length ∧
      ∃ loc, initial_locator reference_map = some loc ∧
        loc.probability.length = WIDTH * HEIGHT :=
  ⟨reference_map_length, by rw [reference_map_free_count]; decide,
    (initial_locator_uniform reference_map reference_map_length
      (by rw [reference_map_free_count]; decide)).imp (fun _ h => ⟨h.1, h.2.1⟩)⟩

/-! ## The reference maze satisfies the hypotheses -/

set_option maxRecDepth 100000 in
theorem reference_map_border : border_walled reference_map := by decide

set_option maxRecDepth 100000 in
theorem reference_map_live : ∀ c, c < WIDTH * HEIGHT →
    is_wall (from_index c) reference_map = some false →
    ∃ d, d < NUM_DIRECTIONS ∧ is_dir_free (from_index c) reference_map d = some true := by
  decide

set_option maxRecDepth 100000 in
theorem corner_prior_walls : ∀ c, c < WIDTH * HEIGHT →
    is_wall (from_index c) reference_map = some true → corner_prior.getD c 0 = 0 := by
  decide

set_option maxRecDepth 100000 in
theorem corner_prior_range : ∀ x, x ∈ corner_prior → x < 2 ^ 32 := by decide

set_option maxRecDepth 100000 in
theorem corner_prior_sum : 2 ^ 32 - 2 ^ 12 ≤ corner_prior.sum := by decide

set_option maxRecDepth 100000 in
theorem corner_prior_length : corner_prior.length = WIDTH * HEIGHT := by decide

/-- Witness for C2: the reference maze, the prior with all mass on the cell (1, 1), and an
observation heading EAST with all four sensors free. -/
theorem update_locator_accumulator_witness :
    reference_map.length = WIDTH * HEIGHT ∧ border_walled reference_map ∧
      corner_prior.length = WIDTH * HEIGHT ∧ (∀ x, x ∈ corner_prior → x < 2 ^ 32) ∧
      ∃ acc, update_accumulate ⟨corner_prior⟩ reference_map ⟨fun _ => true, EAST⟩ = some acc ∧
        ∃ post, normalize_probabilities acc = some post ∧
          update_locator ⟨corner_prior⟩ reference_map ⟨fun _ => true, EAST⟩ = some ⟨post⟩ :=
  ⟨reference_map_length, reference_map_border, corner_prior_length, corner_prior_range,
    (update_locator_accumulator reference_map corner_prior ⟨fun _ => true, EAST⟩
      reference_map_length reference_map_border corner_prior_length corner_prior_range).imp
      (fun _ h => ⟨h.1, h.2.2.2.2.2.2⟩)⟩

/-- Witness for C3: the reference maze and the prior with all mass on the cell (1, 1). -/
theorem update_locator_preserves_belief_witness :
    reference_map.length = WIDTH * HEIGHT ∧ border_walled reference_map ∧
      corner_prior.length = WIDTH * HEIGHT ∧ 2 ^ 32 - 2 ^ 12 ≤ corner_prior.sum ∧
      ∃ post, update_locator ⟨corner_prior⟩ reference_map ⟨fun _ => true, EAST⟩ = some ⟨post⟩ ∧
        2 ^ 32 - 2 ^ 12 ≤ post.sum ∧ post.sum ≤ 2 ^ 32 :=
  ⟨reference_map_length, reference_map_border, corner_prior_length, corner_prior_sum,
    (update_locator_preserves_belief reference_map corner_prior ⟨fun _ => true, EAST⟩
      reference_map_length reference_map_border reference_map_live corner_prior_length
      corner_prior_range corner_prior_walls corner_prior_sum).elim
      (fun _ h => h.imp (fun _ h2 => ⟨h2.2.2.1, h2.2.2.2.2.2⟩))⟩

/-! ## A zero divisor -/

theorem accumulator_zero_prior (map : List Char) (prior : List Nat) (obs : observation)
    (hm : map.length = WIDTH * HEIGHT) (hb : border_walled map) (h : prior.sum = 0) :
    accumulator map prior obs = List.replicate (WIDTH * HEIGHT) 0 := by
  have hall : ∀ x, x ∈ prior → x = 0 := fun x hx => by
    have := List.le_sum_of_mem hx
    omega
  have hr : ∀ x, x ∈ prior → x < 2 ^ 32 := fun x hx => by rw [hall x hx]; norm_num
  have hget : ∀ c, prior.getD c 0 = 0 := by
    intro c
    by_cases hc : c < prior.length
    · rw [List.getD_eq_getElem _ _ hc]
      exact hall _ (List.getElem_mem _)
    · exact List.getD_eq_default _ _ (by omega)
  apply List.ext_getElem
  · rw [accumulator_length, List.length_replicate]
  · intro n h1 _
    have hn : n < WIDTH * HEIGHT := by
      rw [accumulator_length] at h1
      exact h1
    have hv := accumulator_getD map prior obs n hm hb hr hn
    rw [List.getD_eq_getElem _ _ h1] at hv
    rw [hv, List.getElem_replicate]
    have hz : (∑ h in Finset.range NUM_DIRECTIONS,
        ∑ c in Finset.range (WIDTH * HEIGHT), contribution map prior obs n h c) = 0 := by
      apply Finset.sum_eq_zero
      intro h _
      apply Finset.sum_eq_zero
      intro c _
      unfold contribution
      rw [hget c]
      simp
    rw [hz]
    exact Nat.min_zero _

/-- C6 (as stated, refuted): the array `[0, 0, 0]` has sum 0, and `normalize_probabilities`
returns the ordinary array `[2^32 - 1, 2^32 - 1, 2^32 - 1]` for it, signalling nothing. -/
theorem normalize_zero_not_signalled :
    ([0, 0, 0] : List Nat).sum = 0 ∧
      normalize_probabilities [0, 0, 0] = some [4294967295, 4294967295, 4294967295] ∧
      normalize_probabilities [0, 0, 0] ≠ none := by
  decide

/-- C6 (amended): for an array whose entries sum to 0, `normalize_probabilities` divides
nothing: every entry equals the sum and is replaced by `2^32 - 1`, and the array is returned
as an ordinary result; accordingly `update_locator`, on a 20x8 maze with walled border and a
prior of 160 zeros, returns the belief whose 160 entries are all `2^32 - 1`. -/
theorem normalize_probabilities_zero_sum (arr : List Nat) (h : arr.sum = 0) :
    normalize_probabilities arr = some (List.replicate arr.length (2 ^ 32 - 1)) ∧
      ∀ (map : List Char) (obs : observation), map.length = WIDTH * HEIGHT →
        border_walled map → arr.length = WIDTH * HEIGHT →
        update_locator ⟨arr⟩ map obs = some ⟨List.replicate (WIDTH * HEIGHT) (2 ^ 32 - 1)⟩ := by
  refine ⟨normalize_zero arr h, ?_⟩
  intro map obs hm hb hp
  rw [update_locator_eq map arr obs hm hb hp, accumulator_zero_prior map arr obs hm hb h,
    normalize_zero _ (zeros_sum _), List.length_replicate]
  rfl

/-- Witness for C6 (amended): the array of 160 zeros on the reference maze. -/
theorem normalize_probabilities_zero_sum_witness :
    (List.replicate (WIDTH * HEIGHT) 0).sum = 0 ∧
      update_locator ⟨List.replicate (WIDTH * HEIGHT) 0⟩ reference_map ⟨fun _ => true, EAST⟩ =
        some ⟨List.replicate (WIDTH * HEIGHT) (2 ^ 32 - 1)⟩ :=
  ⟨zeros_sum _, (normalize_probabilities_zero_sum (List.replicate (WIDTH * HEIGHT) 0)
    (zeros_sum _)).2 reference_map ⟨fun _ => true, EAST⟩ reference_map_length reference_map_border
    (List.length_replicate _ _)⟩

/-! ## Renormalisation, entry by entry -/

theorem normalize_probabilities_eq_of_sum (arr : List Nat) (hr : ∀ a, a ∈ arr → a < 2 ^ 32)
    (hsum : arr.sum < 2 ^ 64) (hs : arr.sum ≠ 0) :
    normalize_probabilities arr = some (arr.map (normalized_entry arr.sum)) ∧
      ∀ a, a ∈ arr → a ≠ arr.sum → a <<< 32 < 2 ^ 64 ∧ a * 2 ^ 32 / arr.sum < 2 ^ 32 := by
  have hq : ∀ a, a ∈ arr → a ≠ arr.sum → a <<< 32 < 2 ^ 64 ∧ a * 2 ^ 32 / arr.sum < 2 ^ 32 := by
    intro a ha h
    have hle : a ≤ arr.sum := List.le_sum_of_mem ha
    have hlt : a < arr.sum := lt_of_le_of_ne hle h
    have ha32 := hr a ha
    constructor
    · rw [Nat.shiftLeft_eq]
      have : a * 2 ^ 32 < 2 ^ 32 * 2 ^ 32 := Nat.mul_lt_mul_of_pos_right ha32 (by norm_num)
      norm_num at this ⊢
      exact this
    · apply Nat.div_lt_of_lt_mul
      exact Nat.mul_lt_mul_of_pos_right hlt (by norm_num)
  refine ⟨?_, hq⟩
  unfold normalize_probabilities
  dsimp only
  rw [sum_prob_eq arr hsum]
  apply mapM_eq_some_map
  intro a ha
  unfold normalized_entry
  by_cases h : a = arr.sum
  · rw [if_pos h, if_pos h]; rfl
  · rw [if_neg h, if_neg h, if_neg hs]
    obtain ⟨h1, h2⟩ := hq a ha h
    rw [Nat.mod_eq_of_lt h1, Nat.shiftLeft_eq, Nat.mod_eq_of_lt h2]

/-- C11: for an array of 32-bit entries whose sum `S` is nonzero (and is held by the 64-bit
accumulator `sum_prob`), `normalize_probabilities` returns the array in which each entry `a` is
replaced by `2^32 - 1` when `a = S` and by `floor(a * 2^32 / S)` otherwise; in the second case
neither the shift nor the cast to 32 bits loses anything (`a << 32 < 2^64` and the quotient is
below `2^32`), and every output is below `2^32`. -/
theorem normalize_probabilities_entries (arr : List Nat) (hr : ∀ a, a ∈ arr → a < 2 ^ 32)
    (hsum : arr.sum < 2 ^ 64) (hs : arr.sum ≠ 0) :
    arr.foldl (fun s a => (s + a) % 2 ^ 64) 0 = arr.sum ∧
      normalize_probabilities arr =
        some (arr.map (fun a => if a = arr.sum then 2 ^ 32 - 1 else a * 2 ^ 32 / arr.sum)) ∧
      (∀ a, a ∈ arr → a ≠ arr.sum → a <<< 32 < 2 ^ 64 ∧ a * 2 ^ 32 / arr.sum < 2 ^ 32) ∧
      ∀ out, normalize_probabilities arr = some out → ∀ v, v ∈ out → v < 2 ^ 32 := by
  obtain ⟨heq, hq⟩ := normalize_probabilities_eq_of_sum arr hr hsum hs
  refine ⟨sum_prob_eq arr hsum, heq, hq, ?_⟩
  intro out hout v hv
  rw [heq] at hout
  injection hout with hout
  subst hout
  obtain ⟨a, ha, rfl⟩ := List.mem_map.mp hv
  unfold normalized_entry
  by_cases h : a = arr.sum
  · rw [if_pos h]; norm_num
  · rw [if_neg h]; exact (hq a ha h).2

/-- Witness for C11: the array `[3, 0, 1, 4]`, of sum 8. -/
theorem normalize_probabilities_entries_witness :
    (∀ a, a ∈ [3, 0, 1, 4] → a < 2 ^ 32) ∧ ([3, 0, 1, 4] : List Nat).sum < 2 ^ 64 ∧
      ([3, 0, 1, 4] : List Nat).sum ≠ 0 ∧
      normalize_probabilities [3, 0, 1, 4] =
        some ([3, 0, 1, 4].map (fun a =>
          if a = ([3, 0, 1, 4] : List Nat).sum then 2 ^ 32 - 1
          else a * 2 ^ 32 / ([3, 0, 1, 4] : List Nat).sum)) :=
  ⟨by decide, by decide, by decide,
    (normalize_probabilities_entries [3, 0, 1, 4] (by decide) (by decide) (by decide)).2.1⟩

/-! ## The generator -/

theorem rotate_eq_rotl (x j k : Nat) (hjk : j + k = 32) (hx : x < 2 ^ 32) :
    ((x <<< k) % 2 ^ 32 ||| x >>> j) = rotl x k ∧ rotl x k < 2 ^ 32 := by
  have hpow : (2 : Nat) ^ 32 = 2 ^ j * 2 ^ k := by rw [← pow_add, hjk]
  have hj : 32 - k = j := by omega
  have h2 : x >>> j < 2 ^ k := by
    rw [Nat.shiftRight_eq_div_pow]
    apply Nat.div_lt_of_lt_mul
    rw [← hpow]; exact hx
  have h1 : (x <<< k) % 2 ^ 32 = 2 ^ k * (x % 2 ^ j) := by
    rw [Nat.shiftLeft_eq, hpow, Nat.mul_mod_mul_right, Nat.mul_comm]
  have h3 : x % 2 ^ j < 2 ^ j := Nat.mod_lt _ (Nat.pos_pow_of_pos _ (by norm_num))
  unfold rotl
  rw [hj, h1, ← Nat.mul_add_lt_is_or h2, ← Nat.shiftRight_eq_div_pow]
  constructor
  · congr 1
    rw [hpow, Nat.mul_mod_mul_right, Nat.mul_comm]
  · have h4 : 2 ^ k * (x % 2 ^ j) + 2 ^ k ≤ 2 ^ k * 2 ^ j := by
      have : x % 2 ^ j + 1 ≤ 2 ^ j := h3
      calc 2 ^ k * (x % 2 ^ j) + 2 ^ k = 2 ^ k * (x % 2 ^ j + 1) := by ring
        _ ≤ 2 ^ k * 2 ^ j := Nat.mul_le_mul_left _ this
    have h5 : 2 ^ k * 2 ^ j = 2 ^ 32 := by rw [hpow, Nat.mul_comm]
    have h6 : x * 2 ^ k % 2 ^ 32 = 2 ^ k * (x % 2 ^ j) := by
      rw [hpow, Nat.mul_mod_mul_right, Nat.mul_comm]
    rw [h6]
    calc 2 ^ k * (x % 2 ^ j) + x >>> j < 2 ^ k * (x % 2 ^ j) + 2 ^ k :=
          Nat.add_lt_add_left h2 _
      _ ≤ 2 ^ k * 2 ^ j := h4
      _ = 2 ^ 32 := h5

theorem next_rand_eq_spec (x : bb_rand_ctx) (hx : rand_ctx_valid x) :
    next_rand x = next_rand_spec x := by
  obtain ⟨_, hb, hc, _⟩ := hx
  obtain ⟨rb, rb_lt⟩ := rotate_eq_rotl x.b 5 27 rfl hb
  obtain ⟨rc, rc_lt⟩ := rotate_eq_rotl x.c 15 17 rfl hc
  have hxor : x.b ^^^ rotl x.c 17 < 2 ^ 32 := Nat.xor_lt_two_pow hb rc_lt
  unfold next_rand next_rand_spec
  simp only [rb, rc, Nat.mod_eq_of_lt rb_lt, Nat.mod_eq_of_lt hxor]

theorem next_rand_valid (x : bb_rand_ctx) : rand_ctx_valid (next_rand x).2 := by
  unfold next_rand rand_ctx_valid
  dsimp only
  refine ⟨Nat.mod_lt _ (by norm_num), Nat.mod_lt _ (by norm_num), Nat.mod_lt _ (by norm_num),
    Nat.mod_lt _ (by norm_num)⟩

theorem bb_rand_init_fold (l : List Nat) (x : bb_rand_ctx) :
    l.foldl (fun x _ => (next_rand x).2) x = rand_state l.length x := by
  induction l generalizing x with
  | nil => rfl
  | cons a l ih => rw [List.foldl_cons, ih, List.length_cons, rand_state_succ]

theorem iterate_spec_eq (k : Nat) (x : bb_rand_ctx) (hx : rand_ctx_valid x) :
    (fun s => (next_rand_spec s).2)^[k] x = rand_state k x ∧ rand_ctx_valid (rand_state k x) := by
  induction k with
  | zero => exact ⟨rfl, hx⟩
  | succ k ih =>
    obtain ⟨h1, h2⟩ := ih
    rw [Function.iterate_succ_apply', h1, rand_state_succ_outer, ← next_rand_eq_spec _ h2]
    exact ⟨rfl, next_rand_valid _⟩

/-- C12: for a 32-bit seed `s`, `bb_rand_init` leaves the state reached from
`(0xF1EA5EED, s, s, s)` by 20 steps of the generator, the step being the one the
specification words (`e = a - rotl(b, 27)`, `a' = b XOR rotl(c, 17)`, `b' = c + d`,
`c' = d + e`, `d' = e + a'` modulo `2^32`, output `d'`), with which `next_rand` agrees on every
state of 32-bit words; so the draws after seeding depend on the seed alone. -/
theorem bb_rand_init_spec (s : Nat) (hs : s < 2 ^ 32) :
    bb_rand_init s = (fun x => (next_rand_spec x).2)^[20] ⟨0xF1EA5EED, s, s, s⟩ ∧
      (∀ x, rand_ctx_valid x → next_rand x = next_rand_spec x ∧
        rand_ctx_valid (next_rand x).2) ∧
      rand_ctx_valid (bb_rand_init s) ∧
      ∀ s1, s1 = s → ∀ k, rand_draw k (bb_rand_init s1) = rand_draw k (bb_rand_init s) := by
  have hv : rand_ctx_valid ⟨0xF1EA5EED, s, s, s⟩ := ⟨by norm_num, hs, hs, hs⟩
  have hinit : bb_rand_init s = rand_state 20 ⟨0xF1EA5EED, s, s, s⟩ := by
    unfold bb_rand_init
    rw [bb_rand_init_fold, List.length_range]
  obtain ⟨h1, h2⟩ := iterate_spec_eq 20 ⟨0xF1EA5EED, s, s, s⟩ hv
  refine ⟨by rw [hinit, h1], fun x hx => ⟨next_rand_eq_spec x hx, next_rand_valid x⟩, ?_, ?_⟩
  · rw [hinit]; exact h2
  · intro s1 h k
    rw [h]

/-- Witness for C12: the seed `0xDEADBEEF` of `main`. -/
theorem bb_rand_init_spec_witness :
    0xDEADBEEF < 2 ^ 32 ∧
      bb_rand_init 0xDEADBEEF =
        (fun x => (next_rand_spec x).2)^[20] ⟨0xF1EA5EED, 0xDEADBEEF, 0xDEADBEEF, 0xDEADBEEF⟩ :=
  ⟨by decide, (bb_rand_init_spec 0xDEADBEEF (by decide)).1⟩

/-! ## The true observation of a cell -/

theorem obs_at_sensor (map : List Char) (pt : point) (obs_dir : direction) (d : Nat)
    (hd : d < NUM_DIRECTIONS) : (obs_at map pt obs_dir).sensor d = free_at map pt d := by
  unfold obs_at
  simp only [List.range_succ, List.range_zero, List.nil_append, List.cons_append,
    List.foldl_cons, List.foldl_nil]
  have hd' : d < 4 := hd
  interval_cases d <;> simp [Function.update]

theorem is_dir_free_invalid (pt : point) (m : List Char) (d : direction)
    (h : is_invalid (move_point pt d) = true) : is_dir_free pt m d = some false := by
  unfold is_dir_free
  dsimp only
  rw [if_pos h]

/-- C14: for every cell of a 20x8 maze and every heading argument, `compute_observation`
returns an observation whose heading is the argument and whose sensor `d`, for each of the four
directions, is true exactly when the neighbour in direction `d` is inside the grid and not a
wall; for a neighbour outside the grid the sensor is false whatever the map is, the empty map
included: the map is not read there. -/
theorem compute_observation_sensors (map : List Char) (pt : point) (obs_dir : direction)
    (hm : map.length = WIDTH * HEIGHT) (_hpt : is_invalid pt = false) :
    ∃ o, compute_observation pt map obs_dir = some o ∧ o.direction = obs_dir ∧
      (∀ d, d < NUM_DIRECTIONS →
        (o.sensor d = true ↔
          is_invalid (move_point pt d) = false ∧ is_wall (move_point pt d) map = some false)) ∧
      ∀ d, d < NUM_DIRECTIONS → is_invalid (move_point pt d) = true →
        o.sensor d = false ∧ ∀ m : List Char, is_dir_free pt m d = some false := by
  refine ⟨obs_at map pt obs_dir, compute_observation_eq map pt obs_dir hm, rfl, ?_, ?_⟩
  · intro d hd
    rw [obs_at_sensor map pt obs_dir d hd]
    unfold free_at
    constructor
    · intro h
      simp only [Bool.and_eq_true, Bool.not_eq_true'] at h
      exact ⟨h.1, by rw [is_wall_eq map _ hm h.1, h.2]⟩
    · rintro ⟨h1, h2⟩
      rw [is_wall_eq map _ hm h1] at h2
      injection h2 with h2
      simp [h1, h2]
  · intro d hd hinv
    refine ⟨?_, fun m => is_dir_free_invalid pt m d hinv⟩
    rw [obs_at_sensor map pt obs_dir d hd]
    simp [free_at, hinv]

/-- Witness for C14: the corner cell (0, 0) of the reference maze, heading NORTH. -/
theorem compute_observation_sensors_witness :
    reference_map.length = WIDTH * HEIGHT ∧ is_invalid ⟨0, 0⟩ = false ∧
      ∃ o, compute_observation ⟨0, 0⟩ reference_map NORTH = some o ∧ o.direction = NORTH :=
  ⟨reference_map_length, by decide,
    (compute_observation_sensors reference_map ⟨0, 0⟩ NORTH reference_map_length
      (by decide)).imp (fun _ h => ⟨h.1, h.2.1⟩)⟩

/-! ## Counting the draws of the noise model -/

theorem perturb_direction_eq (h r : Nat) :
    perturb_direction h r =
      (if r < 2 ^ 24 then h ^^^ 2
       else if r < 2 ^ 28 then (if r % 2 = 0 then h ^^^ 1 else h ^^^ 3)
       else h) := by
  unfold perturb_direction
  have h3 : h ^^^ 1 ^^^ 2 = h ^^^ 3 := by
    rw [Nat.xor_assoc]; rfl
  simp only [Nat.and_one_is_mod, h3]
  by_cases h1 : r < 2 ^ 24
  · have h2 : r < 0x10000000 := by omega
    have h1' : r < 0x01000000 := by omega
    simp [h1, h2, h1']
  · by_cases h2 : r < 2 ^ 28
    · have h2' : r < 0x10000000 := by omega
      have h1' : ¬ r < 0x01000000 := by omega
      have hpar : r % 2 = 0 ∨ r % 2 = 1 := by omega
      rcases hpar with hp | hp <;> simp [h1, h2, h2', h1', hp]
    · have h2' : ¬ r < 0x10000000 := by omega
      have h1' : ¬ r < 0x01000000 := by omega
      simp [h1, h2, h2', h1']

theorem perturb_direction_cases (h r : Nat) (hv : h < NUM_DIRECTIONS) :
    (perturb_direction h r = h ↔ 2 ^ 28 ≤ r) ∧
      (perturb_direction h r = h ^^^ 2 ↔ r < 2 ^ 24) ∧
      (perturb_direction h r = h ^^^ 1 ↔ 2 ^ 24 ≤ r ∧ r < 2 ^ 28 ∧ r % 2 = 0) ∧
      (perturb_direction h r = h ^^^ 3 ↔ 2 ^ 24 ≤ r ∧ r < 2 ^ 28 ∧ r % 2 = 1) := by
  rw [perturb_direction_eq]
  have hv' : h < 4 := hv
  have d1 : h ^^^ 1 ≠ h := by interval_cases h <;> decide
  have d2 : h ^^^ 2 ≠ h := by interval_cases h <;> decide
  have d3 : h ^^^ 3 ≠ h := by interval_cases h <;> decide
  have d12 : h ^^^ 1 ≠ h ^^^ 2 := by interval_cases h <;> decide
  have d13 : h ^^^ 1 ≠ h ^^^ 3 := by interval_cases h <;> decide
  have d23 : h ^^^ 2 ≠ h ^^^ 3 := by interval_cases h <;> decide
  refine ⟨?_, ?_, ?_, ?_⟩ <;> split_ifs <;> constructor <;> intro e <;>
    first
    | rfl
    | exact absurd e d1 | exact absurd e d2 | exact absurd e d3
    | exact absurd e d12 | exact absurd e d13 | exact absurd e d23
    | exact absurd e.symm d1 | exact absurd e.symm d2 | exact absurd e.symm d3
    | exact absurd e.symm d12 | exact absurd e.symm d13 | exact absurd e.symm d23
    | omega

theorem card_filter_ge (n k : Nat) :
    ((Finset.range n).filter (fun r => k ≤ r)).card = n - k := by
  have : (Finset.range n).filter (fun r => k ≤ r) = Finset.Ico k n := by
    ext r
    simp only [Finset.mem_filter, Finset.mem_range, Finset.mem_Ico]
    omega
  rw [this, Nat.card_Ico]

theorem card_filter_lt (n k : Nat) (hk : k ≤ n) :
    ((Finset.range n).filter (fun r => r < k)).card = k := by
  have : (Finset.range n).filter (fun r => r < k) = Finset.range k := by
    ext r
    simp only [Finset.mem_filter, Finset.mem_range]
    omega
  rw [this, Finset.card_range]

theorem card_filter_parity (n a b p : Nat) (hbn : 2 * b ≤ n) (hp : p < 2) :
    ((Finset.range n).filter (fun r => 2 * a ≤ r ∧ r < 2 * b ∧ r % 2 = p)).card = b - a := by
  have : (Finset.range n).filter (fun r => 2 * a ≤ r ∧ r < 2 * b ∧ r % 2 = p) =
      (Finset.Ico a b).image (fun k => 2 * k + p) := by
    ext r
    simp only [Finset.mem_filter, Finset.mem_range, Finset.mem_image, Finset.mem_Ico]
    constructor
    · rintro ⟨_, h1, h2, h3⟩
      exact ⟨r / 2, ⟨by omega, by omega⟩, by omega⟩
    · rintro ⟨k, ⟨h1, h2⟩, rfl⟩
      exact ⟨by omega, by omega, by omega, by omega⟩
  rw [this, Finset.card_image_of_injective _ (fun x y hxy => by
      have h2 : 2 * x + p = 2 * y + p := hxy
      omega),
    Nat.card_Ico]

/-- C17: for a valid heading `h`, among the `2^32` values of the heading draw,
`perturb_direction` (the heading part of `perturb_observation`) returns `h` for exactly
`2^32 - 2^28` values, the opposite heading `h XOR 2` for exactly `2^24` values, and each of
the perpendicular headings `h XOR 1` and `h XOR 3` for exactly `15 * 2^23` values; and exactly
`2^29` of the `2^32` values of a sensor draw are below `SENSOR_NOISE_CHANCE`, which is the
condition under which the sensor loop inverts the bit. -/
theorem perturb_draw_counts (h : Nat) (hv : h < NUM_DIRECTIONS) :
    ((Finset.range (2 ^ 32)).filter (fun r => perturb_direction h r = h)).card =
        2 ^ 32 - 2 ^ 28 ∧
      ((Finset.range (2 ^ 32)).filter (fun r => perturb_direction h r = h ^^^ 2)).card =
        2 ^ 24 ∧
      ((Finset.range (2 ^ 32)).filter (fun r => perturb_direction h r = h ^^^ 1)).card =
        15 * 2 ^ 23 ∧
      ((Finset.range (2 ^ 32)).filter (fun r => perturb_direction h r = h ^^^ 3)).card =
        15 * 2 ^ 23 ∧
      ((Finset.range (2 ^ 32)).filter (fun r => r < SENSOR_NOISE_CHANCE)).card = 2 ^ 29 ∧
      (∀ (obs : observation) (rng : bb_rand_ctx),
        (perturb_observation obs rng).1.direction =
          perturb_direction obs.direction (next_rand rng).1) ∧
      ∀ (st : observation × bb_rand_ctx) (dir : Nat),
        ((perturb_sensor st dir).1.sensor dir = !st.1.sensor dir) ↔
          (next_rand st.2).1 < SENSOR_NOISE_CHANCE := by
  refine ⟨?_, ?_, ?_, ?_, ?_, perturb_observation_direction, ?_⟩
  · rw [Finset.filter_congr (fun r _ => (perturb_direction_cases h r hv).1), card_filter_ge]
  · rw [Finset.filter_congr (fun r _ => (perturb_direction_cases h r hv).2.1),
      card_filter_lt _ _ (by norm_num)]
  · have e : ∀ r, (2 ^ 24 ≤ r ∧ r < 2 ^ 28 ∧ r % 2 = 0) ↔
        (2 * 2 ^ 23 ≤ r ∧ r < 2 * 2 ^ 27 ∧ r % 2 = 0) := fun r => by
      norm_num
    rw [Finset.filter_congr (fun r _ => (perturb_direction_cases h r hv).2.2.1),
      Finset.filter_congr (fun r _ => e r),
      card_filter_parity _ _ _ 0 (by norm_num) (by norm_num)]
    norm_num
  · have e : ∀ r, (2 ^ 24 ≤ r ∧ r < 2 ^ 28 ∧ r % 2 = 1) ↔
        (2 * 2 ^ 23 ≤ r ∧ r < 2 * 2 ^ 27 ∧ r % 2 = 1) := fun r => by
      norm_num
    rw [Finset.filter_congr (fun r _ => (perturb_direction_cases h r hv).2.2.2),
      Finset.filter_congr (fun r _ => e r),
      card_filter_parity _ _ _ 1 (by norm_num) (by norm_num)]
    norm_num
  · exact card_filter_lt _ _ (by norm_num)
  · intro st dir
    rw [perturb_sensor_sensor]
    have e : ((next_rand st.2).1 < SENSOR_NOISE_CHANCE) ↔ (next_rand st.2).1 < 2 ^ 29 := by
      norm_num
    rw [e]
    by_cases hlt : (next_rand st.2).1 < 2 ^ 29
    · simp [hlt]
    · simp [hlt]

/-- Witness for C17: the heading NORTH. -/
theorem perturb_draw_counts_witness :
    NORTH < NUM_DIRECTIONS ∧
      ((Finset.range (2 ^ 32)).filter (fun r => perturb_direction NORTH r = NORTH ^^^ 2)).card =
        2 ^ 24 :=
  ⟨by decide, (perturb_draw_counts NORTH (by decide)).2.1⟩

/-! ## The draws consumed by `move_randomly` -/

theorem next_rand_rand_state (k : Nat) (rng : bb_rand_ctx) :
    next_rand (rand_state k rng) = (rand_draw (k + 1) rng, rand_state (k + 1) rng) := by
  rw [rand_state_succ_outer]
  rfl

theorem redraw_stop (poss : List direction) (j : Nat) :
    ∀ (k fuel : Nat) (rng : bb_rand_ctx), j ≤ fuel →
      (∀ i, i < j → poss.length ≤ rand_draw (k + 1 + i) rng &&& 0x3) →
      rand_draw (k + 1 + j) rng &&& 0x3 < poss.length →
      move_randomly_redraw poss fuel (rand_draw (k + 1) rng &&& 0x3) (rand_state (k + 1) rng) =
        some (poss.getD (rand_draw (k + 1 + j) rng &&& 0x3) NUM_DIRECTIONS,
          rand_state (k + 1 + j) rng) := by
  induction j with
  | zero =>
    intro k fuel rng _ _ hlt
    unfold move_randomly_redraw
    rw [if_neg (by simpa using hlt)]
  | succ j ih =>
    intro k fuel rng hf hge hlt
    obtain ⟨f, rfl⟩ : ∃ f, fuel = f + 1 := ⟨fuel - 1, by omega⟩
    have h0 := hge 0 (by omega)
    unfold move_randomly_redraw
    rw [if_pos (by simpa using h0)]
    dsimp only
    rw [next_rand_rand_state]
    dsimp only
    have e : k + 1 + (j + 1) = k + 1 + 1 + j := by omega
    rw [e] at hlt ⊢
    exact ih (k + 1) f rng (by omega)
      (fun i hi => by
        have := hge (i + 1) (by omega)
        have e2 : k + 1 + (i + 1) = k + 1 + 1 + i := by omega
        rwa [e2] at this) hlt

theorem redraw_none (poss : List direction) (fuel : Nat) :
    ∀ (k : Nat) (rng : bb_rand_ctx),
      (∀ i, i ≤ fuel → poss.length ≤ rand_draw (k + 1 + i) rng &&& 0x3) →
      move_randomly_redraw poss fuel (rand_draw (k + 1) rng &&& 0x3) (rand_state (k + 1) rng) =
        none := by
  induction fuel with
  | zero =>
    intro k rng hge
    have h0 := hge 0 (le_refl _)
    unfold move_randomly_redraw
    rw [if_pos (by simpa using h0)]
  | succ f ih =>
    intro k rng hge
    have h0 := hge 0 (by omega)
    unfold move_randomly_redraw
    rw [if_pos (by simpa using h0)]
    dsimp only
    rw [next_rand_rand_state]
    dsimp only
    exact ih (k + 1) rng (fun i hi => by
      have := hge (i + 1) (by omega)
      have e2 : k + 1 + (i + 1) = k + 1 + 1 + i := by omega
      rwa [e2] at this)

theorem move_randomly_three_draws (fuel : Nat) (map : List Char) (pt : point)
    (rng : bb_rand_ctx) (hm : map.length = WIDTH * HEIGHT)
    (h3 : (free_dirs map pt).length = 3) :
    move_randomly fuel pt map rng =
      move_randomly_redraw (free_dirs map pt) fuel (rand_draw 1 rng &&& 0x3)
        (rand_state 1 rng) :=
  move_randomly_three fuel map pt rng hm h3

theorem and_three_le (r : Nat) : r &&& 0x3 ≤ 3 := Nat.and_le_right

/-- C18: on a full-size maze, with `possibilities` the legal headings of the cell: with 0 or 1
legal move `move_randomly` returns with the generator unchanged; with 2 or 4 it returns with
the generator advanced by exactly one draw; with 3, if the draw number `j + 1` is the first
whose low two bits are not 3, the call (given room for `j` redraws) returns
`possibilities[bits]`, a legal heading, with the generator advanced by exactly `j + 1` draws;
and it returns for some bound on the redraws if and only if such a draw occurs. -/
theorem move_randomly_draws (map : List Char) (pt : point) (rng : bb_rand_ctx)
    (possibilities : List direction) (hm : map.length = WIDTH * HEIGHT)
    (hp : move_possibilities pt map = some possibilities) :
    (possibilities.length = 0 →
      ∀ fuel, move_randomly fuel pt map rng = some (NUM_DIRECTIONS, rng)) ∧
    (possibilities.length = 1 →
      ∀ fuel, move_randomly fuel pt map rng = some (possibilities.getD 0 NUM_DIRECTIONS, rng)) ∧
    (possibilities.length = 2 ∨ possibilities.length = 4 →
      ∀ fuel, ∃ d, d ∈ possibilities ∧
        move_randomly fuel pt map rng = some (d, rand_state 1 rng)) ∧
    (possibilities.length = 3 →
      (∀ j, (∀ i, i < j → rand_draw (i + 1) rng &&& 0x3 = 3) →
        rand_draw (j + 1) rng &&& 0x3 ≠ 3 →
        possibilities.getD (rand_draw (j + 1) rng &&& 0x3) NUM_DIRECTIONS ∈ possibilities ∧
        ∀ fuel, j ≤ fuel → move_randomly fuel pt map rng =
          some (possibilities.getD (rand_draw (j + 1) rng &&& 0x3) NUM_DIRECTIONS,
            rand_state (j + 1) rng)) ∧
      ((∃ fuel r, move_randomly fuel pt map rng = some r) ↔
        ∃ j, rand_draw (j + 1) rng &&& 0x3 ≠ 3)) := by
  rw [move_possibilities_eq map pt hm] at hp
  injection hp with hp
  subst hp
  refine ⟨fun h0 fuel => ?_, fun h1 fuel => ?_, fun h24 fuel => ?_, fun h3 => ⟨?_, ?_⟩⟩
  · exact move_randomly_none_free fuel map pt rng hm (List.length_eq_zero.mp h0)
  · unfold move_randomly
    rw [move_possibilities_eq map pt hm]
    simp [h1]
  · rcases h24 with h2 | h4
    · refine ⟨_, ?_, move_randomly_two fuel map pt rng hm h2⟩
      apply getD_mem_free_dirs
      rw [h2, Nat.and_one_is_mod]
      omega
    · refine ⟨_, ?_, move_randomly_four fuel map pt rng hm h4⟩
      apply getD_mem_free_dirs
      rw [h4]
      exact Nat.lt_succ_of_le (and_three_le _)
  · intro j hall hj
    have hlt : rand_draw (0 + 1 + j) rng &&& 0x3 < (free_dirs map pt).length := by
      rw [h3]
      have := and_three_le (rand_draw (j + 1) rng)
      have e : 0 + 1 + j = j + 1 := by omega
      rw [e]
      omega
    have e : 0 + 1 + j = j + 1 := by omega
    refine ⟨getD_mem_free_dirs map pt _ (by rw [← e]; exact hlt), fun fuel hf => ?_⟩
    rw [move_randomly_three_draws fuel map pt rng hm h3]
    have h := redraw_stop (free_dirs map pt) j 0 fuel rng hf (fun i hi => by
      have := hall i hi
      have e2 : 0 + 1 + i = i + 1 := by omega
      rw [e2, this, h3]) hlt
    rw [e] at h
    exact h
  · constructor
    · rintro ⟨fuel, r, hr⟩
      by_contra hcon
      push_neg at hcon
      rw [move_randomly_three_draws fuel map pt rng hm h3,
        redraw_none (free_dirs map pt) fuel 0 rng (fun i _ => by
          have e2 : 0 + 1 + i = i + 1 := by omega
          rw [e2, hcon i, h3])] at hr
      cases hr
    · intro hex
      have hmin := Nat.find_spec hex
      have hlt : rand_draw (0 + 1 + Nat.find hex) rng &&& 0x3 < (free_dirs map pt).length := by
        rw [h3]
        have := and_three_le (rand_draw (Nat.find hex + 1) rng)
        have e : 0 + 1 + Nat.find hex = Nat.find hex + 1 := by omega
        rw [e]
        omega
      refine ⟨Nat.find hex, ((free_dirs map pt).getD
        (rand_draw (0 + 1 + Nat.find hex) rng &&& 0x3) NUM_DIRECTIONS,
        rand_state (0 + 1 + Nat.find hex) rng), ?_⟩
      rw [move_randomly_three_draws _ map pt rng hm h3]
      exact redraw_stop (free_dirs map pt) (Nat.find hex) 0 (Nat.find hex) rng (le_refl _)
        (fun i hi => by
          have := Nat.find_min hex hi
          push_neg at this
          have e2 : 0 + 1 + i = i + 1 := by omega
          rw [e2, this, h3]) hlt

/-- Witness for C18: the cell (1, 3) of the reference maze, with three legal headings. -/
theorem move_randomly_draws_witness :
    reference_map.length = WIDTH * HEIGHT ∧
      move_possibilities ⟨1, 3⟩ reference_map = some [0, 1, 3] ∧
      ((∃ fuel r, move_randomly fuel ⟨1, 3⟩ reference_map (bb_rand_init 0xDEADBEEF) = some r) ↔
        ∃ j, rand_draw (j + 1) (bb_rand_init 0xDEADBEEF) &&& 0x3 ≠ 3) :=
  ⟨reference_map_length, reference_map_possibilities,
    ((move_randomly_draws reference_map ⟨1, 3⟩ (bb_rand_init 0xDEADBEEF) [0, 1, 3]
      reference_map_length reference_map_possibilities).2.2.2 rfl).2⟩

/-! ## Fixed-point against floating-point noise -/

theorem double_lt_iff (r n : Nat) (c : ℚ) (hc : c * 2 ^ 32 = (n : ℚ)) :
    (r : ℚ) / (2 ^ 32 : ℚ) < c ↔ r < n := by
  rw [div_lt_iff₀ (by positivity), hc]
  exact Nat.cast_lt

theorem perturb_sensor_float_eq (st : observation × bb_rand_ctx) (dir : Nat) :
    perturb_sensor_float st dir = perturb_sensor st dir := by
  unfold perturb_sensor_float perturb_sensor next_double
  dsimp only
  have h : ((next_rand st.2).1 : ℚ) / (2 ^ 32 : ℚ) < SENSOR_NOISE_CHANCE_float ↔
      (next_rand st.2).1 < SENSOR_NOISE_CHANCE :=
    double_lt_iff _ _ _ (by unfold SENSOR_NOISE_CHANCE_float; norm_num)
  by_cases hlt : (next_rand st.2).1 < SENSOR_NOISE_CHANCE
  · rw [if_pos hlt, if_pos (h.mpr hlt)]
  · rw [if_neg hlt, if_neg (fun x => hlt (h.mp x))]

theorem perturb_direction_float_eq (h r : Nat) :
    perturb_direction_float h ((r : ℚ) / (2 ^ 32 : ℚ)) =
      (if r < 2 ^ 24 then h ^^^ 2
       else if r < 2 ^ 28 then (if r < 0x08800000 then h ^^^ 3 else h ^^^ 1)
       else h) := by
  unfold perturb_direction_float
  have h3 : h ^^^ 1 ^^^ 2 = h ^^^ 3 := by
    rw [Nat.xor_assoc]; rfl
  have e1 : (r : ℚ) / (2 ^ 32 : ℚ) < DIR_NOISE_CHANCE_float ↔ r < 2 ^ 28 :=
    double_lt_iff _ _ _ (by unfold DIR_NOISE_CHANCE_float; norm_num)
  have e2 : (r : ℚ) / (2 ^ 32 : ℚ) < DIR_BACK_CHANCE_float ↔ r < 2 ^ 24 :=
    double_lt_iff _ _ _ (by unfold DIR_BACK_CHANCE_float; norm_num)
  have e3 : (r : ℚ) / (2 ^ 32 : ℚ) <
      DIR_BACK_CHANCE_float + (DIR_NOISE_CHANCE_float - DIR_BACK_CHANCE_float) / 2 ↔
      r < 0x08800000 :=
    double_lt_iff _ _ _ (by unfold DIR_NOISE_CHANCE_float DIR_BACK_CHANCE_float; norm_num)
  simp only [e1, e2, e3, h3]
  split_ifs <;> first | rfl | omega

theorem perturb_sensor_fold_congr (l : List Nat) (st st1 : observation × bb_rand_ctx)
    (hs : st.1.sensor = st1.1.sensor) (hr : st.2 = st1.2) :
    (l.foldl perturb_sensor st).1.sensor = (l.foldl perturb_sensor st1).1.sensor ∧
      (l.foldl perturb_sensor st).2 = (l.foldl perturb_sensor st1).2 := by
  induction l generalizing st st1 with
  | nil => exact ⟨hs, hr⟩
  | cons d l ih =>
    rw [List.foldl_cons, List.foldl_cons]
    apply ih
    · funext x
      rw [perturb_sensor_sensor, perturb_sensor_sensor, hs, hr]
    · rw [perturb_sensor_state, perturb_sensor_state, hr]

theorem perturb_observation_float_direction (obs : observation) (rng : bb_rand_ctx) :
    (perturb_observation_float obs rng).1.direction =
      perturb_direction_float obs.direction (((next_rand rng).1 : ℚ) / (2 ^ 32 : ℚ)) := by
  unfold perturb_observation_float next_double
  dsimp only
  rw [funext (fun st => funext (fun d => perturb_sensor_float_eq st d)),
    perturb_sensor_fold_direction]

theorem perturb_observation_float_rest (obs : observation) (rng : bb_rand_ctx) :
    (perturb_observation_float obs rng).1.sensor = (perturb_observation obs rng).1.sensor ∧
      (perturb_observation_float obs rng).2 = (perturb_observation obs rng).2 := by
  unfold perturb_observation_float perturb_observation next_double
  dsimp only
  rw [funext (fun st => funext (fun d => perturb_sensor_float_eq st d))]
  exact perturb_sensor_fold_congr _ _ _ rfl rfl

/-- C13 (as stated, refuted): from the generator state `(2^24, 0, 0, 0)`, whose first draw is
`2^24`, an observation heading EAST comes out heading NORTH (`EAST XOR 1`, the draw being
even) from the fixed-point `perturb_observation` and heading SOUTH (`EAST XOR 3`, the draw
being below `0x08800000`) from the floating-point one. -/
theorem perturb_observation_float_differs :
    (next_rand ⟨2 ^ 24, 0, 0, 0⟩).1 = 2 ^ 24 ∧
      (perturb_observation ⟨fun _ => true, EAST⟩ ⟨2 ^ 24, 0, 0, 0⟩).1.direction = NORTH ∧
      (perturb_observation_float ⟨fun _ => true, EAST⟩ ⟨2 ^ 24, 0, 0, 0⟩).1.direction =
        SOUTH := by
  have hr : (next_rand ⟨2 ^ 24, 0, 0, 0⟩).1 = 2 ^ 24 := by decide
  refine ⟨hr, ?_, ?_⟩
  · rw [perturb_observation_direction, perturb_direction_eq, hr]
    decide
  · rw [perturb_observation_float_direction, perturb_direction_float_eq, hr]
    decide

/-- C13 (amended): for every observation with a valid heading `h` and every generator state,
with `r` the first draw, the two renderings of `perturb_observation` leave the generator in
the same state and return the same sensor bits; the floating-point comparisons are the integer
comparisons of `r` against `2^24`, `2^28` and `0x08800000` (and of a sensor draw against
`2^29`), so that the floating-point heading is `h XOR 2` when `r < 2^24`, `h XOR 3` when
`2^24 ≤ r < 0x08800000`, `h XOR 1` when `0x08800000 ≤ r < 2^28` and `h` otherwise; the two
headings agree exactly when `r < 2^24`, or `r ≥ 2^28`, or `r` is odd if and only if
`r < 0x08800000`. -/
theorem perturb_observation_float_vs_fixed (obs : observation) (rng : bb_rand_ctx)
    (hv : obs.direction < NUM_DIRECTIONS) :
    (perturb_observation_float obs rng).2 = (perturb_observation obs rng).2 ∧
      (perturb_observation_float obs rng).1.sensor = (perturb_observation obs rng).1.sensor ∧
      (perturb_observation_float obs rng).1.direction =
        (if (next_rand rng).1 < 2 ^ 24 then obs.direction ^^^ 2
         else if (next_rand rng).1 < 2 ^ 28 then
           (if (next_rand rng).1 < 0x08800000 then obs.direction ^^^ 3
            else obs.direction ^^^ 1)
         else obs.direction) ∧
      (∀ (st : observation × bb_rand_ctx) (dir : Nat),
        perturb_sensor_float st dir = perturb_sensor st dir) ∧
      ((perturb_observation_float obs rng).1.direction =
          (perturb_observation obs rng).1.direction ↔
        ((next_rand rng).1 < 2 ^ 24 ∨ 2 ^ 28 ≤ (next_rand rng).1 ∨
          ((next_rand rng).1 % 2 = 1 ↔ (next_rand rng).1 < 0x08800000))) := by
  obtain ⟨hs, hr⟩ := perturb_observation_float_rest obs rng
  have hf : (perturb_observation_float obs rng).1.direction =
      (if (next_rand rng).1 < 2 ^ 24 then obs.direction ^^^ 2
       else if (next_rand rng).1 < 2 ^ 28 then
         (if (next_rand rng).1 < 0x08800000 then obs.direction ^^^ 3
          else obs.direction ^^^ 1)
       else obs.direction) := by
    rw [perturb_observation_float_direction, perturb_direction_float_eq]
  refine ⟨hr, hs, hf, perturb_sensor_float_eq, ?_⟩
  rw [hf, perturb_observation_direction, perturb_direction_eq]
  have hv' : obs.direction < 4 := hv
  have d13 : obs.direction ^^^ 1 ≠ obs.direction ^^^ 3 := by
    generalize obs.direction = h at hv'
    interval_cases h <;> decide
  generalize (next_rand rng).1 = r
  split_ifs <;> constructor <;> intro e <;>
    first
    | rfl
    | exact absurd e d13
    | exact absurd e.symm d13
    | omega

/-- Witness for C13 (amended): an observation heading EAST and the generator seeded as in
`main`. -/
theorem perturb_observation_float_vs_fixed_witness :
    EAST < NUM_DIRECTIONS ∧
      (perturb_observation_float ⟨fun _ => true, EAST⟩ (bb_rand_init 0xDEADBEEF)).2 =
        (perturb_observation ⟨fun _ => true, EAST⟩ (bb_rand_init 0xDEADBEEF)).2 :=
  ⟨by decide, (perturb_observation_float_vs_fixed ⟨fun _ => true, EAST⟩
    (bb_rand_init 0xDEADBEEF) (by decide)).1⟩

/-! ## Array accesses of `update_locator` on a maze with an open border -/

set_option maxRecDepth 100000 in
/-- C15 (the code departs from the claim): on the 20x8 maze `open_border_map` the cell (1, 0)
is free and has the legal move SOUTH; its neighbour to the NORTH, (1, -1), is outside the
grid, and the second inner loop of `update_locator` still reads and writes
`ret.probability[point_index(np)]` for it, at the index `2^64 - 19`: the accumulation leaves
the array and `update_locator` has no defined result. -/
theorem update_locator_open_border :
    open_border_map.length = WIDTH * HEIGHT ∧
      is_wall ⟨1, 0⟩ open_border_map = some false ∧
      is_dir_free ⟨1, 0⟩ open_border_map SOUTH = some true ∧
      is_invalid (move_point ⟨1, 0⟩ NORTH) = true ∧
      point_index (move_point ⟨1, 0⟩ NORTH) = 2 ^ 64 - 19 ∧
      update_accumulate ⟨corner_prior⟩ open_border_map ⟨fun _ => true, EAST⟩ = none ∧
      update_locator ⟨corner_prior⟩ open_border_map ⟨fun _ => true, EAST⟩ = none := by
  decide

/-! ## The localisation diagnostic of `main` -/

set_option maxRecDepth 100000 in
/-- C16 (the code departs from the claim): for the posterior whose 160 entries all equal 7 and
the true cell (1, 1), the posterior at the true cell is the maximum entry, and the flag
`correct` of the fixed-point `main` is false: only the first five cells of the maximum set,
of indices 0 to 4, are compared with the true cell, of index 21. Without the cap on `maxlocn`
the flag is true. -/
theorem hit_flag_capped :
    (List.replicate (WIDTH * HEIGHT) 7).getD (point_index ⟨1, 1⟩) 0 = 7 ∧
      (∀ v, v ∈ List.replicate (WIDTH * HEIGHT) 7 → v ≤ 7) ∧
      max_scan (List.replicate (WIDTH * HEIGHT) 7) = some (List.range (WIDTH * HEIGHT), 7) ∧
      hit_flag (List.replicate (WIDTH * HEIGHT) 7) ⟨1, 1⟩ = some false ∧
      hit_flag_uncapped (List.replicate (WIDTH * HEIGHT) 7) ⟨1, 1⟩ = some true := by
  decide

/-! ## The divisor of the floating-point filter -/

theorem num_prob_fold (p : Nat → Bool) (n0 : Nat) (hn : n0 + 4 < 2 ^ 64) :
    (List.range 4).foldl (fun (n : Nat) d => if p d then (n + 1) % 2 ^ 64 else n) n0 =
      n0 + ((List.range 4).filter p).length := by
  simp only [List.range_succ, List.range_zero, List.nil_append, List.cons_append,
    List.foldl_cons, List.foldl_nil, List.filter_cons, List.filter_nil]
  cases p 0 <;> cases p 1 <;> cases p 2 <;> cases p 3 <;>
    simp only [if_true, if_false, Bool.false_eq_true, List.length_cons, List.length_nil] <;>
    omega

theorem update_num_prob_float_eq (n0 : Nat) (pt : point) (map : List Char)
    (hm : map.length = WIDTH * HEIGHT) (hn : n0 + 4 < 2 ^ 64) :
    update_num_prob_float n0 pt map = some (n0 + (free_dirs map pt).length) := by
  unfold update_num_prob_float
  rw [foldlM_eq_some_foldl _
    (fun (n : Nat) d => if free_at map pt d then (n + 1) % 2 ^ 64 else n)]
  · rw [num_prob_fold (free_at map pt) n0 hn]
    rfl
  · intro b d _
    dsimp only
    by_cases hinv : is_invalid (move_point pt d) = true
    · have hf : free_at map pt d = false := by simp [free_at, hinv]
      simp [hinv, hf]
    · have hinv' : is_invalid (move_point pt d) = false := by simpa using hinv
      rw [if_neg hinv, is_wall_eq map _ hm hinv']
      cases hw : wall_at map (move_point pt d)
      · have hf : free_at map pt d = true := by simp [free_at, hinv', hw]
        simp [hf]
      · have hf : free_at map pt d = false := by simp [free_at, hw]
        simp [hf]

set_option maxRecDepth 100000 in
/-- C19 (the code departs from the claim): in the reference maze the cells (1, 1) and (2, 1),
consecutive free cells of the scan, have 2 legal moves each. The fixed-point `update_locator`
divides the contributions of (2, 1) by `num_prob = 2`. The counter of the floating-point
`update_locator` is never set to zero: entered with the value 2 that the cell (1, 1) left in
it, it ends at 4 for the cell (2, 1); entered with any value `n`, it ends at `n` plus the
number of legal moves. -/
theorem update_num_prob_float_carries :
    legal_move_count reference_map 21 = 2 ∧ legal_move_count reference_map 22 = 2 ∧
      (update_dir_probs (from_index 22) reference_map ⟨fun _ => true, EAST⟩).map Prod.snd =
        some 2 ∧
      update_num_prob_float 0 (from_index 21) reference_map = some 2 ∧
      update_num_prob_float 2 (from_index 22) reference_map = some 4 ∧
      ∀ n, n + 4 < 2 ^ 64 → update_num_prob_float n (from_index 22) reference_map =
        some (n + legal_move_count reference_map 22) := by
  refine ⟨by decide, by decide, by decide, by decide, by decide, fun n hn => ?_⟩
  rw [update_num_prob_float_eq n _ _ reference_map_length hn,
    legal_move_count_eq reference_map 22 reference_map_length]

/-! ## The saturation branch under the belief invariant -/

theorem observation_probability_le (a b : observation) :
    observation_probability a b ≤ 2517630976 := by
  have hm := sensor_matches_le a b
  by_cases h0 : a.direction ^^^ b.direction = 0
  · rw [observation_probability_same_heading a b h0]
    generalize sensor_matches a b = m at hm
    interval_cases m <;> decide
  by_cases h123 : a.direction ^^^ b.direction = 1 ∨ a.direction ^^^ b.direction = 2 ∨
      a.direction ^^^ b.direction = 3
  · rw [observation_probability_other_heading a b h123]
    generalize sensor_matches a b = m at hm
    split_ifs <;> interval_cases m <;> decide
  · have h1 : ¬ (a.direction ^^^ b.direction = 1 ∨ a.direction ^^^ b.direction = 3) :=
      fun h => h123 (by tauto)
    have h2 : ¬ a.direction ^^^ b.direction = 2 := fun h => h123 (by tauto)
    unfold observation_probability
    simp only [h0, h1, h2, if_false, sensor_probability_eq]
    generalize sensor_matches a b = m at hm
    interval_cases m <;> decide

theorem cell_likelihood_le (map : List Char) (obs : observation) (n : Nat) (h : direction) :
    cell_likelihood map obs n h ≤ 2517630976 := by
  unfold cell_likelihood
  cases compute_observation (from_index n) map h with
  | none => exact Nat.zero_le _
  | some o => exact observation_probability_le o obs

theorem contribution_le (map : List Char) (prior : List Nat) (obs : observation)
    (n c : Nat) (h : direction) :
    8 * contribution map prior obs n h c ≤
      5 * (if is_wall (from_index c) map = some false then prior.getD c 0 else 0) := by
  unfold contribution
  by_cases hcond : move_point (from_index c) h = from_index n ∧
      is_wall (from_index n) map = some false ∧ is_wall (from_index c) map = some false
  · rw [if_pos hcond, if_pos hcond.2.2]
    have hL := cell_likelihood_le map obs n h
    generalize cell_likelihood map obs n h = L at hL
    generalize prior.getD c 0 = p
    generalize legal_move_count map c = k
    by_cases hk : k = 0
    · subst hk; simp
    · have h1 : L * p / (k * 2 ^ 32) * (k * 2 ^ 32) ≤ L * p := Nat.div_mul_le_self _ _
      have h2 : L * p / (k * 2 ^ 32) * 2 ^ 32 ≤ L * p / (k * 2 ^ 32) * (k * 2 ^ 32) :=
        Nat.mul_le_mul_left _ (Nat.le_mul_of_pos_left _ (Nat.pos_of_ne_zero hk))
      have h3 : L * p ≤ 2517630976 * p := Nat.mul_le_mul_right _ hL
      have h12 : L * p / (k * 2 ^ 32) * 2 ^ 32 ≤ L * p := le_trans h2 h1
      generalize L * p / (k * 2 ^ 32) = q at h12
      omega
  · rw [if_neg hcond]
    exact Nat.zero_le _

theorem move_point_injective (pt : point) (h1 h2 : Nat) (hh1 : h1 < NUM_DIRECTIONS)
    (hh2 : h2 < NUM_DIRECTIONS) (he : move_point pt h1 = move_point pt h2) : h1 = h2 := by
  have g1 : h1 < 4 := hh1
  have g2 : h2 < 4 := hh2
  obtain ⟨x, y⟩ := pt
  interval_cases h1 <;> interval_cases h2 <;> first
    | rfl
    | (simp only [move_point, point.mk.injEq] at he; omega)

theorem contribution_sum_le (map : List Char) (prior : List Nat) (obs : observation)
    (n c : Nat) :
    8 * (∑ h in Finset.range NUM_DIRECTIONS, contribution map prior obs n h c) ≤
      5 * (if is_wall (from_index c) map = some false then prior.getD c 0 else 0) := by
  by_cases hex : ∃ h0, h0 < NUM_DIRECTIONS ∧ move_point (from_index c) h0 = from_index n
  · obtain ⟨h0, hh0, hmv⟩ := hex
    rw [Finset.sum_eq_single_of_mem h0 (Finset.mem_range.mpr hh0)]
    · exact contribution_le map prior obs n c h0
    · intro h hh hne
      unfold contribution
      rw [if_neg]
      rintro ⟨hmv2, _⟩
      exact hne (move_point_injective _ h h0 (Finset.mem_range.mp hh) hh0 (hmv2.trans hmv.symm))
  · rw [Finset.sum_eq_zero]
    · exact Nat.zero_le _
    · intro h hh
      unfold contribution
      rw [if_neg]
      rintro ⟨hmv2, _⟩
      exact hex ⟨h, Finset.mem_range.mp hh, hmv2⟩

theorem contribution_total_lt (map : List Char) (prior : List Nat) (obs : observation)
    (n : Nat) (hs : free_mass map prior ≤ 2 ^ 32) :
    (∑ h in Finset.range NUM_DIRECTIONS, ∑ c in Finset.range (WIDTH * HEIGHT),
      contribution map prior obs n h c) < 2 ^ 32 := by
  rw [Finset.sum_comm]
  have h1 : 8 * (∑ c in Finset.range (WIDTH * HEIGHT), ∑ h in Finset.range NUM_DIRECTIONS,
      contribution map prior obs n h c) ≤ 5 * free_mass map prior := by
    unfold free_mass
    rw [Finset.mul_sum, Finset.mul_sum]
    exact Finset.sum_le_sum (fun c _ => contribution_sum_le map prior obs n c)
  omega

theorem cell_term_total (map : List Char) (prior : List Nat) (obs : observation) (n : Nat)
    (hm : map.length = WIDTH * HEIGHT) (hb : border_walled map)
    (hr : ∀ x, x ∈ prior → x < 2 ^ 32) (hn : n < WIDTH * HEIGHT) :
    (∑ c in Finset.range (WIDTH * HEIGHT), ∑ d in Finset.range NUM_DIRECTIONS,
        cell_term map prior obs n c d) =
      ∑ h in Finset.range NUM_DIRECTIONS, ∑ c in Finset.range (WIDTH * HEIGHT),
        contribution map prior obs n h c := by
  rw [Finset.sum_comm]
  apply Finset.sum_congr rfl
  intro d hd
  apply Finset.sum_congr rfl
  intro c hc
  exact cell_term_eq map prior obs n c d hm hb hr hn (Finset.mem_range.mp hc)
    (Finset.mem_range.mp hd)

theorem spread_steps_length (map : List Char) (prior : List Nat) (obs : observation)
    (ret : List Nat) (c j : Nat) :
    (spread_steps map prior obs ret c j).length = ret.length := by
  unfold spread_steps
  induction j with
  | zero => rfl
  | succ j ih =>
    rw [List.range_succ, List.foldl_append]
    simp only [List.foldl_cons, List.foldl_nil]
    rw [sat_store_length, ih]

theorem spread_steps_succ (map : List Char) (prior : List Nat) (obs : observation)
    (ret : List Nat) (c j : Nat) :
    spread_steps map prior obs ret c (j + 1) =
      sat_store (spread_steps map prior obs ret c j)
        (point_index (move_point (from_index c) j))
        (move_prob (dir_prob map obs (from_index c) j) (prior.getD c 0)
          (free_dirs map (from_index c)).length) := by
  unfold spread_steps
  rw [List.range_succ, List.foldl_append]
  rfl

theorem spread_steps_getD (map : List Char) (prior : List Nat) (obs : observation)
    (ret : List Nat) (c j n S : Nat) (hn : n < ret.length)
    (hS : ret.getD n 0 = min (2 ^ 32 - 1) S) :
    (spread_steps map prior obs ret c j).getD n 0 =
      min (2 ^ 32 - 1) (S + ∑ d in Finset.range j,
        (if point_index (move_point (from_index c) d) = n then
          move_prob (dir_prob map obs (from_index c) d) (prior.getD c 0)
            (free_dirs map (from_index c)).length
         else 0)) := by
  induction j with
  | zero =>
    rw [Finset.sum_range_zero, Nat.add_zero]
    exact hS
  | succ j ih =>
    rw [spread_steps_succ, sat_store_getD _ _ _ n _
      (by rw [spread_steps_length]; exact hn) (move_prob_lt _ _ _) ih,
      Finset.sum_range_succ, Nat.add_assoc]

theorem cell_term_free (map : List Char) (prior : List Nat) (obs : observation) (n c d : Nat)
    (hw : wall_at map (from_index c) = false)
    (hk : (free_dirs map (from_index c)).length ≠ 0) :
    cell_term map prior obs n c d =
      (if point_index (move_point (from_index c) d) = n then
        move_prob (dir_prob map obs (from_index c) d) (prior.getD c 0)
          (free_dirs map (from_index c)).length
       else 0) := by
  unfold cell_term
  rw [hw, if_neg (by simp), if_neg hk]

theorem running_newprob_le (map : List Char) (prior : List Nat) (obs : observation)
    (c j : Nat) (hm : map.length = WIDTH * HEIGHT) (hb : border_walled map)
    (hr : ∀ x, x ∈ prior → x < 2 ^ 32) (hc : c < WIDTH * HEIGHT) (hj : j < NUM_DIRECTIONS)
    (hfree : is_wall (from_index c) map = some false) (hk : legal_move_count map c ≠ 0) :
    point_index (move_point (from_index c) j) < WIDTH * HEIGHT ∧
      running_newprob map prior obs c j ≤
        ∑ h in Finset.range NUM_DIRECTIONS, ∑ c1 in Finset.range (WIDTH * HEIGHT),
          contribution map prior obs (point_index (move_point (from_index c) j)) h c1 := by
  have hw : wall_at map (from_index c) = false := by
    rw [is_wall_eq map _ hm (is_invalid_from_index c hc)] at hfree
    injection hfree
  have hk' : (free_dirs map (from_index c)).length ≠ 0 := by
    rw [← legal_move_count_eq map c hm]; exact hk
  have hint := interior_of_free map c hm hb hc hw
  have hn := point_index_lt _ (move_valid_of_interior c j hj hint)
  refine ⟨hn, ?_⟩
  generalize hnn : point_index (move_point (from_index c) j) = n at hn ⊢
  have hlen : n < (List.replicate (WIDTH * HEIGHT) 0).length := by
    rw [List.length_replicate]; exact hn
  have h0 : (List.replicate (WIDTH * HEIGHT) 0).getD n 0 = min (2 ^ 32 - 1) 0 := by
    rw [List.getD_eq_getElem _ _ hlen, List.getElem_replicate]; rfl
  have h1 := cell_fold_getD map prior obs (List.range c) _ n 0 hlen h0
  have h2 := spread_steps_getD map prior obs _ c j n _
    (by rw [cell_fold_length]; exact hlen) h1
  rw [← cell_term_total map prior obs n hm hb hr hn]
  unfold running_newprob
  rw [hnn, h2, list_sum_range, Nat.zero_add]
  simp only [list_sum_range]
  have hstep : (∑ d in Finset.range j,
        (if point_index (move_point (from_index c) d) = n then
          move_prob (dir_prob map obs (from_index c) d) (prior.getD c 0)
            (free_dirs map (from_index c)).length
         else 0)) +
      move_prob (dir_prob map obs (from_index c) j) (prior.getD c 0)
        (free_dirs map (from_index c)).length ≤
      ∑ d in Finset.range NUM_DIRECTIONS, cell_term map prior obs n c d := by
    have e : (∑ d in Finset.range (j + 1), cell_term map prior obs n c d) =
        (∑ d in Finset.range j,
          (if point_index (move_point (from_index c) d) = n then
            move_prob (dir_prob map obs (from_index c) d) (prior.getD c 0)
              (free_dirs map (from_index c)).length
           else 0)) +
        move_prob (dir_prob map obs (from_index c) j) (prior.getD c 0)
          (free_dirs map (from_index c)).length := by
      rw [Finset.sum_range_succ, cell_term_free map prior obs n c j hw hk', if_pos hnn]
      congr 1
      exact Finset.sum_congr rfl (fun d _ => cell_term_free map prior obs n c d hw hk')
    rw [← e]
    exact Finset.sum_le_sum_of_subset (Finset.range_subset.mpr hj)
  have hcells : (∑ c1 in Finset.range c, ∑ d in Finset.range NUM_DIRECTIONS,
        cell_term map prior obs n c1 d) +
      ∑ d in Finset.range NUM_DIRECTIONS, cell_term map prior obs n c d ≤
      ∑ c1 in Finset.range (WIDTH * HEIGHT), ∑ d in Finset.range NUM_DIRECTIONS,
        cell_term map prior obs n c1 d := by
    rw [← Finset.sum_range_succ (fun c1 => ∑ d in Finset.range NUM_DIRECTIONS,
      cell_term map prior obs n c1 d) c]
    exact Finset.sum_le_sum_of_subset (Finset.range_subset.mpr hc)
  have hmod := Nat.mod_le
    (min (2 ^ 32 - 1) ((∑ c1 in Finset.range c, ∑ d in Finset.range NUM_DIRECTIONS,
        cell_term map prior obs n c1 d) +
      ∑ d in Finset.range j,
        (if point_index (move_point (from_index c) d) = n then
          move_prob (dir_prob map obs (from_index c) d) (prior.getD c 0)
            (free_dirs map (from_index c)).length
         else 0)) +
      move_prob (dir_prob map obs (from_index c) j) (prior.getD c 0)
        (free_dirs map (from_index c)).length) (2 ^ 64)
  omega

theorem cell_step_eq_spread_steps (map : List Char) (prior : List Nat) (obs : observation)
    (ret : List Nat) (c : Nat) (hw : wall_at map (from_index c) = false)
    (hk : (free_dirs map (from_index c)).length ≠ 0) :
    cell_step map prior obs ret c = spread_steps map prior obs ret c NUM_DIRECTIONS := by
  unfold cell_step spread_steps
  rw [hw, if_neg (by simp), if_neg hk]

/-- C20: on a 20x8 maze whose border cells are walls, for a prior of 160 values of 32 bits
whose entries over free cells sum to at most `2^32` and any observation with a valid heading:
every value `newprob = ret[n] + moveprob` that `update_locator` computes (for each free source
cell with a legal move and each of the four directions, the earlier cells and directions
having been processed) is below `2^32`, so the clamp never replaces it; the loop body for
such a cell is the four saturating stores in the order of the directions; the accumulation
completes, and each accumulator entry is the plain sum of the contributions, itself below
`2^32`. -/
theorem update_locator_never_saturates (map : List Char) (prior : List Nat)
    (obs : observation) (hm : map.length = WIDTH * HEIGHT) (hb : border_walled map)
    (hp : prior.length = WIDTH * HEIGHT) (hr : ∀ x, x ∈ prior → x < 2 ^ 32)
    (_hv : obs.direction < NUM_DIRECTIONS) (hs : free_mass map prior ≤ 2 ^ 32) :
    (∀ c j, c < WIDTH * HEIGHT → j < NUM_DIRECTIONS →
      is_wall (from_index c) map = some false → legal_move_count map c ≠ 0 →
      running_newprob map prior obs c j < 2 ^ 32) ∧
    (∀ c ret, c < WIDTH * HEIGHT → ret.length = WIDTH * HEIGHT →
      is_wall (from_index c) map = some false → legal_move_count map c ≠ 0 →
      update_cell ⟨prior⟩ map obs ret (from_index c) =
        some (spread_steps map prior obs ret c NUM_DIRECTIONS)) ∧
    ∃ acc, update_accumulate ⟨prior⟩ map obs = some acc ∧
      ∀ n, n < WIDTH * HEIGHT →
        acc.getD n 0 = (∑ h in Finset.range NUM_DIRECTIONS,
          ∑ c in Finset.range (WIDTH * HEIGHT), contribution map prior obs n h c) ∧
        acc.getD n 0 < 2 ^ 32 := by
  refine ⟨fun c j hc hj hfree hk => ?_, fun c ret hc hret hfree hk => ?_,
    accumulator map prior obs, update_accumulate_eq map prior obs hm hb hp, fun n hn => ?_⟩
  · obtain ⟨_, hle⟩ := running_newprob_le map prior obs c j hm hb hr hc hj hfree hk
    exact lt_of_le_of_lt hle (contribution_total_lt map prior obs _ hs)
  · rw [update_cell_eq map prior obs ret c hm hb hp hret hc]
    rw [is_wall_eq map _ hm (is_invalid_from_index c hc)] at hfree
    injection hfree with hw
    rw [cell_step_eq_spread_steps map prior obs ret c hw
      (by rw [← legal_move_count_eq map c hm]; exact hk)]
  · have hlt := contribution_total_lt map prior obs n hs
    have hacc := accumulator_getD map prior obs n hm hb hr hn
    rw [hacc]
    omega

set_option maxRecDepth 100000 in
theorem corner_prior_free_mass : free_mass reference_map corner_prior ≤ 2 ^ 32 := by
  decide

/-- Witness for C20: the reference maze and the prior with all mass on the cell (1, 1). -/
theorem update_locator_never_saturates_witness :
    reference_map.length = WIDTH * HEIGHT ∧ border_walled reference_map ∧
      corner_prior.length = WIDTH * HEIGHT ∧ EAST < NUM_DIRECTIONS ∧
      free_mass reference_map corner_prior ≤ 2 ^ 32 ∧
      ∀ c j, c < WIDTH * HEIGHT → j < NUM_DIRECTIONS →
        is_wall (from_index c) reference_map = some false →
        legal_move_count reference_map c ≠ 0 →
        running_newprob reference_map corner_prior ⟨fun _ => true, EAST⟩ c j < 2 ^ 32 :=
  ⟨reference_map_length, reference_map_border, corner_prior_length, by decide,
    corner_prior_free_mass,
    (update_locator_never_saturates reference_map corner_prior ⟨fun _ => true, EAST⟩
      reference_map_length reference_map_border corner_prior_length corner_prior_range
      (by decide) corner_prior_free_mass).1⟩

/-! ## The generator step is invertible -/

theorem rotl_lt (x k : Nat) (hk : k ≤ 32) (hx : x < 2 ^ 32) : rotl x k < 2 ^ 32 :=
  (rotate_eq_rotl x (32 - k) k (by omega) hx).2

theorem xor_cancel_right (p q : Nat) : (p ^^^ q) ^^^ q = p := by
  rw [Nat.xor_assoc, Nat.xor_self, Nat.xor_zero]

theorem prev_rand_valid (y : bb_rand_ctx) (hy : rand_ctx_valid y) :
    rand_ctx_valid (prev_rand y) := by
  obtain ⟨ha, _, _, _⟩ := hy
  unfold prev_rand rand_ctx_valid
  dsimp only
  have hc : (y.b + 2 ^ 32 - (y.c + 2 ^ 32 - (y.d + 2 ^ 32 - y.a) % 2 ^ 32) % 2 ^ 32) % 2 ^ 32
      < 2 ^ 32 := Nat.mod_lt _ (by norm_num)
  refine ⟨Nat.mod_lt _ (by norm_num), Nat.xor_lt_two_pow ha (rotl_lt _ 17 (by norm_num) hc), hc,
    Nat.mod_lt _ (by norm_num)⟩

theorem prev_rand_next_rand (x : bb_rand_ctx) (hx : rand_ctx_valid x) :
    prev_rand (next_rand x).2 = x := by
  rw [next_rand_eq_spec x hx]
  obtain ⟨a, b, c, d⟩ := x
  obtain ⟨ha, hb, hc, hd⟩ := hx
  simp only at ha hb hc hd
  have rb := rotl_lt b 27 (by norm_num) hb
  have rc := rotl_lt c 17 (by norm_num) hc
  have hxor : b ^^^ rotl c 17 < 2 ^ 32 := Nat.xor_lt_two_pow hb rc
  unfold prev_rand next_rand_spec
  dsimp only
  generalize hR : rotl b 27 = R at rb
  generalize hA : b ^^^ rotl c 17 = A at hxor
  have he : (((a + 2 ^ 32 - R) % 2 ^ 32 + A) % 2 ^ 32 + 2 ^ 32 - A) % 2 ^ 32
      = (a + 2 ^ 32 - R) % 2 ^ 32 := by omega
  rw [he]
  have hd1 : ((d + (a + 2 ^ 32 - R) % 2 ^ 32) % 2 ^ 32 + 2 ^ 32 - (a + 2 ^ 32 - R) % 2 ^ 32)
      % 2 ^ 32 = d := by omega
  rw [hd1]
  have hc1 : ((c + d) % 2 ^ 32 + 2 ^ 32 - d) % 2 ^ 32 = c := by omega
  rw [hc1]
  have hb1 : A ^^^ rotl c 17 = b := by rw [← hA]; exact xor_cancel_right _ _
  rw [hb1, hR]
  have ha1 : ((a + 2 ^ 32 - R) % 2 ^ 32 + R) % 2 ^ 32 = a := by omega
  rw [ha1]

theorem next_rand_prev_rand (y : bb_rand_ctx) (hy : rand_ctx_valid y) :
    (next_rand (prev_rand y)).2 = y := by
  rw [next_rand_eq_spec _ (prev_rand_valid y hy)]
  obtain ⟨a, b, c, d⟩ := y
  obtain ⟨ha, hb, hc, hd⟩ := hy
  simp only at ha hb hc hd
  unfold prev_rand next_rand_spec
  dsimp only
  generalize hC : (b + 2 ^ 32 - (c + 2 ^ 32 - (d + 2 ^ 32 - a) % 2 ^ 32) % 2 ^ 32) % 2 ^ 32 = C
  have hCl : C < 2 ^ 32 := by rw [← hC]; exact Nat.mod_lt _ (by norm_num)
  have rc := rotl_lt C 17 (by norm_num) hCl
  have hB : a ^^^ rotl C 17 < 2 ^ 32 := Nat.xor_lt_two_pow ha rc
  have rb := rotl_lt _ 27 (by norm_num) hB
  rw [xor_cancel_right]
  generalize rotl (a ^^^ rotl C 17) 27 = R at rb
  have he : (((d + 2 ^ 32 - a) % 2 ^ 32 + R) % 2 ^ 32 + 2 ^ 32 - R) % 2 ^ 32
      = (d + 2 ^ 32 - a) % 2 ^ 32 := by omega
  rw [he]
  have h2 : (C + (c + 2 ^ 32 - (d + 2 ^ 32 - a) % 2 ^ 32) % 2 ^ 32) % 2 ^ 32 = b := by
    rw [← hC]; omega
  have h3 : ((c + 2 ^ 32 - (d + 2 ^ 32 - a) % 2 ^ 32) % 2 ^ 32 + (d + 2 ^ 32 - a) % 2 ^ 32)
      % 2 ^ 32 = c := by omega
  have h4 : ((d + 2 ^ 32 - a) % 2 ^ 32 + a) % 2 ^ 32 = d := by omega
  rw [h2, h3, h4]

theorem rand_ctx_card : Nat.card {x : bb_rand_ctx // rand_ctx_valid x} = 2 ^ 128 := by
  have e : {x : bb_rand_ctx // rand_ctx_valid x} ≃
      Fin (2 ^ 32) × Fin (2 ^ 32) × Fin (2 ^ 32) × Fin (2 ^ 32) :=
    { toFun := fun s => (⟨s.1.a, s.2.1⟩, ⟨s.1.b, s.2.2.1⟩, ⟨s.1.c, s.2.2.2.1⟩, ⟨s.1.d, s.2.2.2.2⟩)
      invFun := fun t => ⟨⟨t.1.1, t.2.1.1, t.2.2.1.1, t.2.2.2.1⟩,
        t.1.2, t.2.1.2, t.2.2.1.2, t.2.2.2.2⟩
      left_inv := fun _ => rfl
      right_inv := fun _ => rfl }
  rw [Nat.card_congr e, Nat.card_prod, Nat.card_prod, Nat.card_prod, Nat.card_eq_fintype_card, Fintype.card_fin]
  norm_num

/-- C21: on the states of four 32-bit words, of which there are `2^128`, the state transition
of `next_rand` is a bijection: the state it leaves is again a state of four 32-bit words, two
states that step to the same state are equal, and every state `y` has exactly one predecessor,
the state `prev_rand y` obtained by running the step backwards. -/
theorem next_rand_bijective :
    Nat.card {x : bb_rand_ctx // rand_ctx_valid x} = 2 ^ 128 ∧
      Function.Bijective (fun s : {x : bb_rand_ctx // rand_ctx_valid x} =>
        (⟨(next_rand s.1).2, next_rand_valid s.1⟩ : {x : bb_rand_ctx // rand_ctx_valid x})) ∧
      (∀ x y, rand_ctx_valid x → rand_ctx_valid y →
        (next_rand x).2 = (next_rand y).2 → x = y) ∧
      (∀ y, rand_ctx_valid y →
        (rand_ctx_valid (prev_rand y) ∧ (next_rand (prev_rand y)).2 = y) ∧
        ∀ x, rand_ctx_valid x → (next_rand x).2 = y → x = prev_rand y) := by
  have hinj : ∀ x y, rand_ctx_valid x → rand_ctx_valid y →
      (next_rand x).2 = (next_rand y).2 → x = y := by
    intro x y hx hy h
    rw [← prev_rand_next_rand x hx, ← prev_rand_next_rand y hy, h]
  refine ⟨rand_ctx_card, ⟨?_, ?_⟩, hinj, ?_⟩
  · intro s t h
    exact Subtype.ext (hinj s.1 t.1 s.2 t.2 (congrArg Subtype.val h))
  · intro y
    exact ⟨⟨prev_rand y.1, prev_rand_valid y.1 y.2⟩, Subtype.ext (next_rand_prev_rand y.1 y.2)⟩
  · intro y hy
    refine ⟨⟨prev_rand_valid y hy, next_rand_prev_rand y hy⟩, ?_⟩
    intro x hx h
    rw [← h, prev_rand_next_rand x hx]

/-- Witness for C21: the state `(0xF1EA5EED, 1, 2, 3)` steps to a state whose predecessor
computed backwards is `(0xF1EA5EED, 1, 2, 3)` again. -/
theorem next_rand_bijective_witness :
    rand_ctx_valid (next_rand ⟨0xF1EA5EED, 1, 2, 3⟩).2 ∧
      prev_rand (next_rand ⟨0xF1EA5EED, 1, 2, 3⟩).2 = ⟨0xF1EA5EED, 1, 2, 3⟩ ∧
      (next_rand (prev_rand (next_rand ⟨0xF1EA5EED, 1, 2, 3⟩).2)).2 =
        (next_rand ⟨0xF1EA5EED, 1, 2, 3⟩).2 :=
  ⟨by decide, by decide,
    (next_rand_bijective.2.2.2 (next_rand ⟨0xF1EA5EED, 1, 2, 3⟩).2 (by decide)).1.2⟩

/-! ## The likelihood stays in range -/

theorem observation_probability_eq_ret (a b : observation) :
    observation_probability a b = observation_ret a b % 2 ^ 32 := by
  unfold observation_probability observation_ret
  rfl

theorem sensor_product_fold (a b : observation) (l : List Nat) (st : Nat × List Nat)
    (h1 : st.1 ≤ 2 ^ 32) (h2 : ∀ q, q ∈ st.2 → q < 2 ^ 64) :
    (l.foldl (sensor_product_step a b) st).1 =
        l.foldl (fun ret dir =>
          if a.sensor dir != b.sensor dir then
            ((ret * SENSOR_NOISE_CHANCE) % 2 ^ 64) >>> 32
          else
            ((ret * ((2 ^ 32 - SENSOR_NOISE_CHANCE) % 2 ^ 64)) % 2 ^ 64) >>> 32) st.1 ∧
      (l.foldl (sensor_product_step a b) st).2.length = st.2.length + l.length ∧
      ∀ q, q ∈ (l.foldl (sensor_product_step a b) st).2 → q < 2 ^ 64 := by
  induction l generalizing st with
  | nil => exact ⟨rfl, rfl, h2⟩
  | cons d l ih =>
    rw [List.foldl_cons, List.foldl_cons]
    have hs1 : (sensor_product_step a b st d).1 =
        (if a.sensor d != b.sensor d then ((st.1 * SENSOR_NOISE_CHANCE) % 2 ^ 64) >>> 32
         else ((st.1 * ((2 ^ 32 - SENSOR_NOISE_CHANCE) % 2 ^ 64)) % 2 ^ 64) >>> 32) := by
      unfold sensor_product_step
      split_ifs <;> rfl
    have hb1 : (sensor_product_step a b st d).1 ≤ 2 ^ 32 := by
      rw [hs1]
      split_ifs
      · rw [Nat.shiftRight_eq_div_pow]
        show st.1 * 536870912 % 2 ^ 64 / 2 ^ 32 ≤ 2 ^ 32
        omega
      · rw [Nat.shiftRight_eq_div_pow]
        show st.1 * 3758096384 % 2 ^ 64 / 2 ^ 32 ≤ 2 ^ 32
        omega
    have hl : (sensor_product_step a b st d).2.length = st.2.length + 1 := by
      unfold sensor_product_step
      split_ifs <;> simp
    have hb2 : ∀ q, q ∈ (sensor_product_step a b st d).2 → q < 2 ^ 64 := by
      intro q hq
      unfold sensor_product_step at hq
      split_ifs at hq
      · rcases List.mem_append.mp hq with h | h
        · exact h2 q h
        · rw [List.mem_singleton.mp h]
          show st.1 * 536870912 < 2 ^ 64
          omega
      · rcases List.mem_append.mp hq with h | h
        · exact h2 q h
        · rw [List.mem_singleton.mp h]
          show st.1 * 3758096384 < 2 ^ 64
          omega
    obtain ⟨i1, i2, i3⟩ := ih (sensor_product_step a b st d) hb1 hb2
    refine ⟨?_, ?_, i3⟩
    · rw [i1, hs1]
    · rw [i2, hl, List.length_cons]; omega

theorem sensor_products_eq (a b : observation) :
    (sensor_products a b).1 = sensor_probability a b ∧ (sensor_products a b).2.length = 4 ∧
      ∀ q, q ∈ (sensor_products a b).2 → q < 2 ^ 64 := by
  obtain ⟨h1, h2, h3⟩ := sensor_product_fold a b (List.range NUM_DIRECTIONS) (2 ^ 32, [])
    (le_refl _) (fun q hq => absurd hq (List.not_mem_nil q))
  exact ⟨h1, h2, h3⟩

theorem sensor_probability_bounds (a b : observation) :
    2 ^ 20 ≤ sensor_probability a b ∧ sensor_probability a b ≤ 2517630976 := by
  have hm := sensor_matches_le a b
  rw [sensor_probability_eq]
  generalize sensor_matches a b = m at hm
  interval_cases m <;> decide

theorem observation_ret_lt (a b : observation) : observation_ret a b < 2 ^ 32 := by
  obtain ⟨_, h2⟩ := sensor_probability_bounds a b
  unfold observation_ret
  dsimp only
  generalize sensor_probability a b = r at h2
  split_ifs
  · rw [Nat.shiftRight_eq_div_pow]
    show r * 251658240 % 2 ^ 64 / 2 / 2 ^ 32 < 2 ^ 32
    omega
  · rw [Nat.shiftRight_eq_div_pow]
    show r * 16777216 % 2 ^ 64 / 2 ^ 32 < 2 ^ 32
    omega
  · rw [Nat.shiftRight_eq_div_pow]
    show (r * 2 ^ 32 % 2 ^ 64 + 2 ^ 64 - 268435456) % 2 ^ 64 / 2 ^ 32 < 2 ^ 32
    omega
  · omega

/-- C22: for two observations with valid headings the fixed-point `observation_probability`
returns a value in `[2^12, 2^32)`, so never zero; each of the four products of the sensor loop
and the product of the `switch` (one of whose cases is taken) is below `2^64` as an integer, so
no multiplication wraps, and in the case 0 the subtraction of `DIR_NOISE_CHANCE` does not
borrow; the `uint64_t` value at the `return` is below `2^32`, so the cast to `uint32_t` returns
it unchanged. -/
theorem observation_probability_range (a b : observation)
    (ha : a.direction < NUM_DIRECTIONS) (hb : b.direction < NUM_DIRECTIONS) :
    (2 ^ 12 ≤ observation_probability a b ∧ observation_probability a b < 2 ^ 32 ∧
        observation_probability a b ≠ 0) ∧
      ((sensor_products a b).1 = sensor_probability a b ∧
        (sensor_products a b).2.length = 4 ∧
        ∀ q, q ∈ (sensor_products a b).2 → q < 2 ^ 64) ∧
      (∃ p, heading_product a b = some p ∧ p < 2 ^ 64 ∧
        (a.direction ^^^ b.direction = 0 → DIR_NOISE_CHANCE ≤ p)) ∧
      (observation_ret a b < 2 ^ 32 ∧ observation_probability a b = observation_ret a b) := by
  have hge := observation_probability_ge a b
  have hret := observation_ret_lt a b
  refine ⟨⟨hge, observation_probability_lt a b, ?_⟩, sensor_products_eq a b, ?_, hret, ?_⟩
  · intro h
    rw [h] at hge
    exact absurd hge (by norm_num)
  · obtain ⟨h1, h2⟩ := sensor_probability_bounds a b
    have hx := xor_lt_four a.direction b.direction ha hb
    unfold heading_product
    dsimp only
    generalize sensor_probability a b = r at h1 h2
    generalize a.direction ^^^ b.direction = x at hx
    split_ifs with c13 c2 c0
    · refine ⟨_, rfl, ?_, fun h => ?_⟩
      · show r * 251658240 < 2 ^ 64
        omega
      · omega
    · refine ⟨_, rfl, ?_, fun h => ?_⟩
      · show r * 16777216 < 2 ^ 64
        omega
      · omega
    · refine ⟨_, rfl, ?_, fun _ => ?_⟩
      · omega
      · show 268435456 ≤ r * 2 ^ 32
        omega
    · omega
  · rw [observation_probability_eq_ret, Nat.mod_eq_of_lt hret]

/-- Witness for C22: all four sensors differing and the headings EAST and WEST (opposite), the
pair at which the lower bound `2^12` is attained. -/
theorem observation_probability_range_witness :
    EAST < NUM_DIRECTIONS ∧ WEST < NUM_DIRECTIONS ∧
      observation_probability ⟨fun _ => true, EAST⟩ ⟨fun _ => false, WEST⟩ = 2 ^ 12 ∧
      (sensor_products ⟨fun _ => true, EAST⟩ ⟨fun _ => false, WEST⟩).2 =
        [2 ^ 61, 2 ^ 58, 2 ^ 55, 2 ^ 52] ∧
      heading_product ⟨fun _ => true, EAST⟩ ⟨fun _ => false, WEST⟩ = some (2 ^ 44) ∧
      observation_probability ⟨fun _ => true, EAST⟩ ⟨fun _ => false, WEST⟩ =
        observation_ret ⟨fun _ => true, EAST⟩ ⟨fun _ => false, WEST⟩ :=
  ⟨by decide, by decide, by decide, by decide, by decide,
    (observation_probability_range ⟨fun _ => true, EAST⟩ ⟨fun _ => false, WEST⟩
      (by decide) (by decide)).2.2.2.2⟩

/-! ## Renormalisation keeps the order -/

theorem normalized_entry_mono (s a b : Nat) (hb : b ≤ s) (hab : a ≤ b) :
    normalized_entry s a ≤ normalized_entry s b := by
  unfold normalized_entry
  by_cases h2 : b = s
  · rw [if_pos h2]
    by_cases h1 : a = s
    · rw [if_pos h1]
    · rw [if_neg h1]
      have hlt : a < s := by omega
      have : a * 2 ^ 32 / s < 2 ^ 32 :=
        Nat.div_lt_of_lt_mul (Nat.mul_lt_mul_of_pos_right hlt (by norm_num))
      omega
  · have h1 : a ≠ s := by omega
    rw [if_neg h1, if_neg h2]
    exact Nat.div_le_div_right (Nat.mul_le_mul_right _ hab)

theorem getD_map_of_lt (f : Nat → Nat) (l : List Nat) (i : Nat) (hi : i < l.length) :
    (l.map f).getD i 0 = f (l.getD i 0) := by
  rw [List.getD_eq_getElem _ _ (by rw [List.length_map]; exact hi),
    List.getD_eq_getElem _ _ hi, List.getElem_map]

theorem getD_le_sum (l : List Nat) (i : Nat) (hi : i < l.length) : l.getD i 0 ≤ l.sum := by
  rw [List.getD_eq_getElem _ _ hi]
  exact List.le_sum_of_mem (List.getElem_mem hi)

/-- C23: for an array of 32-bit entries (whose sum is held by the 64-bit accumulator
`sum_prob`), `normalize_probabilities` returns an array of the same length in which the order
of the entries is kept: `arr[i] <= arr[j]` gives `out[i] <= out[j]`; so an index holding the
maximum of the input holds the maximum of the output. -/
theorem normalize_probabilities_monotone (arr : List Nat) (hr : ∀ a, a ∈ arr → a < 2 ^ 32)
    (hsum : arr.sum < 2 ^ 64) :
    ∃ out, normalize_probabilities arr = some out ∧ out.length = arr.length ∧
      (∀ i j, i < arr.length → j < arr.length → arr.getD i 0 ≤ arr.getD j 0 →
        out.getD i 0 ≤ out.getD j 0) ∧
      ∀ j, j < arr.length → (∀ i, i < arr.length → arr.getD i 0 ≤ arr.getD j 0) →
        ∀ i, i < arr.length → out.getD i 0 ≤ out.getD j 0 := by
  have key : ∃ out, normalize_probabilities arr = some out ∧ out.length = arr.length ∧
      ∀ i j, i < arr.length → j < arr.length → arr.getD i 0 ≤ arr.getD j 0 →
        out.getD i 0 ≤ out.getD j 0 := by
    by_cases hs : arr.sum = 0
    · refine ⟨_, normalize_zero arr hs, List.length_replicate _ _, ?_⟩
      intro i j hi hj _
      rw [List.getD_eq_getElem _ _ (by rw [List.length_replicate]; exact hi),
        List.getD_eq_getElem _ _ (by rw [List.length_replicate]; exact hj),
        List.getElem_replicate, List.getElem_replicate]
    · refine ⟨_, (normalize_probabilities_eq_of_sum arr hr hsum hs).1, List.length_map _ _, ?_⟩
      intro i j hi hj hij
      rw [getD_map_of_lt _ _ _ hi, getD_map_of_lt _ _ _ hj]
      exact normalized_entry_mono _ _ _ (getD_le_sum arr j hj) hij
  obtain ⟨out, h1, h2, h3⟩ := key
  exact ⟨out, h1, h2, h3, fun j hj hmax i hi => h3 i j hi hj (hmax i hi)⟩

/-- Witness for C23: the array `[5, 2, 5, 0, 4]`, of sum 16, whose maximum 5 is held at the
indices 0 and 2. -/
theorem normalize_probabilities_monotone_witness :
    (∀ a, a ∈ [5, 2, 5, 0, 4] → a < 2 ^ 32) ∧ ([5, 2, 5, 0, 4] : List Nat).sum < 2 ^ 64 ∧
      normalize_probabilities [5, 2, 5, 0, 4] =
        some [1342177280, 536870912, 1342177280, 0, 1073741824] ∧
      ∃ out, normalize_probabilities [5, 2, 5, 0, 4] = some out ∧
        out.length = ([5, 2, 5, 0, 4] : List Nat).length ∧
        (∀ i j, i < ([5, 2, 5, 0, 4] : List Nat).length →
          j < ([5, 2, 5, 0, 4] : List Nat).length →
          ([5, 2, 5, 0, 4] : List Nat).getD i 0 ≤ ([5, 2, 5, 0, 4] : List Nat).getD j 0 →
          out.getD i 0 ≤ out.getD j 0) ∧
        ∀ j, j < ([5, 2, 5, 0, 4] : List Nat).length →
          (∀ i, i < ([5, 2, 5, 0, 4] : List Nat).length →
            ([5, 2, 5, 0, 4] : List Nat).getD i 0 ≤ ([5, 2, 5, 0, 4] : List Nat).getD j 0) →
          ∀ i, i < ([5, 2, 5, 0, 4] : List Nat).length → out.getD i 0 ≤ out.getD j 0 :=
  ⟨by decide, by decide, by decide,
    normalize_probabilities_monotone [5, 2, 5, 0, 4] (by decide) (by decide)⟩

end Robotloc
